import Mathlib

/-!
# Verification of the delivery-optimizer route planner

Shallow embedding of `src/route_planner.py` (class `RoutePlanner`).

Modelling conventions:
* Machine floats are modelled by exact rationals `ℚ`.
* Every distance in the source (`math.hypot`, `np.linalg.norm`) is used only
  in comparisons (`min(..., key=...)`, `<`), and `x ↦ Real.sqrt x` is strictly
  monotone on nonnegative reals, so all comparisons are carried out on squared
  Euclidean distances, which stay in `ℚ`.
* Python dicts keyed by good types are association lists `List (Good × ℚ)`
  preserving insertion order; indexing a missing key (`KeyError`) is modelled
  by `Except Good`, carrying the offending key.
* Python dicts keyed by client/vehicle/warehouse ids preserve insertion order
  (a language guarantee since Python 3.7), so they are modelled as lists in
  insertion order; lookups of ids that are present by construction are
  modelled as total functions.
* `unserved = set(cids)` holds nonnegative client ids; CPython iterates a
  set by scanning its hash-table slots in index order (`hash(n) = n` for
  these ids), which is ascending-id order only while every id indexes its
  own slot.  `setOrder8` models this exactly for collision-free sets that
  fit the initial 8-slot table; `initState` fixes one enumeration of the
  set, and theorems stated through it use that list only up to permutation
  or on instances whose ids are below 8, where the enumeration is the true
  CPython order.
* Python's `min(xs, key=k)` returns the first element of `xs` attaining the
  minimal key; `list.sort(key=k)` is a stable ascending sort.
* The unbounded `while unserved:` loop is modelled with explicit fuel;
  `BuildRes.outOfFuel` for every fuel value means the loop never terminates.
-/

instance {ε α : Type} [DecidableEq ε] [DecidableEq α] : DecidableEq (Except ε α) :=
  fun a b =>
  match a, b with
  | Except.error e, Except.error e' =>
    if h : e = e' then isTrue (by rw [h]) else isFalse (by intro hc; cases hc; exact h rfl)
  | Except.error _, Except.ok _ => isFalse (by intro hc; cases hc)
  | Except.ok _, Except.error _ => isFalse (by intro hc; cases hc)
  | Except.ok v, Except.ok v' =>
    if h : v = v' then isTrue (by rw [h]) else isFalse (by intro hc; cases hc; exact h rfl)

/-- A 2D point, coordinates as exact rationals. -/
abbrev Point := ℚ × ℚ

/-- A good type (key of a demand dict). -/
abbrev Good := ℕ

/-- Squared Euclidean distance.  The source computes
`math.hypot(a[0]-b[0], a[1]-b[1])` but only ever compares distances, and
squaring preserves every such comparison. -/
def euclidSq (a b : Point) : ℚ :=
  (a.1 - b.1) ^ 2 + (a.2 - b.2) ^ 2

/-- Python's `min(xs, key=k)`: the first element of `xs` attaining the minimal
key, `none` on the empty list. -/
def minByQ {α : Type} (k : α → ℚ) : List α → Option α
  | [] => none
  | x :: xs =>
    match minByQ k xs with
    | none => some x
    | some m => some (if k m < k x then m else x)

/-- Stable insertion used by `sortByQ`: inserts `x` before the first element
whose key is `≥` the key of `x`. -/
def insertByQ {α : Type} (k : α → ℚ) (x : α) : List α → List α
  | [] => [x]
  | y :: ys => if k x ≤ k y then x :: y :: ys else y :: insertByQ k x ys

/-- Python's stable ascending `list.sort(key=k)`: a stable result is unique,
and stable insertion sort produces it. -/
def sortByQ {α : Type} (k : α → ℚ) (l : List α) : List α :=
  l.foldr (insertByQ k) []

/-- A fixed enumeration (ascending sort) of the assigned client ids, used by
`initState` to enumerate `set(cids)`.  CPython's true set-iteration order is
by hash slot (see `setOrder8`), which coincides with ascending ids only
while every id indexes its own slot; the theorems stated through `initState`
use this list only up to permutation, or on instances whose ids are below 8,
where ascending IS the true order. -/
def sortIds (l : List ℕ) : List ℕ :=
  sortByQ (fun n => (n : ℚ)) l

/-- Dict read `m[g]` on a goods dict: `none` models a `KeyError`. -/
def lookupG : List (Good × ℚ) → Good → Option ℚ
  | [], _ => none
  | (g', v) :: rest, g => if g' = g then some v else lookupG rest g

/-- Dict write `m[g] = x` for a key already present (CPython keeps the key's
position); leaves the dict unchanged when the key is absent (the callers
below guard with `lookupG`). -/
def setG : List (Good × ℚ) → Good → ℚ → List (Good × ℚ)
  | [], _, _ => []
  | (g', v) :: rest, g, x => if g' = g then (g', x) :: rest else (g', v) :: setG rest g x

/-- Dict update `m[g] += x`; a missing key raises `KeyError` (line
`total_demands[g] += amt` / `inventory[g] += ...` of the source). -/
def addG (m : List (Good × ℚ)) (g : Good) (x : ℚ) : Except Good (List (Good × ℚ)) :=
  match lookupG m g with
  | none => Except.error g
  | some v => Except.ok (setG m g (v + x))

/-- Runs `m[g] += amt` for every `(g, amt)` of a demand dict, in dict order
(the `for g, amt in dvec.items(): new_inv[g] += amt` loops of the source). -/
def addAllG (m : List (Good × ℚ)) : List (Good × ℚ) → Except Good (List (Good × ℚ))
  | [] => Except.ok m
  | (g, amt) :: rest =>
    match addG m g amt with
    | Except.error e => Except.error e
    | Except.ok m' => addAllG m' rest

/-- `total_inventory(inv)`: `sum(inv.values())`. -/
def totalInventory (inv : List (Good × ℚ)) : ℚ :=
  (inv.map Prod.snd).sum

/-- `sum(-amt for amt in dvec.values())` — the pickup weight of a demand dict. -/
def pickupWeight (dvec : List (Good × ℚ)) : ℚ :=
  (dvec.map fun p => -p.2).sum

/-- `sum(dvec.values())` — the delivery weight used by the reload sort. -/
def deliveryWeight (dvec : List (Good × ℚ)) : ℚ :=
  (dvec.map Prod.snd).sum

/-- The per-good delivery feasibility scan (source lines 144–150):
`for g, amt in dvec.items(): if inventory[g] < amt: ok = False; break`.
The scan is in dict order and stops at the first insufficient good, so a
`KeyError` surfaces only if the missing key is reached. -/
def deliveryFeasible (inv : List (Good × ℚ)) : List (Good × ℚ) → Except Good Bool
  | [] => Except.ok true
  | (g, amt) :: rest =>
    match lookupG inv g with
    | none => Except.error g
    | some v => if v < amt then Except.ok false else deliveryFeasible inv rest

/-- A client record: id, location, demand dict (insertion order preserved)
and the `is_pickup` flag. -/
structure Client where
  cid : ℕ
  cloc : Point
  demand : List (Good × ℚ)
  pickupFlag : Bool
deriving DecidableEq, Repr

/-- The read-only context of `_build_capacity_route` for one vehicle:
capacity, home depot, the full warehouse catalog (in input order), the
client data maps and the planner's good-type list. -/
structure BuildCtx where
  capacity : ℚ
  depot : Point
  whs : List (ℕ × Point)
  loc : ℕ → Point
  dvec : ℕ → List (Good × ℚ)
  pk : ℕ → Bool
  goodTypes : List Good

/-- The mutable state of the route-building loop. -/
structure BState where
  unserved : List ℕ
  inventory : List (Good × ℚ)
  route : List Point
  current : Point
deriving DecidableEq, Repr

/-- Feasibility filter (source lines 136–150): collects, in unserved-set
order, the clients passing their flag-selected feasibility test.  The first
`KeyError` raised by a delivery scan aborts the whole computation. -/
def feasFilter (ctx : BuildCtx) (inv : List (Good × ℚ)) : List ℕ → Except Good (List ℕ)
  | [] => Except.ok []
  | cid :: rest =>
    if ctx.pk cid then
      if totalInventory inv + pickupWeight (ctx.dvec cid) ≤ ctx.capacity then
        match feasFilter ctx inv rest with
        | Except.error e => Except.error e
        | Except.ok l => Except.ok (cid :: l)
      else feasFilter ctx inv rest
    else
      match deliveryFeasible inv (ctx.dvec cid) with
      | Except.error e => Except.error e
      | Except.ok true =>
        match feasFilter ctx inv rest with
        | Except.error e => Except.error e
        | Except.ok l => Except.ok (cid :: l)
      | Except.ok false => feasFilter ctx inv rest

/-- Pickup application (source lines 160–164):
`for g, amt in dvec.items(): pickup_amt = -amt; inventory[g] += pickup_amt`. -/
def applyPickup (inv : List (Good × ℚ)) : List (Good × ℚ) → Except Good (List (Good × ℚ))
  | [] => Except.ok inv
  | (g, amt) :: rest =>
    match addG inv g (-amt) with
    | Except.error e => Except.error e
    | Except.ok inv' => applyPickup inv' rest

/-- Delivery application (source lines 167–170):
`for g, amt in dvec.items(): inventory[g] -= amt`. -/
def applyDelivery (inv : List (Good × ℚ)) : List (Good × ℚ) → Except Good (List (Good × ℚ))
  | [] => Except.ok inv
  | (g, amt) :: rest =>
    match lookupG inv g with
    | none => Except.error g
    | some v => applyDelivery (setG inv g (v - amt)) rest

/-- Greedy warehouse reload (source lines 229–238): scan the sorted delivery
list, and whenever a client's full weight fits in the remaining capacity add
its whole demand dict to the fresh inventory. -/
def reloadGo (capLeft : ℚ) (acc : List (Good × ℚ)) :
    List (ℕ × List (Good × ℚ)) → Except Good (List (Good × ℚ))
  | [] => Except.ok acc
  | (_, dv) :: rest =>
    let w := deliveryWeight dv
    if w ≤ capLeft then
      match addAllG acc dv with
      | Except.error e => Except.error e
      | Except.ok acc' => reloadGo (capLeft - w) acc' rest
    else reloadGo capLeft acc rest

/-- The forced warehouse visit (source lines 218–241): append the nearest
warehouse's point, zero the inventory (immediately superseded by the reload,
since nothing reads it in between), and rebuild a fresh inventory from the
still-unserved delivery clients sorted ascending by total weight. -/
def whVisit (ctx : BuildCtx) (s : BState) (whPt : Point) : Except Good BState :=
  match reloadGo ctx.capacity (ctx.goodTypes.map fun g => (g, (0 : ℚ)))
      (sortByQ (fun item => deliveryWeight item.2)
        ((s.unserved.filter fun cid => !ctx.pk cid).map fun cid => (cid, ctx.dvec cid))) with
  | Except.error e => Except.error e
  | Except.ok newInv =>
    Except.ok ⟨s.unserved, newInv, s.route ++ [whPt], whPt⟩

/-- One iteration of the `while unserved:` loop (source lines 135–241).
Only invoked with `s.unserved ≠ []`; the two `Except.ok s` fallbacks are
unreachable (`min` of the nonempty unserved set / of the nonempty warehouse
catalog always exists). -/
def stepB (ctx : BuildCtx) (s : BState) : Except Good BState :=
  match feasFilter ctx s.inventory s.unserved with
  | Except.error e => Except.error e
  | Except.ok feas =>
    match minByQ (fun cid => euclidSq s.current (ctx.loc cid)) feas with
    | some next =>
      let l := ctx.loc next
      match (if ctx.pk next then applyPickup s.inventory (ctx.dvec next)
             else applyDelivery s.inventory (ctx.dvec next)) with
      | Except.error e => Except.error e
      | Except.ok inv2 => Except.ok ⟨s.unserved.erase next, inv2, s.route ++ [l], l⟩
    | none =>
      match minByQ (fun cid => euclidSq s.current (ctx.loc cid)) s.unserved with
      | none => Except.ok s
      | some nc =>
        match minByQ (fun w => euclidSq s.current w.2) ctx.whs with
        | none => Except.ok s
        | some wh =>
          if euclidSq s.current (ctx.loc nc) < euclidSq s.current wh.2 then
            if ctx.pk nc then
              if totalInventory s.inventory + pickupWeight (ctx.dvec nc) ≤ ctx.capacity then
                match applyPickup s.inventory (ctx.dvec nc) with
                | Except.error e => Except.error e
                | Except.ok inv2 =>
                  Except.ok ⟨s.unserved.erase nc, inv2, s.route ++ [ctx.loc nc], ctx.loc nc⟩
              else whVisit ctx s wh.2
            else
              match deliveryFeasible s.inventory (ctx.dvec nc) with
              | Except.error e => Except.error e
              | Except.ok true =>
                match applyDelivery s.inventory (ctx.dvec nc) with
                | Except.error e => Except.error e
                | Except.ok inv2 =>
                  Except.ok ⟨s.unserved.erase nc, inv2, s.route ++ [ctx.loc nc], ctx.loc nc⟩
              | Except.ok false => whVisit ctx s wh.2
          else whVisit ctx s wh.2

/-- Result of route building: a finished route, a `KeyError` on a good, or
exhausted fuel (the concrete loop would still be running). -/
inductive BuildRes where
  | ok (r : List Point)
  | keyError (g : Good)
  | outOfFuel
deriving DecidableEq, Repr

/-- Route closure (source lines 243–244): append the depot unless the vehicle
is already there. -/
def closeRoute (ctx : BuildCtx) (s : BState) : List Point :=
  if s.current = ctx.depot then s.route else s.route ++ [ctx.depot]

/-- The `while unserved:` loop with explicit fuel. -/
def buildLoop (ctx : BuildCtx) (fuel : ℕ) (s : BState) : BuildRes :=
  if s.unserved = [] then BuildRes.ok (closeRoute ctx s)
  else
    match fuel with
    | 0 => BuildRes.outOfFuel
    | n + 1 =>
      match stepB ctx s with
      | Except.error g => BuildRes.keyError g
      | Except.ok s' => buildLoop ctx n s'

/-- Initial per-good totals (source lines 107–111): for every non-pickup
client, `total_demands[g] += amt` over its demand dict. -/
def initTotals (ctx : BuildCtx) : List ℕ → List (Good × ℚ) → Except Good (List (Good × ℚ))
  | [], td => Except.ok td
  | cid :: rest, td =>
    if ctx.pk cid then initTotals ctx rest td
    else
      match addAllG td (ctx.dvec cid) with
      | Except.error e => Except.error e
      | Except.ok td' => initTotals ctx rest td'

/-- Greedy depot preload (source lines 113–122): walk the good types in
enumeration order (the totals dict has exactly those keys, in order), skip
nonpositive totals, load `min(total, cap_left)`, and stop once capacity is
exhausted (the remaining goods keep their initial `0.0`). -/
def preloadGo : List (Good × ℚ) → ℚ → List (Good × ℚ)
  | [], _ => []
  | (g, td) :: rest, capLeft =>
    if td ≤ 0 then (g, 0) :: preloadGo rest capLeft
    else
      let toLoad := min td capLeft
      if capLeft - toLoad ≤ 0 then (g, toLoad) :: rest.map (fun p => (p.1, (0 : ℚ)))
      else (g, toLoad) :: preloadGo rest (capLeft - toLoad)

/-- The initial loop state: all clients unserved (one fixed enumeration of
the set, see `sortIds`), preloaded inventory, route `[depot]`, current
location the depot. -/
def initState (ctx : BuildCtx) (cids : List ℕ) (inv0 : List (Good × ℚ)) : BState :=
  ⟨sortIds cids, inv0, [ctx.depot], ctx.depot⟩

/-- `RoutePlanner._build_capacity_route`, with explicit fuel for the main
loop. -/
def buildCapacityRoute (ctx : BuildCtx) (cids : List ℕ) (fuel : ℕ) : BuildRes :=
  match initTotals ctx cids (ctx.goodTypes.map fun g => (g, (0 : ℚ))) with
  | Except.error g => BuildRes.keyError g
  | Except.ok tds => buildLoop ctx fuel (initState ctx cids (preloadGo tds ctx.capacity))

/-- A vehicle record: id, scalar capacity, home warehouse id (the `type`
label is informational only and never read by the planner). -/
structure Vehicle where
  vid : ℕ
  capacity : ℚ
  whid : ℕ
deriving DecidableEq, Repr

/-- A `RoutePlanner` instance: the three input catalogs, in input order, plus
the clustering iteration cap (`max_iters`, default 10 in the source). -/
structure Planner where
  warehouses : List (ℕ × Point)
  clients : List Client
  vehicles : List Vehicle
  maxIters : ℕ
deriving DecidableEq, Repr

/-- Warehouse lookup `self.warehouses[wid]`; the planner only looks up ids
present in the catalog, so a default serves the impossible branch. -/
def whLocOf (P : Planner) (wid : ℕ) : Point :=
  match P.warehouses.find? (fun w => w.1 = wid) with
  | some w => w.2
  | none => ((0 : ℚ), (0 : ℚ))

/-- Client-dict lookup by id (the `self.clients` / `self.demands` /
`self.is_pickup` dicts); ids looked up are always present. -/
def clientOf (P : Planner) (cid : ℕ) : Client :=
  match P.clients.find? (fun c => c.cid = cid) with
  | some c => c
  | none => ⟨cid, ((0 : ℚ), (0 : ℚ)), [], false⟩

/-- The planner's good-type list (source line 40):
`list(next(iter(self.demands.values())).keys())` — the key list of the
first client's demand dict. -/
def goodTypesOf (P : Planner) : List Good :=
  match P.clients with
  | [] => []
  | c :: _ => c.demand.map Prod.fst

/-- Initial cluster centers: each vehicle's home warehouse location, in
vehicle input order (dict insertion order). -/
def centers0 (P : Planner) : List (ℕ × Point) :=
  P.vehicles.map fun v => (v.vid, whLocOf P v.whid)

/-- The vehicle a client is assigned to (source lines 50–53):
`min(self.centers.keys(), key=...)` over the centers dict in vehicle input
order, so distance ties go to the center supplied first. -/
def nearestCenter (centers : List (ℕ × Point)) (p : Point) : Option ℕ :=
  (minByQ (fun c => euclidSq p c.2) centers).map Prod.fst

/-- `assign_clients` restricted to one vehicle: the ids of the clients whose
nearest center is `vid`, in client input order (the dict-of-lists is built by
appending while iterating `self.clients.items()`). -/
def assignedTo (centers : List (ℕ × Point)) (clients : List Client) (vid : ℕ) : List ℕ :=
  (clients.filter fun c => nearestCenter centers c.cloc = some vid).map Client.cid

/-- Unweighted centroid (`np.mean(pts, axis=0)`). -/
def centroid (pts : List Point) : Point :=
  ((pts.map Prod.fst).sum / pts.length, (pts.map Prod.snd).sum / pts.length)

/-- `update_centers`: every center becomes the centroid of its assigned
clients' points plus its home warehouse point (appended last). -/
def updateCenters (P : Planner) (centers : List (ℕ × Point)) : List (ℕ × Point) :=
  centers.map fun c =>
    (c.1, centroid (((assignedTo centers P.clients c.1).map
        fun cid => (clientOf P cid).cloc) ++
      [whLocOf P ((match P.vehicles.find? (fun v => v.vid = c.1) with
                   | some v => v.whid
                   | none => 0))]))

/-- The Lloyd iteration of `plan_routes` (source lines 79–84), returning the
centers at which the final `assign_clients` call was made.  The float test
`shift < self.tol` is abstracted as the oracle `stop` (indexed by iteration
number); every theorem below holds for every oracle.  `none` models
`max_iters = 0` (the loop body never runs and `assignment` stays `{}`). -/
def lloydCenters (P : Planner) (stop : ℕ → Bool) (i : ℕ) :
    ℕ → List (ℕ × Point) → Option (List (ℕ × Point))
  | 0, _ => none
  | 1, cs => some cs
  | n + 2, cs =>
    if stop i then some cs
    else lloydCenters P stop (i + 1) (n + 1) (updateCenters P cs)

/-- The centers in effect for the assignment `plan_routes` hands to the route
builder. -/
def finalCenters (P : Planner) (stop : ℕ → Bool) : Option (List (ℕ × Point)) :=
  lloydCenters P stop 0 P.maxIters (centers0 P)

/-- The build context `plan_routes` passes for one vehicle. -/
def ctxOf (P : Planner) (v : Vehicle) : BuildCtx :=
  { capacity := v.capacity
    depot := whLocOf P v.whid
    whs := P.warehouses
    loc := fun cid => (clientOf P cid).cloc
    dvec := fun cid => (clientOf P cid).demand
    pk := fun cid => (clientOf P cid).pickupFlag
    goodTypes := goodTypesOf P }

/-- `RoutePlanner.plan_routes`: Lloyd clustering, then one capacity route per
vehicle, assembled in vehicle input order. -/
def planRoutes (P : Planner) (stop : ℕ → Bool) (fuel : ℕ) : List (ℕ × BuildRes) :=
  match finalCenters P stop with
  | none => []
  | some cs =>
    P.vehicles.map fun v =>
      (v.vid, buildCapacityRoute (ctxOf P v) (assignedTo cs P.clients v.vid) fuel)

/-! ## Basic lemmas: Python `min`, dict operations, stable sort -/

lemma minByQ_eq_none {α : Type} {k : α → ℚ} {l : List α} :
    minByQ k l = none ↔ l = [] := by
  cases l with
  | nil => simp [minByQ]
  | cons x xs =>
    simp only [minByQ]
    cases h : minByQ k xs <;> simp

lemma minByQ_mem {α : Type} {k : α → ℚ} : ∀ {l : List α} {a : α},
    minByQ k l = some a → a ∈ l
  | [], a, h => by simp [minByQ] at h
  | x :: xs, a, h => by
    simp only [minByQ] at h
    cases hm : minByQ k xs with
    | none => rw [hm] at h; simp at h; simp [h]
    | some m =>
      rw [hm] at h
      simp only [Option.some.injEq] at h
      by_cases hlt : k m < k x
      · rw [if_pos hlt] at h
        exact List.mem_cons_of_mem _ (h ▸ minByQ_mem hm)
      · rw [if_neg hlt] at h
        simp [← h]

lemma minByQ_le {α : Type} {k : α → ℚ} : ∀ {l : List α} {a : α},
    minByQ k l = some a → ∀ b ∈ l, k a ≤ k b
  | [], a, h => by simp [minByQ] at h
  | x :: xs, a, h => by
    simp only [minByQ] at h
    cases hm : minByQ k xs with
    | none =>
      rw [hm] at h; simp only [Option.some.injEq] at h
      have hxs : xs = [] := minByQ_eq_none.mp hm
      subst hxs; simp [← h]
    | some m =>
      rw [hm] at h
      simp only [Option.some.injEq] at h
      intro b hb
      by_cases hlt : k m < k x
      · rw [if_pos hlt] at h
        subst h
        rcases List.mem_cons.mp hb with rfl | hbx
        · exact le_of_lt hlt
        · exact minByQ_le hm b hbx
      · rw [if_neg hlt] at h
        subst h
        rcases List.mem_cons.mp hb with rfl | hbx
        · exact le_refl _
        · exact le_trans (not_lt.mp hlt) (minByQ_le hm b hbx)

/-- Python's `min` returns the FIRST element attaining the minimum: everything
strictly before the returned element has a strictly larger key. -/
lemma minByQ_first {α : Type} {k : α → ℚ} : ∀ {l : List α} {a : α},
    minByQ k l = some a →
    ∃ l₁ l₂, l = l₁ ++ a :: l₂ ∧ ∀ b ∈ l₁, k a < k b
  | [], a, h => by simp [minByQ] at h
  | x :: xs, a, h => by
    simp only [minByQ] at h
    cases hm : minByQ k xs with
    | none =>
      rw [hm] at h; simp only [Option.some.injEq] at h
      exact ⟨[], xs, by simp [← h], by simp⟩
    | some m =>
      rw [hm] at h
      simp only [Option.some.injEq] at h
      by_cases hlt : k m < k x
      · rw [if_pos hlt] at h
        subst h
        obtain ⟨l₁, l₂, rfl, hl₁⟩ := minByQ_first hm
        refine ⟨x :: l₁, l₂, by simp, ?_⟩
        intro b hb
        rcases List.mem_cons.mp hb with rfl | hb
        · exact hlt
        · exact hl₁ b hb
      · rw [if_neg hlt] at h
        subst h
        exact ⟨[], xs, rfl, by simp⟩

lemma lookupG_eq_none {m : List (Good × ℚ)} {g : Good} :
    lookupG m g = none ↔ g ∉ m.map Prod.fst := by
  induction m with
  | nil => simp [lookupG]
  | cons p rest ih =>
    obtain ⟨g', v⟩ := p
    by_cases h : g' = g
    · subst h; simp [lookupG]
    · simp [lookupG, h, ih, Ne.symm h]

lemma lookupG_isSome {m : List (Good × ℚ)} {g : Good}
    (h : g ∈ m.map Prod.fst) : ∃ v, lookupG m g = some v := by
  cases hl : lookupG m g with
  | none => exact absurd h (lookupG_eq_none.mp hl)
  | some v => exact ⟨v, rfl⟩

lemma lookupG_mem {m : List (Good × ℚ)} {g : Good} {v : ℚ}
    (h : lookupG m g = some v) : (g, v) ∈ m := by
  induction m with
  | nil => simp [lookupG] at h
  | cons p rest ih =>
    obtain ⟨g', v'⟩ := p
    by_cases hg : g' = g
    · subst hg; simp [lookupG] at h
      subst h; exact List.mem_cons_self _ _
    · simp only [lookupG, if_neg hg] at h
      exact List.mem_cons_of_mem _ (ih h)

lemma setG_keys (m : List (Good × ℚ)) (g : Good) (x : ℚ) :
    (setG m g x).map Prod.fst = m.map Prod.fst := by
  induction m with
  | nil => simp [setG]
  | cons p rest ih =>
    obtain ⟨g', v⟩ := p
    by_cases h : g' = g
    · subst h; simp [setG]
    · simp [setG, h, ih]

lemma lookupG_setG_self {m : List (Good × ℚ)} {g : Good} (x : ℚ)
    (h : g ∈ m.map Prod.fst) : lookupG (setG m g x) g = some x := by
  induction m with
  | nil => simp at h
  | cons p rest ih =>
    obtain ⟨g', v⟩ := p
    by_cases hg : g' = g
    · subst hg; simp [setG, lookupG]
    · simp only [setG, if_neg hg, lookupG]
      apply ih
      simp only [List.map_cons, List.mem_cons] at h
      rcases h with h | h
      · exact absurd h.symm hg
      · exact h

lemma lookupG_setG_ne {m : List (Good × ℚ)} {g g' : Good} (x : ℚ)
    (h : g' ≠ g) : lookupG (setG m g x) g' = lookupG m g' := by
  induction m with
  | nil => simp [setG]
  | cons p rest ih =>
    obtain ⟨g₀, v⟩ := p
    by_cases hg : g₀ = g
    · subst hg
      simp only [setG, if_pos rfl, lookupG]
      rw [if_neg (fun hh : g₀ = g' => h hh.symm), if_neg (fun hh : g₀ = g' => h hh.symm)]
    · simp only [setG, if_neg hg, lookupG, ih]

lemma mem_setG {m : List (Good × ℚ)} {g : Good} {x : ℚ} {p : Good × ℚ}
    (h : p ∈ setG m g x) : p = (g, x) ∨ p ∈ m := by
  induction m with
  | nil => simp [setG] at h
  | cons q rest ih =>
    obtain ⟨g', v⟩ := q
    by_cases hg : g' = g
    · subst hg
      simp only [setG, if_pos rfl] at h
      rcases List.mem_cons.mp h with rfl | h
      · exact Or.inl rfl
      · exact Or.inr (List.mem_cons_of_mem _ h)
    · simp only [setG, if_neg hg] at h
      rcases List.mem_cons.mp h with rfl | h
      · exact Or.inr (List.mem_cons_self _ _)
      · rcases ih h with h | h
        · exact Or.inl h
        · exact Or.inr (List.mem_cons_of_mem _ h)

lemma totalInventory_setG {m : List (Good × ℚ)} {g : Good} {v : ℚ} (x : ℚ)
    (hnd : (m.map Prod.fst).Nodup) (h : lookupG m g = some v) :
    totalInventory (setG m g x) = totalInventory m - v + x := by
  induction m with
  | nil => simp [lookupG] at h
  | cons p rest ih =>
    obtain ⟨g', v'⟩ := p
    simp only [List.map_cons, List.nodup_cons] at hnd
    by_cases hg : g' = g
    · subst hg
      simp [lookupG] at h
      subst h
      simp [setG, totalInventory]
      ring
    · simp only [lookupG, if_neg hg] at h
      simp only [setG, if_neg hg]
      simp only [totalInventory, List.map_cons, List.sum_cons]
      have := ih hnd.2 h
      simp only [totalInventory] at this
      rw [this]
      ring

/-! ## Dict-accumulation lemmas -/

/-- The amount a demand dict carries for a good (`0` when absent). -/
def amtAt (m : List (Good × ℚ)) (g : Good) : ℚ :=
  (lookupG m g).getD 0

lemma amtAt_nonneg {m : List (Good × ℚ)} (h : ∀ p ∈ m, 0 ≤ p.2) (g : Good) :
    0 ≤ amtAt m g := by
  unfold amtAt
  cases hl : lookupG m g with
  | none => simp
  | some v => simpa using h _ (lookupG_mem hl)

lemma amtAt_nonpos {m : List (Good × ℚ)} (h : ∀ p ∈ m, p.2 ≤ 0) (g : Good) :
    amtAt m g ≤ 0 := by
  unfold amtAt
  cases hl : lookupG m g with
  | none => simp
  | some v => simpa using h _ (lookupG_mem hl)

lemma addAllG_ok : ∀ {dv m : List (Good × ℚ)},
    (∀ g ∈ dv.map Prod.fst, g ∈ m.map Prod.fst) →
    ∃ m', addAllG m dv = Except.ok m' ∧ m'.map Prod.fst = m.map Prod.fst
  | [], m, _ => ⟨m, rfl, rfl⟩
  | (g, a) :: rest, m, h => by
    obtain ⟨v, hv⟩ := lookupG_isSome (h g (by simp))
    have hsub : ∀ g' ∈ rest.map Prod.fst, g' ∈ (setG m g (v + a)).map Prod.fst := by
      intro g' hg'
      rw [setG_keys]
      exact h g' (by simp [hg'])
    obtain ⟨m', hm', hkeys⟩ := addAllG_ok hsub
    refine ⟨m', ?_, by rw [hkeys, setG_keys]⟩
    simp only [addAllG, addG, hv, hm']

lemma addAllG_keys : ∀ {dv m m' : List (Good × ℚ)},
    addAllG m dv = Except.ok m' → m'.map Prod.fst = m.map Prod.fst
  | [], m, m', h => by simp only [addAllG] at h; cases h; rfl
  | (g, a) :: rest, m, m', h => by
    simp only [addAllG, addG] at h
    cases hv : lookupG m g with
    | none => rw [hv] at h; cases h
    | some v =>
      rw [hv] at h
      have := @addAllG_keys rest _ _ h
      rw [this, setG_keys]

lemma addAllG_lookup : ∀ {dv m m' : List (Good × ℚ)},
    addAllG m dv = Except.ok m' → (dv.map Prod.fst).Nodup →
    ∀ g v, lookupG m g = some v → lookupG m' g = some (v + amtAt dv g)
  | [], m, m', h, _, g, v, hv => by
    simp only [addAllG] at h; cases h
    simp [amtAt, hv, lookupG]
  | (g₁, a₁) :: rest, m, m', h, hnd, g, v, hv => by
    simp only [addAllG, addG] at h
    simp only [List.map_cons, List.nodup_cons] at hnd
    cases hv₁ : lookupG m g₁ with
    | none => rw [hv₁] at h; cases h
    | some v₁ =>
      rw [hv₁] at h
      by_cases hg : g = g₁
      · subst hg
        have hlook : lookupG (setG m g (v₁ + a₁)) g = some (v₁ + a₁) := by
          apply lookupG_setG_self
          exact List.mem_map.mpr ⟨(g, v), lookupG_mem hv, rfl⟩
        have := addAllG_lookup h hnd.2 g (v₁ + a₁) hlook
        rw [this]
        have hrest : lookupG rest g = none :=
          lookupG_eq_none.mpr hnd.1
        have hvv : v₁ = v := by rw [hv₁] at hv; exact (Option.some.injEq _ _).mp hv
        subst hvv
        simp [amtAt, lookupG, hrest]
      · have hlook : lookupG (setG m g₁ (v₁ + a₁)) g = some v := by
          rw [lookupG_setG_ne _ hg, hv]
        have := addAllG_lookup h hnd.2 g v hlook
        rw [this]
        simp [amtAt, lookupG, Ne.symm hg]

lemma addAllG_total : ∀ {dv m m' : List (Good × ℚ)},
    addAllG m dv = Except.ok m' → (m.map Prod.fst).Nodup →
    totalInventory m' = totalInventory m + deliveryWeight dv
  | [], m, m', h, _ => by
    simp only [addAllG] at h; cases h; simp [deliveryWeight]
  | (g₁, a₁) :: rest, m, m', h, hnd => by
    simp only [addAllG, addG] at h
    cases hv₁ : lookupG m g₁ with
    | none => rw [hv₁] at h; cases h
    | some v₁ =>
      rw [hv₁] at h
      have hnd' : ((setG m g₁ (v₁ + a₁)).map Prod.fst).Nodup := by
        rw [setG_keys]; exact hnd
      have := addAllG_total h hnd'
      rw [this, totalInventory_setG _ hnd hv₁]
      simp [deliveryWeight]
      ring

lemma lookupG_of_mem {m : List (Good × ℚ)} {p : Good × ℚ}
    (hnd : (m.map Prod.fst).Nodup) (h : p ∈ m) : lookupG m p.1 = some p.2 := by
  induction m with
  | nil => simp at h
  | cons q rest ih =>
    obtain ⟨g', v'⟩ := q
    simp only [List.map_cons, List.nodup_cons] at hnd
    rcases List.mem_cons.mp h with rfl | h
    · simp [lookupG]
    · have hne : g' ≠ p.1 := by
        intro hc
        exact hnd.1 (hc ▸ List.mem_map.mpr ⟨p, h, rfl⟩)
      simp only [lookupG, if_neg hne]
      exact ih hnd.2 h

lemma mem_of_lookupG {m : List (Good × ℚ)} {g : Good} {v : ℚ}
    (h : lookupG m g = some v) : (g, v) ∈ m := lookupG_mem h

lemma entries_nonneg_of_lookup {m : List (Good × ℚ)}
    (hnd : (m.map Prod.fst).Nodup)
    (h : ∀ g v, lookupG m g = some v → 0 ≤ v) : ∀ p ∈ m, 0 ≤ p.2 :=
  fun p hp => h p.1 p.2 (lookupG_of_mem hnd hp)

/-! ## The two application loops agree, and both subtract the demand dict -/

/-- The pickup loop (`inventory[g] += -amt`) and the delivery loop
(`inventory[g] -= amt`) perform the same inventory update: the client's
signed demand dict is subtracted pointwise, whatever the flag says. -/
lemma applyPickup_eq_applyDelivery : ∀ (dv inv : List (Good × ℚ)),
    applyPickup inv dv = applyDelivery inv dv
  | [], inv => rfl
  | (g, amt) :: rest, inv => by
    cases hv : lookupG inv g with
    | none => simp [applyPickup, applyDelivery, addG, hv]
    | some v =>
      simp only [applyPickup, applyDelivery, addG, hv]
      rw [show v + -amt = v - amt by ring]
      exact applyPickup_eq_applyDelivery rest _

/-- `applyDelivery` is `addAllG` of the negated demand dict. -/
lemma applyDelivery_eq_addAllG : ∀ (dv inv : List (Good × ℚ)),
    applyDelivery inv dv = addAllG inv (dv.map fun p => (p.1, -p.2))
  | [], inv => rfl
  | (g, amt) :: rest, inv => by
    cases hv : lookupG inv g with
    | none => simp [applyDelivery, addAllG, addG, hv]
    | some v =>
      simp only [applyDelivery, addAllG, addG, List.map_cons, hv]
      rw [show v + -amt = v - amt by ring]
      exact applyDelivery_eq_addAllG rest _

lemma applyDelivery_ok {dv inv : List (Good × ℚ)}
    (h : ∀ g ∈ dv.map Prod.fst, g ∈ inv.map Prod.fst) :
    ∃ inv', applyDelivery inv dv = Except.ok inv' ∧
      inv'.map Prod.fst = inv.map Prod.fst := by
  rw [applyDelivery_eq_addAllG]
  apply addAllG_ok
  intro g hg
  apply h
  simpa using hg

lemma neg_amtAt (dv : List (Good × ℚ)) (g : Good) :
    amtAt (dv.map fun p => (p.1, -p.2)) g = -amtAt dv g := by
  induction dv with
  | nil => simp [amtAt, lookupG]
  | cons p rest ih =>
    obtain ⟨g', a⟩ := p
    by_cases hg : g' = g
    · subst hg; simp [amtAt, lookupG]
    · simpa [amtAt, lookupG, hg] using ih

lemma applyDelivery_lookup {dv inv inv' : List (Good × ℚ)}
    (h : applyDelivery inv dv = Except.ok inv')
    (hnd : (dv.map Prod.fst).Nodup) :
    ∀ g v, lookupG inv g = some v → lookupG inv' g = some (v - amtAt dv g) := by
  rw [applyDelivery_eq_addAllG] at h
  intro g v hv
  have hnd' : ((dv.map fun p => (p.1, -p.2)).map Prod.fst).Nodup := by
    simpa using hnd
  have := addAllG_lookup h hnd' g v hv
  rw [this, neg_amtAt]
  ring_nf

lemma deliveryWeight_neg (dv : List (Good × ℚ)) :
    deliveryWeight (dv.map fun p => (p.1, -p.2)) = -deliveryWeight dv := by
  induction dv with
  | nil => simp [deliveryWeight]
  | cons p rest ih =>
    simp only [deliveryWeight, List.map_cons, List.sum_cons] at *
    rw [ih]
    ring

lemma applyDelivery_total {dv inv inv' : List (Good × ℚ)}
    (h : applyDelivery inv dv = Except.ok inv')
    (hnd : (inv.map Prod.fst).Nodup) :
    totalInventory inv' = totalInventory inv - deliveryWeight dv := by
  rw [applyDelivery_eq_addAllG] at h
  have := addAllG_total h hnd
  rw [this, deliveryWeight_neg]
  ring

/-! ## Delivery feasibility scan -/

/-- The inventory covers a demand dict: every required good is present with
at least the required amount.  (This is the spec's per-good stock rule; it
never mentions the `is_pickup` flag.) -/
def invGe (inv dv : List (Good × ℚ)) : Prop :=
  ∀ p ∈ dv, p.1 ∈ inv.map Prod.fst ∧ p.2 ≤ amtAt inv p.1

instance (inv dv : List (Good × ℚ)) : Decidable (invGe inv dv) := by
  unfold invGe; infer_instance

lemma deliveryFeasible_ok {dv inv : List (Good × ℚ)}
    (h : ∀ g ∈ dv.map Prod.fst, g ∈ inv.map Prod.fst) :
    ∃ b, deliveryFeasible inv dv = Except.ok b := by
  induction dv with
  | nil => exact ⟨true, rfl⟩
  | cons p rest ih =>
    obtain ⟨g, amt⟩ := p
    obtain ⟨v, hv⟩ := lookupG_isSome (h g (by simp))
    simp only [deliveryFeasible, hv]
    by_cases hlt : v < amt
    · exact ⟨false, by rw [if_pos hlt]⟩
    · rw [if_neg hlt]
      exact ih fun g' hg' => h g' (by simp [hg'])

lemma deliveryFeasible_true_iff {dv inv : List (Good × ℚ)}
    (h : ∀ g ∈ dv.map Prod.fst, g ∈ inv.map Prod.fst) :
    deliveryFeasible inv dv = Except.ok true ↔ invGe inv dv := by
  induction dv with
  | nil => simp [deliveryFeasible, invGe]
  | cons p rest ih =>
    obtain ⟨g, amt⟩ := p
    obtain ⟨v, hv⟩ := lookupG_isSome (h g (by simp))
    have hrest : ∀ g' ∈ rest.map Prod.fst, g' ∈ inv.map Prod.fst :=
      fun g' hg' => h g' (by simp [hg'])
    simp only [deliveryFeasible, hv]
    by_cases hlt : v < amt
    · rw [if_pos hlt]
      constructor
      · intro hc; cases hc
      · intro hc
        have := (hc (g, amt) (by simp)).2
        simp only [amtAt, hv, Option.getD_some] at this
        exact absurd this (not_le.mpr hlt)
    · rw [if_neg hlt]
      rw [ih hrest]
      constructor
      · intro hc p hp
        rcases List.mem_cons.mp hp with rfl | hp
        · exact ⟨h _ (by simp), by simp [amtAt, hv, not_lt.mp hlt]⟩
        · exact hc p hp
      · intro hc p hp
        exact hc p (by simp [hp])

/-! ## The feasibility filter -/

/-- The feasibility verdict of the source's step-1 test for one client,
written as the flag-selected choice between the two flag-free rules:
the capacity-headroom rule for pickups, the per-good stock rule for
deliveries. -/
def feasPred (ctx : BuildCtx) (inv : List (Good × ℚ)) (cid : ℕ) : Prop :=
  if ctx.pk cid then
    totalInventory inv + pickupWeight (ctx.dvec cid) ≤ ctx.capacity
  else invGe inv (ctx.dvec cid)

instance (ctx : BuildCtx) (inv : List (Good × ℚ)) (cid : ℕ) :
    Decidable (feasPred ctx inv cid) := by
  unfold feasPred
  cases ctx.pk cid
  · simpa using inferInstanceAs (Decidable (invGe inv (ctx.dvec cid)))
  · simpa using
      inferInstanceAs
        (Decidable (totalInventory inv + pickupWeight (ctx.dvec cid) ≤ ctx.capacity))

/-- Under key containment the feasibility filter never raises; the returned
list is the sublist of feasible clients, in unserved order. -/
lemma feasFilter_ok {ctx : BuildCtx} {inv : List (Good × ℚ)} : ∀ {l : List ℕ},
    (∀ cid ∈ l, ∀ g ∈ (ctx.dvec cid).map Prod.fst, g ∈ inv.map Prod.fst) →
    ∃ fl, feasFilter ctx inv l = Except.ok fl ∧ fl.Sublist l ∧
      ∀ cid, cid ∈ fl ↔ cid ∈ l ∧ feasPred ctx inv cid
  | [], _ => ⟨[], rfl, List.Sublist.refl _, by simp⟩
  | cid :: rest, h => by
    obtain ⟨fl, hfl, hsub, hiff⟩ :=
      feasFilter_ok (fun c hc => h c (List.mem_cons_of_mem _ hc))
    by_cases hpk : ctx.pk cid
    · by_cases hcap : totalInventory inv + pickupWeight (ctx.dvec cid) ≤ ctx.capacity
      · refine ⟨cid :: fl, ?_, List.Sublist.cons₂ _ hsub, ?_⟩
        · simp only [feasFilter, if_pos hpk, if_pos hcap, hfl]
        · intro c
          simp only [List.mem_cons]
          constructor
          · rintro (rfl | hc)
            · exact ⟨Or.inl rfl, by simp [feasPred, hpk, hcap]⟩
            · obtain ⟨hcl, hcp⟩ := (hiff c).mp hc
              exact ⟨Or.inr hcl, hcp⟩
          · rintro ⟨rfl | hcl, hcp⟩
            · exact Or.inl rfl
            · exact Or.inr ((hiff c).mpr ⟨hcl, hcp⟩)
      · refine ⟨fl, ?_, hsub.cons _, ?_⟩
        · simp only [feasFilter, if_pos hpk, if_neg hcap, hfl]
        · intro c
          rw [hiff c]
          simp only [List.mem_cons]
          constructor
          · rintro ⟨hcl, hcp⟩
            exact ⟨Or.inr hcl, hcp⟩
          · rintro ⟨rfl | hcl, hcp⟩
            · simp only [feasPred, if_pos hpk] at hcp
              exact absurd hcp hcap
            · exact ⟨hcl, hcp⟩
    · obtain ⟨b, hb⟩ := deliveryFeasible_ok (h cid (List.mem_cons_self _ _))
      cases b
      · refine ⟨fl, ?_, hsub.cons _, ?_⟩
        · simp only [feasFilter, if_neg hpk, hb, hfl]
        · intro c
          rw [hiff c]
          simp only [List.mem_cons]
          constructor
          · rintro ⟨hcl, hcp⟩
            exact ⟨Or.inr hcl, hcp⟩
          · rintro ⟨rfl | hcl, hcp⟩
            · simp only [feasPred, if_neg hpk] at hcp
              rw [← deliveryFeasible_true_iff (h c (List.mem_cons_self _ _))] at hcp
              rw [hb] at hcp
              simp at hcp
            · exact ⟨hcl, hcp⟩
      · refine ⟨cid :: fl, ?_, List.Sublist.cons₂ _ hsub, ?_⟩
        · simp only [feasFilter, if_neg hpk, hb, hfl]
        · intro c
          simp only [List.mem_cons]
          constructor
          · rintro (rfl | hc)
            · refine ⟨Or.inl rfl, ?_⟩
              simp only [feasPred, if_neg hpk]
              exact (deliveryFeasible_true_iff (h c (List.mem_cons_self _ _))).mp hb
            · obtain ⟨hcl, hcp⟩ := (hiff c).mp hc
              exact ⟨Or.inr hcl, hcp⟩
          · rintro ⟨rfl | hcl, hcp⟩
            · exact Or.inl rfl
            · exact Or.inr ((hiff c).mpr ⟨hcl, hcp⟩)

/-! ## Stable sort lemmas -/

lemma insertByQ_perm {α : Type} (k : α → ℚ) (x : α) (l : List α) :
    (insertByQ k x l).Perm (x :: l) := by
  induction l with
  | nil => simp [insertByQ]
  | cons y ys ih =>
    simp only [insertByQ]
    by_cases h : k x ≤ k y
    · rw [if_pos h]
    · rw [if_neg h]
      exact (List.Perm.cons y ih).trans (List.Perm.swap x y ys)

lemma sortByQ_perm {α : Type} (k : α → ℚ) (l : List α) :
    (sortByQ k l).Perm l := by
  induction l with
  | nil => simp [sortByQ]
  | cons x xs ih =>
    simp only [sortByQ, List.foldr_cons]
    exact (insertByQ_perm k x _).trans (List.Perm.cons x ih)

lemma mem_insertByQ {α : Type} {k : α → ℚ} {x b : α} {l : List α} :
    b ∈ insertByQ k x l ↔ b = x ∨ b ∈ l :=
  ⟨fun h => by
      rcases List.mem_cons.mp ((insertByQ_perm k x l).mem_iff.mp h) with h | h
      · exact Or.inl h
      · exact Or.inr h,
   fun h => (insertByQ_perm k x l).mem_iff.mpr (by
      rcases h with h | h
      · simp [h]
      · simp [h])⟩

lemma insertByQ_sorted {α : Type} {k : α → ℚ} (x : α) {l : List α}
    (h : List.Sorted (fun a b => k a ≤ k b) l) :
    List.Sorted (fun a b => k a ≤ k b) (insertByQ k x l) := by
  induction l with
  | nil => simp [insertByQ]
  | cons y ys ih =>
    rw [List.sorted_cons] at h
    simp only [insertByQ]
    by_cases hxy : k x ≤ k y
    · rw [if_pos hxy, List.sorted_cons]
      refine ⟨?_, List.sorted_cons.mpr h⟩
      intro b hb
      rcases List.mem_cons.mp hb with rfl | hb
      · exact hxy
      · exact le_trans hxy (h.1 b hb)
    · rw [if_neg hxy, List.sorted_cons]
      refine ⟨?_, ih h.2⟩
      intro b hb
      rcases mem_insertByQ.mp hb with rfl | hb
      · exact le_of_lt (not_le.mp hxy)
      · exact h.1 b hb

lemma sortByQ_sorted {α : Type} (k : α → ℚ) (l : List α) :
    List.Sorted (fun a b => k a ≤ k b) (sortByQ k l) := by
  induction l with
  | nil => simp [sortByQ]
  | cons x xs ih =>
    simp only [sortByQ, List.foldr_cons]
    exact insertByQ_sorted x ih

lemma sortIds_perm (l : List ℕ) : (sortIds l).Perm l :=
  sortByQ_perm _ l

lemma sortIds_sorted (l : List ℕ) :
    List.Sorted (· ≤ ·) (sortIds l) := by
  have h := sortByQ_sorted (fun n : ℕ => (n : ℚ)) l
  unfold sortIds
  exact h.imp (by intro a b hab; exact_mod_cast hab)

/-! ## Reload lemmas -/

lemma reloadGo_ok : ∀ {dels : List (ℕ × List (Good × ℚ))}
    {acc : List (Good × ℚ)} {capLeft : ℚ},
    (∀ d ∈ dels, ∀ g ∈ d.2.map Prod.fst, g ∈ acc.map Prod.fst) →
    ∃ r, reloadGo capLeft acc dels = Except.ok r ∧
      r.map Prod.fst = acc.map Prod.fst
  | [], acc, capLeft, _ => ⟨acc, rfl, rfl⟩
  | (c, dv) :: rest, acc, capLeft, h => by
    by_cases hw : deliveryWeight dv ≤ capLeft
    · obtain ⟨acc', hacc', hkeys'⟩ := addAllG_ok (h (c, dv) (by simp))
      have hrest : ∀ d ∈ rest, ∀ g ∈ d.2.map Prod.fst, g ∈ acc'.map Prod.fst := by
        intro d hd g hg
        rw [hkeys']
        exact h d (by simp [hd]) g hg
      obtain ⟨r, hr, hkeys⟩ :=
        @reloadGo_ok rest acc' (capLeft - deliveryWeight dv) hrest
      refine ⟨r, ?_, by rw [hkeys, hkeys']⟩
      simp only [reloadGo, if_pos hw, hacc', hr]
    · have hrest : ∀ d ∈ rest, ∀ g ∈ d.2.map Prod.fst, g ∈ acc.map Prod.fst :=
        fun d hd => h d (by simp [hd])
      obtain ⟨r, hr, hkeys⟩ := @reloadGo_ok rest acc capLeft hrest
      refine ⟨r, ?_, hkeys⟩
      simp only [reloadGo, if_neg hw, hr]

lemma reloadGo_total : ∀ {dels : List (ℕ × List (Good × ℚ))}
    {acc r : List (Good × ℚ)} {capLeft : ℚ},
    reloadGo capLeft acc dels = Except.ok r → (acc.map Prod.fst).Nodup →
    0 ≤ capLeft →
    totalInventory r ≤ totalInventory acc + capLeft
  | [], acc, r, capLeft, h, _, hcap => by
    simp only [reloadGo] at h; cases h; linarith
  | (c, dv) :: rest, acc, r, capLeft, h, hnd, hcap => by
    simp only [reloadGo] at h
    by_cases hw : deliveryWeight dv ≤ capLeft
    · rw [if_pos hw] at h
      cases hacc' : addAllG acc dv with
      | error e => rw [hacc'] at h; cases h
      | ok acc' =>
        rw [hacc'] at h
        have hkeys' := addAllG_keys hacc'
        have hnd' : (acc'.map Prod.fst).Nodup := by rw [hkeys']; exact hnd
        have htot := addAllG_total hacc' hnd
        have := reloadGo_total h hnd' (by linarith)
        linarith
    · rw [if_neg hw] at h
      exact reloadGo_total h hnd hcap

lemma reloadGo_mono : ∀ {dels : List (ℕ × List (Good × ℚ))}
    {acc r : List (Good × ℚ)} {capLeft : ℚ},
    reloadGo capLeft acc dels = Except.ok r →
    (∀ d ∈ dels, (d.2.map Prod.fst).Nodup ∧ ∀ p ∈ d.2, 0 ≤ p.2) →
    ∀ g v, lookupG acc g = some v → ∃ v', lookupG r g = some v' ∧ v ≤ v'
  | [], acc, r, capLeft, h, _, g, v, hv => by
    simp only [reloadGo] at h; cases h; exact ⟨v, hv, le_refl v⟩
  | (c, dv) :: rest, acc, r, capLeft, h, hd, g, v, hv => by
    simp only [reloadGo] at h
    by_cases hw : deliveryWeight dv ≤ capLeft
    · rw [if_pos hw] at h
      cases hacc' : addAllG acc dv with
      | error e => rw [hacc'] at h; cases h
      | ok acc' =>
        rw [hacc'] at h
        have hlook := addAllG_lookup hacc' (hd (c, dv) (by simp)).1 g v hv
        obtain ⟨v', hv', hle⟩ :=
          reloadGo_mono h (fun d hdd => hd d (by simp [hdd])) g _ hlook
        refine ⟨v', hv', ?_⟩
        have : 0 ≤ amtAt dv g := amtAt_nonneg (hd (c, dv) (by simp)).2 g
        linarith
    · rw [if_neg hw] at h
      exact reloadGo_mono h (fun d hdd => hd d (by simp [hdd])) g v hv

lemma reloadGo_covers_head {c : ℕ} {dv : List (Good × ℚ)}
    {rest : List (ℕ × List (Good × ℚ))} {acc r : List (Good × ℚ)} {capLeft : ℚ}
    (h : reloadGo capLeft acc ((c, dv) :: rest) = Except.ok r)
    (hw : deliveryWeight dv ≤ capLeft)
    (hacc : ∀ p ∈ acc, 0 ≤ p.2)
    (hdv : ∀ g ∈ dv.map Prod.fst, g ∈ acc.map Prod.fst)
    (hnddv : (dv.map Prod.fst).Nodup)
    (hrest : ∀ d ∈ rest, (d.2.map Prod.fst).Nodup ∧ ∀ p ∈ d.2, 0 ≤ p.2) :
    invGe r dv := by
  simp only [reloadGo, if_pos hw] at h
  cases hacc' : addAllG acc dv with
  | error e => rw [hacc'] at h; cases h
  | ok acc' =>
    rw [hacc'] at h
    intro p hp
    obtain ⟨g, amt⟩ := p
    obtain ⟨v₀, hv₀⟩ := lookupG_isSome (hdv g (List.mem_map.mpr ⟨(g, amt), hp, rfl⟩))
    have hv₀pos : 0 ≤ v₀ := by simpa using hacc _ (lookupG_mem hv₀)
    have hamt : amtAt dv g = amt := by
      simp [amtAt, lookupG_of_mem hnddv hp]
    have hlook' := addAllG_lookup hacc' hnddv g v₀ hv₀
    obtain ⟨v', hv', hle⟩ := reloadGo_mono h hrest g _ hlook'
    constructor
    · exact List.mem_map.mpr ⟨(g, v'), lookupG_mem hv', rfl⟩
    · have : amt ≤ v₀ + amtAt dv g := by rw [hamt]; linarith
      simp only [amtAt, hv', Option.getD_some]
      linarith [hle, this]

/-! ## Preload lemmas -/

lemma preloadGo_keys : ∀ (tds : List (Good × ℚ)) (capLeft : ℚ),
    (preloadGo tds capLeft).map Prod.fst = tds.map Prod.fst
  | [], _ => rfl
  | (g, td) :: rest, capLeft => by
    simp only [preloadGo]
    by_cases h : td ≤ 0
    · simp [h, preloadGo_keys rest capLeft]
    · rw [if_neg h]
      by_cases hb : capLeft - min td capLeft ≤ 0
      · simp [hb, List.map_map, Function.comp]
      · simp [hb, preloadGo_keys rest (capLeft - min td capLeft)]

lemma preloadGo_nonneg : ∀ {tds : List (Good × ℚ)} {capLeft : ℚ},
    0 ≤ capLeft → ∀ p ∈ preloadGo tds capLeft, 0 ≤ p.2
  | [], _, _ => by simp [preloadGo]
  | (g, td) :: rest, capLeft, hcap => by
    simp only [preloadGo]
    by_cases h : td ≤ 0
    · rw [if_pos h]
      intro p hp
      rcases List.mem_cons.mp hp with rfl | hp
      · simp
      · exact preloadGo_nonneg hcap p hp
    · rw [if_neg h]
      have hload : 0 ≤ min td capLeft := le_min (le_of_lt (not_le.mp h)) hcap
      by_cases hb : capLeft - min td capLeft ≤ 0
      · rw [if_pos hb]
        intro p hp
        rcases List.mem_cons.mp hp with rfl | hp
        · simpa using hload
        · obtain ⟨q, _, rfl⟩ := List.mem_map.mp hp
          simp
      · rw [if_neg hb]
        intro p hp
        rcases List.mem_cons.mp hp with rfl | hp
        · simpa using hload
        · exact preloadGo_nonneg (le_of_lt (not_le.mp hb)) p hp

lemma preloadGo_total : ∀ {tds : List (Good × ℚ)} {capLeft : ℚ},
    0 ≤ capLeft → totalInventory (preloadGo tds capLeft) ≤ capLeft
  | [], capLeft, hcap => by simpa [preloadGo, totalInventory] using hcap
  | (g, td) :: rest, capLeft, hcap => by
    simp only [preloadGo]
    by_cases h : td ≤ 0
    · rw [if_pos h]
      have := @preloadGo_total rest capLeft hcap
      simp only [totalInventory, List.map_cons, List.sum_cons] at *
      linarith
    · rw [if_neg h]
      have hle : min td capLeft ≤ capLeft := min_le_right _ _
      by_cases hb : capLeft - min td capLeft ≤ 0
      · rw [if_pos hb]
        simp only [totalInventory, List.map_cons, List.sum_cons, List.map_map]
        have : ((rest.map fun p => (p.1, (0:ℚ))).map Prod.snd).sum = 0 := by
          induction rest with
          | nil => simp
          | cons q qs ih => simpa using ih
        simp only [List.map_map] at this
        rw [this]
        linarith
      · rw [if_neg hb]
        have := @preloadGo_total rest (capLeft - min td capLeft) (le_of_lt (not_le.mp hb))
        simp only [totalInventory, List.map_cons, List.sum_cons] at *
        linarith

/-! ## Initial totals lemmas -/

lemma initTotals_ok {ctx : BuildCtx} : ∀ {cids : List ℕ} {base : List (Good × ℚ)},
    (∀ cid ∈ cids, ¬ctx.pk cid → ∀ g ∈ (ctx.dvec cid).map Prod.fst,
      g ∈ base.map Prod.fst) →
    ∃ tds, initTotals ctx cids base = Except.ok tds ∧
      tds.map Prod.fst = base.map Prod.fst
  | [], base, _ => ⟨base, rfl, rfl⟩
  | cid :: rest, base, h => by
    by_cases hpk : ctx.pk cid
    · obtain ⟨tds, htds, hkeys⟩ :=
        initTotals_ok (fun c hc => h c (List.mem_cons_of_mem _ hc))
      exact ⟨tds, by simp only [initTotals, if_pos hpk, htds], hkeys⟩
    · obtain ⟨base', hbase', hkeys'⟩ :=
        addAllG_ok (h cid (by simp) hpk)
      have hrest : ∀ c ∈ rest, ¬ctx.pk c → ∀ g ∈ (ctx.dvec c).map Prod.fst,
          g ∈ base'.map Prod.fst := by
        intro c hc hcpk g hg
        rw [hkeys']
        exact h c (by simp [hc]) hcpk g hg
      obtain ⟨tds, htds, hkeys⟩ := initTotals_ok hrest
      refine ⟨tds, ?_, by rw [hkeys, hkeys']⟩
      simp only [initTotals, if_neg hpk, hbase', htds]

lemma addAllG_err {m : List (Good × ℚ)} : ∀ {dv : List (Good × ℚ)},
    (∃ g ∈ dv.map Prod.fst, g ∉ m.map Prod.fst) →
    ∃ g, addAllG m dv = Except.error g ∧ g ∉ m.map Prod.fst := by
  intro dv
  induction dv generalizing m with
  | nil => rintro ⟨g, hg, _⟩; simp at hg
  | cons p rest ih =>
    obtain ⟨g₁, a₁⟩ := p
    rintro ⟨g, hg, hgm⟩
    by_cases hin : g₁ ∈ m.map Prod.fst
    · obtain ⟨v, hv⟩ := lookupG_isSome hin
      have hgrest : g ∈ rest.map Prod.fst := by
        simp only [List.map_cons, List.mem_cons] at hg
        rcases hg with rfl | hh
        · exact absurd hin hgm
        · exact hh
      have hkeys := setG_keys m g₁ (v + a₁)
      obtain ⟨g', hg', hg'm⟩ := @ih (setG m g₁ (v + a₁)) ⟨g, hgrest, by rw [hkeys]; exact hgm⟩
      refine ⟨g', ?_, by rw [← hkeys]; exact hg'm⟩
      simp only [addAllG, addG, hv, hg']
    · refine ⟨g₁, ?_, hin⟩
      have : lookupG m g₁ = none := lookupG_eq_none.mpr hin
      simp only [addAllG, addG, this]

lemma initTotals_err {ctx : BuildCtx} : ∀ {cids : List ℕ} {base : List (Good × ℚ)},
    (∃ cid ∈ cids, ¬ctx.pk cid ∧ ∃ g ∈ (ctx.dvec cid).map Prod.fst,
      g ∉ base.map Prod.fst) →
    ∃ g, initTotals ctx cids base = Except.error g ∧ g ∉ base.map Prod.fst
  | [], base, h => by simp at h
  | cid :: rest, base, h => by
    obtain ⟨c, hc, hcpk, hcg⟩ := h
    by_cases hpk : ctx.pk cid
    · have hcrest : c ∈ rest := by
        rcases List.mem_cons.mp hc with rfl | hh
        · exact absurd hpk hcpk
        · exact hh
      obtain ⟨g, hg, hgm⟩ := initTotals_err ⟨c, hcrest, hcpk, hcg⟩
      exact ⟨g, by simp only [initTotals, if_pos hpk, hg], hgm⟩
    · by_cases hall : ∀ g ∈ (ctx.dvec cid).map Prod.fst, g ∈ base.map Prod.fst
      · obtain ⟨base', hbase', hkeys'⟩ := addAllG_ok hall
        have hcrest : c ∈ rest ∧ ∃ g ∈ (ctx.dvec c).map Prod.fst,
            g ∉ base'.map Prod.fst := by
          rcases List.mem_cons.mp hc with rfl | hh
          · obtain ⟨g, hg, hgm⟩ := hcg
            exact absurd (hall g hg) hgm
          · obtain ⟨g, hg, hgm⟩ := hcg
            exact ⟨hh, g, hg, by rw [hkeys']; exact hgm⟩
        obtain ⟨g, hg, hgm⟩ := initTotals_err ⟨c, hcrest.1, hcpk, hcrest.2⟩
        refine ⟨g, ?_, by rw [← hkeys']; exact hgm⟩
        simp only [initTotals, if_neg hpk, hbase', hg]
      · push_neg at hall
        obtain ⟨g₀, hg₀, hg₀m⟩ := hall
        obtain ⟨g, hg, hgm⟩ := addAllG_err ⟨g₀, hg₀, hg₀m⟩
        exact ⟨g, by simp only [initTotals, if_neg hpk, hg], hgm⟩

/-! ## Step characterization -/

/-- The state after serving client `c` with updated inventory `inv2`. -/
def serveState (ctx : BuildCtx) (s : BState) (c : ℕ) (inv2 : List (Good × ℚ)) : BState :=
  ⟨s.unserved.erase c, inv2, s.route ++ [ctx.loc c], ctx.loc c⟩

/-- The state after a forced warehouse visit at point `q` with reloaded
inventory `inv2`. -/
def whState (s : BState) (q : Point) (inv2 : List (Good × ℚ)) : BState :=
  ⟨s.unserved, inv2, s.route ++ [q], q⟩

/-- The all-zero inventory over the good-type list (`{g: 0.0 for g in good_types}`). -/
def zerosInv (goodTypes : List Good) : List (Good × ℚ) :=
  goodTypes.map fun g => (g, (0 : ℚ))

lemma zerosInv_keys (goodTypes : List Good) :
    (zerosInv goodTypes).map Prod.fst = goodTypes := by
  induction goodTypes with
  | nil => rfl
  | cons g gs ih => simpa [zerosInv] using ih

/-- The delivery list the forced warehouse visit reloads from. -/
def delsOf (ctx : BuildCtx) (s : BState) : List (ℕ × List (Good × ℚ)) :=
  (s.unserved.filter fun cid => !ctx.pk cid).map fun cid => (cid, ctx.dvec cid)

/-- Key containment of one client's demand dict in the good-type list. -/
def KeysOK (ctx : BuildCtx) (cid : ℕ) : Prop :=
  ∀ g ∈ (ctx.dvec cid).map Prod.fst, g ∈ ctx.goodTypes

instance (ctx : BuildCtx) (cid : ℕ) : Decidable (KeysOK ctx cid) := by
  unfold KeysOK; infer_instance

lemma whVisit_eq {ctx : BuildCtx} {s : BState} {q : Point} {inv2 : List (Good × ℚ)}
    (h : reloadGo ctx.capacity (zerosInv ctx.goodTypes)
      (sortByQ (fun item => deliveryWeight item.2) (delsOf ctx s)) = Except.ok inv2) :
    whVisit ctx s q = Except.ok (whState s q inv2) := by
  simp only [delsOf, zerosInv] at h
  unfold whVisit whState
  rw [h]

/-- A completed delivery scan that returned `True` really had enough stock
for every good of the dict (no key hypotheses needed: the scan visited and
looked up every entry). -/
lemma deliveryFeasible_true_imp : ∀ {dv inv : List (Good × ℚ)},
    deliveryFeasible inv dv = Except.ok true → invGe inv dv
  | [], inv, _ => by simp [invGe]
  | (g, amt) :: rest, inv, h => by
    cases hv : lookupG inv g with
    | none => simp only [deliveryFeasible, hv] at h; cases h
    | some v =>
      simp only [deliveryFeasible, hv] at h
      by_cases hlt : v < amt
      · rw [if_pos hlt] at h; cases h
      · rw [if_neg hlt] at h
        intro p hp
        rcases List.mem_cons.mp hp with rfl | hp
        · exact ⟨List.mem_map.mpr ⟨(g, v), lookupG_mem hv, rfl⟩,
            by simp [amtAt, hv, not_lt.mp hlt]⟩
        · exact deliveryFeasible_true_imp h p hp

lemma feasFilter_sub {ctx : BuildCtx} {inv : List (Good × ℚ)} :
    ∀ {l fl : List ℕ}, feasFilter ctx inv l = Except.ok fl → ∀ c ∈ fl, c ∈ l
  | [], fl, h => by
    simp only [feasFilter] at h; cases h; simp
  | cid :: rest, fl, h => by
    simp only [feasFilter] at h
    by_cases hpk : ctx.pk cid
    · rw [if_pos hpk] at h
      by_cases hcap : totalInventory inv + pickupWeight (ctx.dvec cid) ≤ ctx.capacity
      · rw [if_pos hcap] at h
        cases hrest : feasFilter ctx inv rest with
        | error e => rw [hrest] at h; cases h
        | ok l' =>
          rw [hrest] at h; cases h
          intro c hc
          rcases List.mem_cons.mp hc with rfl | hc
          · exact List.mem_cons_self _ _
          · exact List.mem_cons_of_mem _ (feasFilter_sub hrest c hc)
      · rw [if_neg hcap] at h
        exact fun c hc => List.mem_cons_of_mem _ (feasFilter_sub h c hc)
    · rw [if_neg hpk] at h
      cases hdf : deliveryFeasible inv (ctx.dvec cid) with
      | error e => rw [hdf] at h; cases h
      | ok b =>
        rw [hdf] at h
        cases b
        · exact fun c hc => List.mem_cons_of_mem _ (feasFilter_sub h c hc)
        · cases hrest : feasFilter ctx inv rest with
          | error e => rw [hrest] at h; cases h
          | ok l' =>
            rw [hrest] at h; cases h
            intro c hc
            rcases List.mem_cons.mp hc with rfl | hc
            · exact List.mem_cons_self _ _
            · exact List.mem_cons_of_mem _ (feasFilter_sub hrest c hc)

lemma feasFilter_pred {ctx : BuildCtx} {inv : List (Good × ℚ)} :
    ∀ {l fl : List ℕ}, feasFilter ctx inv l = Except.ok fl →
      ∀ c ∈ fl, feasPred ctx inv c
  | [], fl, h => by
    simp only [feasFilter] at h; cases h; simp
  | cid :: rest, fl, h => by
    simp only [feasFilter] at h
    by_cases hpk : ctx.pk cid
    · rw [if_pos hpk] at h
      by_cases hcap : totalInventory inv + pickupWeight (ctx.dvec cid) ≤ ctx.capacity
      · rw [if_pos hcap] at h
        cases hrest : feasFilter ctx inv rest with
        | error e => rw [hrest] at h; cases h
        | ok l' =>
          rw [hrest] at h; cases h
          intro c hc
          rcases List.mem_cons.mp hc with rfl | hc
          · simp [feasPred, hpk, hcap]
          · exact feasFilter_pred hrest c hc
      · rw [if_neg hcap] at h
        exact fun c hc => feasFilter_pred h c hc
    · rw [if_neg hpk] at h
      cases hdf : deliveryFeasible inv (ctx.dvec cid) with
      | error e => rw [hdf] at h; cases h
      | ok b =>
        rw [hdf] at h
        cases b
        · exact fun c hc => feasFilter_pred h c hc
        · cases hrest : feasFilter ctx inv rest with
          | error e => rw [hrest] at h; cases h
          | ok l' =>
            rw [hrest] at h; cases h
            intro c hc
            rcases List.mem_cons.mp hc with rfl | hc
            · simp only [feasPred, if_neg hpk]
              exact deliveryFeasible_true_imp hdf
            · exact feasFilter_pred hrest c hc

/-- If the feasibility filter succeeded and chose `c`, and the (uniform)
application succeeded, the step serves `c`. -/
lemma stepB_eq_serve {ctx : BuildCtx} {s : BState} {fl : List ℕ} {c : ℕ}
    {inv2 : List (Good × ℚ)}
    (hfl : feasFilter ctx s.inventory s.unserved = Except.ok fl)
    (hc : minByQ (fun cid => euclidSq s.current (ctx.loc cid)) fl = some c)
    (hinv : applyDelivery s.inventory (ctx.dvec c) = Except.ok inv2) :
    stepB ctx s = Except.ok (serveState ctx s c inv2) := by
  unfold stepB
  rw [hfl]
  simp only [hc]
  by_cases hpk : ctx.pk c
  · rw [if_pos hpk, applyPickup_eq_applyDelivery, hinv]
    rfl
  · rw [if_neg hpk, hinv]
    rfl

/-- When the feasible list is nonempty, the step serves some unserved client
that passed its feasibility test, subtracting its demand dict. -/
lemma stepB_serve_of_feas {ctx : BuildCtx} {s : BState} {fl : List ℕ}
    (hfl : feasFilter ctx s.inventory s.unserved = Except.ok fl)
    (hne : fl ≠ [])
    (hkeys : s.inventory.map Prod.fst = ctx.goodTypes)
    (hGK : ∀ cid ∈ s.unserved, KeysOK ctx cid) :
    ∃ c ∈ s.unserved, feasPred ctx s.inventory c ∧
      ∃ inv2, applyDelivery s.inventory (ctx.dvec c) = Except.ok inv2 ∧
        stepB ctx s = Except.ok (serveState ctx s c inv2) := by
  cases hc : minByQ (fun cid => euclidSq s.current (ctx.loc cid)) fl with
  | none => exact absurd (minByQ_eq_none.mp hc) hne
  | some c =>
    have hcfl : c ∈ fl := minByQ_mem hc
    have hcu : c ∈ s.unserved := feasFilter_sub hfl c hcfl
    obtain ⟨inv2, hinv2, _⟩ :=
      @applyDelivery_ok (ctx.dvec c) s.inventory (by rw [hkeys]; exact hGK c hcu)
    refine ⟨c, hcu, ?_, inv2, hinv2, stepB_eq_serve hfl hc hinv2⟩
    exact feasFilter_pred hfl c hcfl

lemma delsOf_mem {ctx : BuildCtx} {s : BState} {d : ℕ × List (Good × ℚ)}
    (h : d ∈ delsOf ctx s) :
    d.1 ∈ s.unserved ∧ d.2 = ctx.dvec d.1 ∧ ¬ctx.pk d.1 := by
  unfold delsOf at h
  obtain ⟨cid, hcid, rfl⟩ := List.mem_map.mp h
  have := List.mem_filter.mp hcid
  exact ⟨this.1, rfl, by simpa using this.2⟩

lemma reload_ok_of_keys {ctx : BuildCtx} {s : BState}
    (hGK : ∀ cid ∈ s.unserved, KeysOK ctx cid) :
    ∃ inv2, reloadGo ctx.capacity (zerosInv ctx.goodTypes)
        (sortByQ (fun item => deliveryWeight item.2) (delsOf ctx s))
        = Except.ok inv2 ∧ inv2.map Prod.fst = ctx.goodTypes := by
  have hsubkeys : ∀ d ∈ sortByQ (fun item => deliveryWeight item.2) (delsOf ctx s),
      ∀ g ∈ d.2.map Prod.fst, g ∈ (zerosInv ctx.goodTypes).map Prod.fst := by
    intro d hd g hg
    rw [zerosInv_keys]
    have hd' : d ∈ delsOf ctx s :=
      (sortByQ_perm (fun item => deliveryWeight item.2) (delsOf ctx s)).mem_iff.mp hd
    obtain ⟨hmem, hdv, _⟩ := delsOf_mem hd'
    exact hGK d.1 hmem g (by rw [← hdv]; exact hg)
  obtain ⟨r, hr, hkeys⟩ := @reloadGo_ok
    (sortByQ (fun item => deliveryWeight item.2) (delsOf ctx s))
    (zerosInv ctx.goodTypes) ctx.capacity hsubkeys
  exact ⟨r, hr, by rw [hkeys, zerosInv_keys]⟩

/-- Every step of the loop either serves an unserved client that passed its
feasibility test (subtracting its demand dict and moving there), or performs
a forced warehouse visit (moving to a warehouse point and rebuilding the
inventory by the greedy reload). -/
lemma stepB_shape (ctx : BuildCtx) (s : BState)
    (hu : s.unserved ≠ [])
    (hkeys : s.inventory.map Prod.fst = ctx.goodTypes)
    (hGK : ∀ cid ∈ s.unserved, KeysOK ctx cid)
    (hwhs : ctx.whs ≠ []) :
    (∃ c ∈ s.unserved, feasPred ctx s.inventory c ∧
      ∃ inv2, applyDelivery s.inventory (ctx.dvec c) = Except.ok inv2 ∧
        stepB ctx s = Except.ok (serveState ctx s c inv2)) ∨
    (∃ q ∈ ctx.whs.map Prod.snd, ∃ inv2,
        reloadGo ctx.capacity (zerosInv ctx.goodTypes)
          (sortByQ (fun item => deliveryWeight item.2) (delsOf ctx s))
          = Except.ok inv2 ∧
        stepB ctx s = Except.ok (whState s q inv2)) := by
  obtain ⟨fl, hfl, hsub, hiff⟩ := feasFilter_ok
    (fun cid hc => by rw [hkeys]; exact hGK cid hc)
  by_cases hflne : fl = []
  · subst hflne
    right
    obtain ⟨inv2, hreload, _⟩ := reload_ok_of_keys hGK
    cases hnc : minByQ (fun cid => euclidSq s.current (ctx.loc cid)) s.unserved with
    | none => exact absurd (minByQ_eq_none.mp hnc) hu
    | some nc =>
      cases hwh : minByQ (fun w => euclidSq s.current w.2) ctx.whs with
      | none => exact absurd (minByQ_eq_none.mp hwh) hwhs
      | some wh =>
        have hwhmem : wh.2 ∈ ctx.whs.map Prod.snd :=
          List.mem_map.mpr ⟨wh, minByQ_mem hwh, rfl⟩
        have hncu : nc ∈ s.unserved := minByQ_mem hnc
        have hstep : ∀ r, whVisit ctx s wh.2 = r → stepB ctx s = r := by
          intro r hr
          unfold stepB
          rw [hfl]
          dsimp only [minByQ]
          rw [hnc, hwh]
          dsimp only
          by_cases hdc : euclidSq s.current (ctx.loc nc) < euclidSq s.current wh.2
          · rw [if_pos hdc]
            by_cases hpk : ctx.pk nc
            · simp only [hpk, if_true]
              by_cases hcap :
                  totalInventory s.inventory + pickupWeight (ctx.dvec nc) ≤ ctx.capacity
              · exfalso
                have : nc ∈ ([] : List ℕ) :=
                  (hiff nc).mpr ⟨hncu, by simp [feasPred, hpk, hcap]⟩
                simp at this
              · rw [if_neg hcap]
                exact hr
            · simp only [hpk, if_false]
              have hdfok := @deliveryFeasible_ok (ctx.dvec nc) s.inventory
                (by rw [hkeys]; exact hGK nc hncu)
              obtain ⟨b, hb⟩ := hdfok
              rw [hb]
              cases b
              · exact hr
              · exfalso
                have : nc ∈ ([] : List ℕ) :=
                  (hiff nc).mpr ⟨hncu, by
                    simp only [feasPred, hpk, if_false]
                    exact deliveryFeasible_true_imp hb⟩
                simp at this
          · rw [if_neg hdc]
            exact hr
        exact ⟨wh.2, hwhmem, inv2, hreload, hstep _ (whVisit_eq hreload)⟩
  · left
    exact stepB_serve_of_feas hfl hflne hkeys hGK

/-! ## Loop reduction lemmas -/

lemma buildLoop_done {ctx : BuildCtx} {s : BState} (fuel : ℕ)
    (h : s.unserved = []) : buildLoop ctx fuel s = BuildRes.ok (closeRoute ctx s) := by
  unfold buildLoop
  rw [if_pos h]

lemma buildLoop_zero {ctx : BuildCtx} {s : BState}
    (h : s.unserved ≠ []) : buildLoop ctx 0 s = BuildRes.outOfFuel := by
  unfold buildLoop
  rw [if_neg h]

lemma buildLoop_succ {ctx : BuildCtx} {s s' : BState} {n : ℕ}
    (h : s.unserved ≠ []) (hs : stepB ctx s = Except.ok s') :
    buildLoop ctx (n + 1) s = buildLoop ctx n s' := by
  conv_lhs => rw [buildLoop]
  rw [if_neg h, hs]

lemma buildLoop_succ_err {ctx : BuildCtx} {s : BState} {n : ℕ} {g : Good}
    (h : s.unserved ≠ []) (hs : stepB ctx s = Except.error g) :
    buildLoop ctx (n + 1) s = BuildRes.keyError g := by
  conv_lhs => rw [buildLoop]
  rw [if_neg h, hs]

lemma whVisit_cases {ctx : BuildCtx} {s s' : BState} {q : Point}
    (h : whVisit ctx s q = Except.ok s') : ∃ inv2, s' = whState s q inv2 := by
  unfold whVisit at h
  cases hre : reloadGo ctx.capacity (ctx.goodTypes.map fun g => (g, (0:ℚ)))
      (sortByQ (fun item => deliveryWeight item.2)
        ((s.unserved.filter fun cid => !ctx.pk cid).map fun cid => (cid, ctx.dvec cid))) with
  | error e => rw [hre] at h; cases h
  | ok newInv =>
    rw [hre] at h
    dsimp only at h
    cases h
    exact ⟨newInv, rfl⟩

/-- Unconditional syntactic case analysis of a successful step: the state is
unchanged (the unreachable fallbacks), or a client is served, or a warehouse
is visited. -/
lemma stepB_cases {ctx : BuildCtx} {s s' : BState}
    (h : stepB ctx s = Except.ok s') :
    s' = s ∨
    (∃ c, c ∈ s.unserved ∧ ∃ inv2, s' = serveState ctx s c inv2) ∨
    (∃ q inv2, s' = whState s q inv2) := by
  unfold stepB at h
  cases hfl : feasFilter ctx s.inventory s.unserved with
  | error e => rw [hfl] at h; cases h
  | ok fl =>
    rw [hfl] at h
    dsimp only at h
    cases hmin : minByQ (fun cid => euclidSq s.current (ctx.loc cid)) fl with
    | some c =>
      rw [hmin] at h
      dsimp only at h
      cases happ : (if ctx.pk c then applyPickup s.inventory (ctx.dvec c)
          else applyDelivery s.inventory (ctx.dvec c)) with
      | error e => rw [happ] at h; cases h
      | ok inv2 =>
        rw [happ] at h
        dsimp only at h
        cases h
        exact Or.inr (Or.inl ⟨c, feasFilter_sub hfl c (minByQ_mem hmin), inv2, rfl⟩)
    | none =>
      rw [hmin] at h
      dsimp only at h
      cases hnc : minByQ (fun cid => euclidSq s.current (ctx.loc cid)) s.unserved with
      | none =>
        rw [hnc] at h
        dsimp only at h
        cases h
        exact Or.inl rfl
      | some nc =>
        rw [hnc] at h
        dsimp only at h
        cases hwh : minByQ (fun w => euclidSq s.current w.2) ctx.whs with
        | none =>
          rw [hwh] at h
          dsimp only at h
          cases h
          exact Or.inl rfl
        | some wh =>
          rw [hwh] at h
          dsimp only at h
          by_cases hdc : euclidSq s.current (ctx.loc nc) < euclidSq s.current wh.2
          · rw [if_pos hdc] at h
            cases hpk : ctx.pk nc with
            | true =>
              rw [hpk] at h
              rw [if_pos rfl] at h
              by_cases hcap :
                  totalInventory s.inventory + pickupWeight (ctx.dvec nc) ≤ ctx.capacity
              · rw [if_pos hcap] at h
                cases happ : applyPickup s.inventory (ctx.dvec nc) with
                | error e => rw [happ] at h; cases h
                | ok inv2 =>
                  rw [happ] at h
                  dsimp only at h
                  cases h
                  exact Or.inr (Or.inl ⟨nc, minByQ_mem hnc, inv2, rfl⟩)
              · rw [if_neg hcap] at h
                exact Or.inr (Or.inr ⟨wh.2, whVisit_cases h⟩)
            | false =>
              rw [hpk] at h
              rw [if_neg (by simp)] at h
              cases hdf : deliveryFeasible s.inventory (ctx.dvec nc) with
              | error e => rw [hdf] at h; cases h
              | ok b =>
                rw [hdf] at h
                cases b
                · exact Or.inr (Or.inr ⟨wh.2, whVisit_cases h⟩)
                · dsimp only at h
                  cases happ : applyDelivery s.inventory (ctx.dvec nc) with
                  | error e => rw [happ] at h; cases h
                  | ok inv2 =>
                    rw [happ] at h
                    dsimp only at h
                    cases h
                    exact Or.inr (Or.inl ⟨nc, minByQ_mem hnc, inv2, rfl⟩)
          · rw [if_neg hdc] at h
            exact Or.inr (Or.inr ⟨wh.2, whVisit_cases h⟩)

/-! ## Route-shape invariant (depot closure) -/

/-- The route is nonempty, starts at the depot, and ends at the vehicle's
current location. -/
def RouteOK (ctx : BuildCtx) (s : BState) : Prop :=
  s.route ≠ [] ∧ s.route.head? = some ctx.depot ∧ s.route.getLast? = some s.current

lemma head?_concat {α : Type} {l : List α} {q : α} (h : l ≠ []) :
    (l ++ [q]).head? = l.head? := by
  cases l with
  | nil => exact absurd rfl h
  | cons x xs => rfl

lemma stepB_routeOK {ctx : BuildCtx} {s s' : BState}
    (hst : stepB ctx s = Except.ok s') (h : RouteOK ctx s) : RouteOK ctx s' := by
  obtain ⟨hne, hhead, hlast⟩ := h
  rcases stepB_cases hst with rfl | ⟨c, hc, inv2, rfl⟩ | ⟨q, inv2, rfl⟩
  · exact ⟨hne, hhead, hlast⟩
  · refine ⟨by simp [serveState], ?_, ?_⟩
    · rw [show (serveState ctx s c inv2).route = s.route ++ [ctx.loc c] from rfl,
        head?_concat hne]
      exact hhead
    · rw [show (serveState ctx s c inv2).route = s.route ++ [ctx.loc c] from rfl]
      simp [serveState]
  · refine ⟨by simp [whState], ?_, ?_⟩
    · rw [show (whState s q inv2).route = s.route ++ [q] from rfl, head?_concat hne]
      exact hhead
    · rw [show (whState s q inv2).route = s.route ++ [q] from rfl]
      simp [whState]

lemma buildLoop_routeOK {ctx : BuildCtx} : ∀ {fuel : ℕ} {s : BState} {r : List Point},
    buildLoop ctx fuel s = BuildRes.ok r → RouteOK ctx s →
    r.head? = some ctx.depot ∧ r.getLast? = some ctx.depot := by
  intro fuel
  induction fuel with
  | zero =>
    intro s r h hok
    by_cases hu : s.unserved = []
    · rw [buildLoop_done 0 hu] at h
      cases h
      obtain ⟨hne, hhead, hlast⟩ := hok
      unfold closeRoute
      by_cases hcur : s.current = ctx.depot
      · rw [if_pos hcur]
        exact ⟨hhead, by rw [hlast, hcur]⟩
      · rw [if_neg hcur]
        exact ⟨by rw [head?_concat hne]; exact hhead, by simp⟩
    · rw [buildLoop_zero hu] at h
      cases h
  | succ n ih =>
    intro s r h hok
    by_cases hu : s.unserved = []
    · rw [buildLoop_done (n + 1) hu] at h
      cases h
      obtain ⟨hne, hhead, hlast⟩ := hok
      unfold closeRoute
      by_cases hcur : s.current = ctx.depot
      · rw [if_pos hcur]
        exact ⟨hhead, by rw [hlast, hcur]⟩
      · rw [if_neg hcur]
        exact ⟨by rw [head?_concat hne]; exact hhead, by simp⟩
    · cases hst : stepB ctx s with
      | error g => rw [buildLoop_succ_err hu hst] at h; cases h
      | ok s' =>
        rw [buildLoop_succ hu hst] at h
        exact ih h (stepB_routeOK hst hok)

/-- C3.  For every vehicle on which route construction completes, the
returned route's first and last point both equal the coordinates of that
vehicle's home warehouse (the depot handed to `_build_capacity_route`);
this covers the case where the final served stop already sits at the depot
(the closing append is skipped but the last point is the depot coordinate
pair anyway) and the case of an empty assignment (route `[depot]`). -/
theorem C3_depot_closure (ctx : BuildCtx) (cids : List ℕ) (fuel : ℕ)
    (r : List Point) (h : buildCapacityRoute ctx cids fuel = BuildRes.ok r) :
    r.head? = some ctx.depot ∧ r.getLast? = some ctx.depot := by
  unfold buildCapacityRoute at h
  cases hi : initTotals ctx cids (ctx.goodTypes.map fun g => (g, (0:ℚ))) with
  | error g => rw [hi] at h; cases h
  | ok tds =>
    rw [hi] at h
    dsimp only at h
    refine buildLoop_routeOK h ?_
    exact ⟨by simp [initState], rfl, rfl⟩

/-- Witness for C3: a vehicle with an empty assignment yields the trivial
route `[depot]`, whose first and last point are the depot. -/
theorem C3_depot_closure_witness :
    buildCapacityRoute
        ⟨100, ((1:ℚ), (2:ℚ)), [(0, ((1:ℚ), (2:ℚ)))], fun _ => ((0:ℚ), (0:ℚ)),
          fun _ => [], fun _ => false, [0]⟩ [] 0
      = BuildRes.ok [((1:ℚ), (2:ℚ))] ∧
    ([((1:ℚ), (2:ℚ))] : List Point).head? = some ((1:ℚ), (2:ℚ)) ∧
    ([((1:ℚ), (2:ℚ))] : List Point).getLast? = some ((1:ℚ), (2:ℚ)) := by
  refine ⟨by rfl, ?_⟩
  exact C3_depot_closure
    ⟨100, ((1:ℚ), (2:ℚ)), [(0, ((1:ℚ), (2:ℚ)))], fun _ => ((0:ℚ), (0:ℚ)),
      fun _ => [], fun _ => false, [0]⟩ [] 0 [((1:ℚ), (2:ℚ))] (by rfl)

/-! ## C9: the `is_pickup` flag alone selects the feasibility rule -/

lemma feasFilter_singleton_pickup {ctx : BuildCtx} {inv : List (Good × ℚ)}
    {cid : ℕ} (hpk : ctx.pk cid = true) :
    feasFilter ctx inv [cid] = Except.ok
      (if totalInventory inv + pickupWeight (ctx.dvec cid) ≤ ctx.capacity
        then [cid] else []) := by
  by_cases hcap : totalInventory inv + pickupWeight (ctx.dvec cid) ≤ ctx.capacity
  · simp only [feasFilter, hpk, if_true, if_pos hcap]
  · simp only [feasFilter, hpk, if_true, if_neg hcap]

lemma feasFilter_singleton_delivery {ctx : BuildCtx} {inv : List (Good × ℚ)}
    {cid : ℕ} (hpk : ctx.pk cid = false)
    (hkeys : ∀ g ∈ (ctx.dvec cid).map Prod.fst, g ∈ inv.map Prod.fst) :
    feasFilter ctx inv [cid] = Except.ok
      (if invGe inv (ctx.dvec cid) then [cid] else []) := by
  obtain ⟨b, hb⟩ := deliveryFeasible_ok hkeys
  have hbn : ¬ctx.pk cid = true := by simp [hpk]
  cases b
  · have : ¬invGe inv (ctx.dvec cid) := by
      intro hc
      rw [(deliveryFeasible_true_iff hkeys).mpr hc] at hb
      cases hb
    simp only [feasFilter, if_neg hbn, hb, if_neg this]
  · have : invGe inv (ctx.dvec cid) := deliveryFeasible_true_imp hb
    simp only [feasFilter, if_neg hbn, hb, if_pos this]

/-- C9.  Whether a client is judged by the pickup rule (total inventory plus
negated demand sum at most capacity) or by the delivery rule (per-good stock
at least the entry) is decided solely by its `is_pickup` flag, for every
demand dict whatever its signs or net; and the applied inventory update is
the same pointwise subtraction of the signed demand dict in both branches,
so behaviour follows the flag even when the flag disagrees with the net sign
of the demands. -/
theorem C9_flag_selects_rule (ctx : BuildCtx) (inv : List (Good × ℚ)) (cid : ℕ)
    (hkeys : ∀ g ∈ (ctx.dvec cid).map Prod.fst, g ∈ inv.map Prod.fst)
    (hnd : ((ctx.dvec cid).map Prod.fst).Nodup) :
    (feasFilter ctx inv [cid] = Except.ok
      (if ctx.pk cid then
        (if totalInventory inv + pickupWeight (ctx.dvec cid) ≤ ctx.capacity
          then [cid] else [])
      else (if invGe inv (ctx.dvec cid) then [cid] else []))) ∧
    applyPickup inv (ctx.dvec cid) = applyDelivery inv (ctx.dvec cid) ∧
    ∀ inv2, applyDelivery inv (ctx.dvec cid) = Except.ok inv2 →
      ∀ g v, lookupG inv g = some v →
        lookupG inv2 g = some (v - amtAt (ctx.dvec cid) g) := by
  refine ⟨?_, applyPickup_eq_applyDelivery _ _, ?_⟩
  · cases hpk : ctx.pk cid
    · rw [feasFilter_singleton_delivery hpk hkeys]
      simp
    · rw [feasFilter_singleton_pickup hpk]
      simp
  · intro inv2 h g v hv
    exact applyDelivery_lookup h hnd g v hv

/-- Witness for C9: a client flagged `is_pickup` whose demand entries are all
positive (so its net is a delivery) is still judged by the capacity-headroom
rule — it is feasible with stock `2 < 5`, which the stock rule would reject —
and its application subtracts `5`, driving the good to `-3`. -/
theorem C9_flag_selects_rule_witness :
    (feasFilter ⟨10, ((0:ℚ), (0:ℚ)), [(0, ((0:ℚ), (0:ℚ)))], fun _ => ((1:ℚ), 0),
        fun _ => [(0, (5:ℚ))], fun _ => true, [0]⟩ [(0, (2:ℚ))] [0] =
      Except.ok [0]) ∧
    applyPickup [(0, (2:ℚ))] [(0, (5:ℚ))] = Except.ok [(0, (-3:ℚ))] := by
  have h := C9_flag_selects_rule
    ⟨10, ((0:ℚ), (0:ℚ)), [(0, ((0:ℚ), (0:ℚ)))], fun _ => ((1:ℚ), 0),
      fun _ => [(0, (5:ℚ))], fun _ => true, [0]⟩ [(0, (2:ℚ))] 0
    (by decide) (by decide)
  refine ⟨?_, ?_⟩
  · rw [h.1]
    norm_num [totalInventory, pickupWeight]
  · rw [h.2.1]
    norm_num [applyDelivery, lookupG, setG, addG, amtAt]

/-! ## C8: assignment tie-breaking -/

/-- The planner instance refuting C8's tie-break: two vehicles with ids `2`
and `1`, supplied in that order, based at the same warehouse; one client. -/
def P8 : Planner :=
  ⟨[(0, ((0:ℚ), 0))],
   [⟨0, ((1:ℚ), 1), [(0, (1:ℚ))], false⟩],
   [⟨2, 100, 0⟩, ⟨1, 100, 0⟩], 1⟩

/-- Counterexample to C8.  Both vehicle centers sit at the warehouse `(0,0)`,
so the client at `(1,1)` is at exactly equal distance from both; the claim
says the tie goes to the lowest-sorting vehicle identifier `1`, but
`assign_clients` (Python `min` over the centers dict, which iterates in
vehicle supply order) assigns the client to vehicle `2`, supplied first. -/
theorem C8_counterexample :
    centers0 P8 = [(2, ((0:ℚ), 0)), (1, ((0:ℚ), 0))] ∧
    assignedTo (centers0 P8) P8.clients 2 = [0] ∧
    assignedTo (centers0 P8) P8.clients 1 = [] := by
  refine ⟨by norm_num [centers0, P8, whLocOf, List.find?], ?_, ?_⟩ <;>
    norm_num [assignedTo, nearestCenter, minByQ, euclidSq, centers0, P8,
      whLocOf, List.find?, List.filter]

/-- C8 amended.  `assign_clients` assigns every client to a vehicle whose
center is at minimal Euclidean distance, but a distance tie is broken in
favor of the vehicle supplied EARLIEST in the vehicle catalog (the centers
dict iterates in insertion order and Python's `min` keeps the first
minimum), not the lowest-sorting vehicle identifier. -/
theorem C8_amended (centers : List (ℕ × Point)) (p : Point) (v : ℕ)
    (h : nearestCenter centers p = some v) :
    ∃ l₁ q l₂, centers = l₁ ++ (v, q) :: l₂ ∧
      (∀ c ∈ centers, euclidSq p q ≤ euclidSq p c.2) ∧
      ∀ c ∈ l₁, euclidSq p q < euclidSq p c.2 := by
  unfold nearestCenter at h
  cases hm : minByQ (fun c => euclidSq p c.2) centers with
  | none => rw [hm] at h; cases h
  | some w =>
    rw [hm] at h
    simp only [Option.map_some', Option.some.injEq] at h
    obtain ⟨l₁, l₂, hsplit, hl₁⟩ := minByQ_first hm
    have hle := minByQ_le hm
    refine ⟨l₁, w.2, l₂, ?_, ?_, hl₁⟩
    · rw [hsplit, ← h]
    · exact hle

/-- Witness for C8 amended at a concrete instance: two distinct centers, the
nearer one (id 3, supplied first) wins. -/
theorem C8_amended_witness :
    nearestCenter [(3, ((0:ℚ), 0)), (5, ((3:ℚ), 0))] ((1:ℚ), 0) = some 3 ∧
    ∃ l₁ q l₂, ([(3, ((0:ℚ), 0)), (5, ((3:ℚ), 0))] : List (ℕ × Point))
        = l₁ ++ (3, q) :: l₂ ∧
      (∀ c ∈ ([(3, ((0:ℚ), 0)), (5, ((3:ℚ), 0))] : List (ℕ × Point)),
        euclidSq ((1:ℚ), 0) q ≤ euclidSq ((1:ℚ), 0) c.2) ∧
      ∀ c ∈ l₁, euclidSq ((1:ℚ), 0) q < euclidSq ((1:ℚ), 0) c.2 := by
  have hn : nearestCenter [(3, ((0:ℚ), 0)), (5, ((3:ℚ), 0))] ((1:ℚ), 0) = some 3 := by
    norm_num [nearestCenter, minByQ, euclidSq]
  exact ⟨hn, C8_amended _ _ _ hn⟩

/-! ## C7: the initial depot load -/

/-- Sign-consistency of one client: the demand entries match the flag
(pickup dicts are all nonpositive, delivery dicts all nonnegative), as the
generator produces them. -/
def SignOK (ctx : BuildCtx) (cid : ℕ) : Prop :=
  if ctx.pk cid then ∀ p ∈ ctx.dvec cid, p.2 ≤ 0
  else ∀ p ∈ ctx.dvec cid, 0 ≤ p.2

instance (ctx : BuildCtx) (cid : ℕ) : Decidable (SignOK ctx cid) := by
  unfold SignOK
  cases ctx.pk cid
  · simpa using inferInstanceAs (Decidable (∀ p ∈ ctx.dvec cid, 0 ≤ p.2))
  · simpa using inferInstanceAs (Decidable (∀ p ∈ ctx.dvec cid, p.2 ≤ 0))

/-- Modelled from the claim's words, step (1): the per-good total demand as
the sum, over ALL assigned clients, of the positive (delivery-type) entries
of their demand dicts — with no reference to the `is_pickup` flag. -/
def specTotal (ctx : BuildCtx) (cids : List ℕ) (g : Good) : ℚ :=
  (cids.map fun cid =>
    (((ctx.dvec cid).filter fun p => decide (p.1 = g) && decide (0 < p.2)).map
      Prod.snd).sum).sum

/-- Modelled from the claim's words, step (2): fill goods in the fixed
enumeration order, loading each good the minimum of its total demand and the
remaining capacity. -/
def specPreload (td : Good → ℚ) : List Good → ℚ → List (Good × ℚ)
  | [], _ => []
  | g :: gs, capLeft =>
    (g, min (td g) capLeft) :: specPreload td gs (capLeft - min (td g) capLeft)

/-- The context refuting C7 as stated: one client flagged `is_pickup` whose
demand entry for good 0 is `+5`, vehicle capacity 10. -/
def ctx7 : BuildCtx :=
  ⟨10, ((0:ℚ), 0), [(0, ((0:ℚ), 0))], fun _ => ((1:ℚ), 0),
    fun _ => [(0, (5:ℚ))], fun _ => true, [0]⟩

/-- Counterexample to C7.  The claim computes the total from the positive
entries of ALL clients' demand dicts, so it predicts a preload of 5; the
code sums only the dicts of non-pickup clients, so a pickup-flagged client
with a positive entry is excluded and the code preloads 0. -/
theorem C7_counterexample :
    initTotals ctx7 [0] (zerosInv [0]) = Except.ok [(0, (0:ℚ))] ∧
    preloadGo [(0, (0:ℚ))] ctx7.capacity = [(0, (0:ℚ))] ∧
    specPreload (specTotal ctx7 [0]) [0] ctx7.capacity = [(0, (5:ℚ))] ∧
    ([(0, (0:ℚ))] : List (Good × ℚ)) ≠ [(0, (5:ℚ))] := by
  refine ⟨?_, ?_, ?_, ?_⟩
  · norm_num [initTotals, ctx7, zerosInv]
  · norm_num [preloadGo, ctx7]
  · norm_num [specPreload, specTotal, ctx7, List.filter]
  · intro h
    have := List.head_eq_of_cons_eq h
    have h5 : (0:ℚ) = 5 := congrArg Prod.snd this
    norm_num at h5

lemma posSum_zero_of_not_mem {dv : List (Good × ℚ)} {g : Good}
    (h : g ∉ dv.map Prod.fst) :
    ((dv.filter fun p => decide (p.1 = g) && decide (0 < p.2)).map Prod.snd).sum = 0 := by
  induction dv with
  | nil => simp
  | cons p rest ih =>
    obtain ⟨g', a⟩ := p
    simp only [List.map_cons, List.mem_cons] at h
    push_neg at h
    have hg' : g' ≠ g := Ne.symm h.1
    simp only [List.filter_cons]
    rw [show (decide ((g', a).1 = g) && decide (0 < (g', a).2)) = false by simp [hg']]
    simp only [Bool.false_eq_true, if_false]
    exact ih h.2

lemma posSum_eq_amtAt {dv : List (Good × ℚ)} {g : Good}
    (hnd : (dv.map Prod.fst).Nodup) (hpos : ∀ p ∈ dv, 0 ≤ p.2) :
    ((dv.filter fun p => decide (p.1 = g) && decide (0 < p.2)).map Prod.snd).sum
      = amtAt dv g := by
  induction dv with
  | nil => simp [amtAt, lookupG]
  | cons p rest ih =>
    obtain ⟨g', a⟩ := p
    simp only [List.map_cons, List.nodup_cons] at hnd
    by_cases hg : g' = g
    · subst hg
      have hrest := @posSum_zero_of_not_mem rest g' hnd.1
      by_cases ha : 0 < a
      · simp [List.filter_cons, ha, hrest, amtAt, lookupG]
      · have ha0 : a = 0 :=
          le_antisymm (not_lt.mp ha) (by simpa using hpos (g', a) (by simp))
        simp [List.filter_cons, ha, hrest, amtAt, lookupG, ha0]
    · have hrec := ih hnd.2 (fun p hp => hpos p (by simp [hp]))
      simp [List.filter_cons, hg, hrec, amtAt, lookupG]

lemma posSum_zero_of_nonpos {dv : List (Good × ℚ)} {g : Good}
    (hneg : ∀ p ∈ dv, p.2 ≤ 0) :
    ((dv.filter fun p => decide (p.1 = g) && decide (0 < p.2)).map Prod.snd).sum = 0 := by
  induction dv with
  | nil => simp
  | cons p rest ih =>
    obtain ⟨g', a⟩ := p
    have ha : ¬0 < a := not_lt.mpr (by simpa using hneg (g', a) (by simp))
    simp only [List.filter_cons]
    rw [show (decide ((g', a).1 = g) && decide (0 < (g', a).2)) = false by simp [ha]]
    simp only [Bool.false_eq_true, if_false]
    exact ih (fun p hp => hneg p (by simp [hp]))

lemma initTotals_lookup {ctx : BuildCtx} : ∀ {cids : List ℕ}
    {base tds : List (Good × ℚ)},
    initTotals ctx cids base = Except.ok tds →
    (∀ cid ∈ cids, ¬ctx.pk cid → ((ctx.dvec cid).map Prod.fst).Nodup) →
    ∀ g v, lookupG base g = some v →
    lookupG tds g = some (v +
      ((cids.filter fun cid => !ctx.pk cid).map fun cid => amtAt (ctx.dvec cid) g).sum)
  | [], base, tds, h, _, g, v, hv => by
    simp only [initTotals] at h
    cases h
    simpa using hv
  | cid :: rest, base, tds, h, hnd, g, v, hv => by
    by_cases hpk : ctx.pk cid
    · simp only [initTotals, if_pos hpk] at h
      have := initTotals_lookup h (fun c hc => hnd c (by simp [hc])) g v hv
      rw [this]
      simp [List.filter_cons, hpk]
    · simp only [initTotals, if_neg hpk] at h
      cases hb : addAllG base (ctx.dvec cid) with
      | error e => rw [hb] at h; cases h
      | ok base' =>
        rw [hb] at h
        have hlook := addAllG_lookup hb (hnd cid (by simp) hpk) g v hv
        have := initTotals_lookup h (fun c hc => hnd c (by simp [hc])) g _ hlook
        rw [this]
        simp only [List.filter_cons, List.map_cons]
        rw [show (!ctx.pk cid) = true by simp [hpk]]
        simp only [if_true, List.map_cons, List.sum_cons]
        congr 1
        ring

lemma totals_eq_spec {ctx : BuildCtx} {cids : List ℕ} (g : Good)
    (hsign : ∀ cid ∈ cids, SignOK ctx cid)
    (hnd : ∀ cid ∈ cids, ((ctx.dvec cid).map Prod.fst).Nodup) :
    ((cids.filter fun cid => !ctx.pk cid).map fun cid => amtAt (ctx.dvec cid) g).sum
      = specTotal ctx cids g := by
  induction cids with
  | nil => simp [specTotal]
  | cons cid rest ih =>
    have hrec := ih (fun c hc => hsign c (by simp [hc])) (fun c hc => hnd c (by simp [hc]))
    by_cases hpk : ctx.pk cid
    · have hneg : ∀ p ∈ ctx.dvec cid, p.2 ≤ 0 := by
        have := hsign cid (by simp)
        simpa [SignOK, hpk] using this
      simp only [specTotal, List.map_cons, List.sum_cons, List.filter_cons]
      rw [show (!ctx.pk cid) = false by simp [hpk]]
      simp only [Bool.false_eq_true, if_false]
      rw [hrec, posSum_zero_of_nonpos hneg]
      simp [specTotal]
    · have hpos : ∀ p ∈ ctx.dvec cid, 0 ≤ p.2 := by
        have := hsign cid (by simp)
        simpa [SignOK, hpk] using this
      simp only [specTotal, List.map_cons, List.sum_cons, List.filter_cons]
      rw [show (!ctx.pk cid) = true by simp [hpk]]
      simp only [if_true, List.map_cons, List.sum_cons]
      rw [hrec, posSum_eq_amtAt (hnd cid (by simp)) hpos]
      simp [specTotal]

lemma lookupG_zerosInv {gts : List Good} {g : Good} (h : g ∈ gts) :
    lookupG (zerosInv gts) g = some 0 := by
  induction gts with
  | nil => simp at h
  | cons g' rest ih =>
    by_cases hg : g' = g
    · subst hg; simp [zerosInv, lookupG]
    · rcases List.mem_cons.mp h with rfl | h
      · exact absurd rfl hg
      · simp only [zerosInv, List.map_cons, lookupG, if_neg hg]
        exact ih h

lemma specPreload_zero_cap {T : Good → ℚ} : ∀ {gs : List Good},
    (∀ g ∈ gs, 0 ≤ T g) →
    specPreload T gs 0 = gs.map fun g => (g, (0 : ℚ))
  | [], _ => rfl
  | g :: gs, h => by
    have hmin : min (T g) 0 = 0 := min_eq_right (h g (by simp))
    simp only [specPreload, hmin, List.map_cons]
    rw [show (0:ℚ) - 0 = 0 by ring]
    exact congrArg _ (specPreload_zero_cap fun g' hg' => h g' (by simp [hg']))

lemma preload_eq_spec {T : Good → ℚ} : ∀ {tds : List (Good × ℚ)} {capLeft : ℚ},
    0 ≤ capLeft → (∀ p ∈ tds, p.2 = T p.1 ∧ 0 ≤ p.2) →
    preloadGo tds capLeft = specPreload T (tds.map Prod.fst) capLeft
  | [], capLeft, _, _ => rfl
  | (g, td) :: rest, capLeft, hcap, h => by
    obtain ⟨hT, htd⟩ := h (g, td) (by simp)
    simp only at hT htd
    have hrest : ∀ p ∈ rest, p.2 = T p.1 ∧ 0 ≤ p.2 := fun p hp => h p (by simp [hp])
    simp only [preloadGo, specPreload, List.map_cons]
    by_cases h0 : td ≤ 0
    · rw [if_pos h0]
      have htd0 : td = 0 := le_antisymm h0 htd
      have hmin : min (T g) capLeft = 0 := by
        rw [← hT, htd0]; exact min_eq_left hcap
      rw [hmin]
      rw [show capLeft - 0 = capLeft by ring]
      exact congrArg _ (preload_eq_spec hcap hrest)
    · rw [if_neg h0]
      rw [← hT]
      by_cases hb : capLeft - min td capLeft ≤ 0
      · rw [if_pos hb]
        have hmin : min td capLeft ≤ capLeft := min_le_right _ _
        have hexact : capLeft - min td capLeft = 0 :=
          le_antisymm hb (by linarith)
        rw [hexact]
        rw [specPreload_zero_cap (fun g' hg' => by
          obtain ⟨p, hp, rfl⟩ := List.mem_map.mp hg'
          have := hrest p hp
          rw [← this.1]; exact this.2)]
        rw [List.map_map]
        rfl
      · rw [if_neg hb]
        exact congrArg _ (preload_eq_spec (le_of_lt (not_le.mp hb)) hrest)

/-- C7 amended.  Under flag/sign consistency (pickup dicts nonpositive,
delivery dicts nonnegative — the generator's format), the initial load
equals the claim's two-step description: per-good totals of the positive
entries over all assigned clients, then a greedy fill of the goods in
enumeration order by `min(total, remaining capacity)`.  Without that
precondition the claim is false (see the counterexample): the code keys the
total on the `is_pickup` flag, not on the sign of the entries. -/
theorem C7_amended (ctx : BuildCtx) (cids : List ℕ)
    (hcap : 0 ≤ ctx.capacity)
    (hndg : ctx.goodTypes.Nodup)
    (hsign : ∀ cid ∈ cids, SignOK ctx cid)
    (hkeys : ∀ cid ∈ cids, KeysOK ctx cid)
    (hnd : ∀ cid ∈ cids, ((ctx.dvec cid).map Prod.fst).Nodup) :
    ∃ tds, initTotals ctx cids (zerosInv ctx.goodTypes) = Except.ok tds ∧
      preloadGo tds ctx.capacity =
        specPreload (specTotal ctx cids) ctx.goodTypes ctx.capacity := by
  obtain ⟨tds, htds, hkeys'⟩ := initTotals_ok
    (fun cid hc _ g hg => by rw [zerosInv_keys]; exact hkeys cid hc g hg)
  refine ⟨tds, htds, ?_⟩
  rw [zerosInv_keys] at hkeys'
  have hents : ∀ p ∈ tds, p.2 = specTotal ctx cids p.1 ∧ 0 ≤ p.2 := by
    intro p hp
    have hndtds : (tds.map Prod.fst).Nodup := by rw [hkeys']; exact hndg
    have hmem : p.1 ∈ ctx.goodTypes := by
      rw [← hkeys']; exact List.mem_map.mpr ⟨p, hp, rfl⟩
    have hzero : lookupG (zerosInv ctx.goodTypes) p.1 = some 0 :=
      lookupG_zerosInv hmem
    have hlook := initTotals_lookup htds (fun c hc _ => hnd c hc) p.1 0 hzero
    have hpself := lookupG_of_mem hndtds hp
    rw [hpself] at hlook
    have hval : p.2 = ((cids.filter fun cid => !ctx.pk cid).map
        fun cid => amtAt (ctx.dvec cid) p.1).sum := by
      have := Option.some.injEq _ _ ▸ hlook
      simp only [Option.some.injEq] at hlook
      linarith [hlook.symm ▸ (by ring_nf : (0:ℚ) + ((cids.filter fun cid => !ctx.pk cid).map
        fun cid => amtAt (ctx.dvec cid) p.1).sum = ((cids.filter fun cid => !ctx.pk cid).map
        fun cid => amtAt (ctx.dvec cid) p.1).sum)]
    constructor
    · rw [hval, totals_eq_spec p.1 hsign hnd]
    · rw [hval]
      apply List.sum_nonneg
      intro x hx
      obtain ⟨cid, hcid, rfl⟩ := List.mem_map.mp hx
      have hcidm : cid ∈ cids := (List.mem_filter.mp hcid).1
      have hpk : ¬ctx.pk cid := by simpa using (List.mem_filter.mp hcid).2
      have hpos : ∀ q ∈ ctx.dvec cid, 0 ≤ q.2 := by
        have := hsign cid hcidm
        simpa [SignOK, hpk] using this
      exact amtAt_nonneg hpos _
  rw [preload_eq_spec hcap hents, hkeys']

/-- Witness for C7 amended: one delivery client `{0: 40, 1: 30}` and one
pickup client `{0: -20}`, capacity 100. -/
theorem C7_amended_witness :
    (0:ℚ) ≤ BuildCtx.capacity ⟨100, ((0:ℚ), 0), [(0, ((0:ℚ), 0))],
        fun _ => ((1:ℚ), 0),
        fun cid => if cid = 0 then [(0, (40:ℚ)), (1, (30:ℚ))] else [(0, (-20:ℚ))],
        fun cid => cid == 1, [0, 1]⟩ ∧
    ∃ tds, initTotals ⟨100, ((0:ℚ), 0), [(0, ((0:ℚ), 0))],
        fun _ => ((1:ℚ), 0),
        fun cid => if cid = 0 then [(0, (40:ℚ)), (1, (30:ℚ))] else [(0, (-20:ℚ))],
        fun cid => cid == 1, [0, 1]⟩ [0, 1]
        (zerosInv [0, 1]) = Except.ok tds ∧
      preloadGo tds (100:ℚ) =
        specPreload (specTotal ⟨100, ((0:ℚ), 0), [(0, ((0:ℚ), 0))],
          fun _ => ((1:ℚ), 0),
          fun cid => if cid = 0 then [(0, (40:ℚ)), (1, (30:ℚ))] else [(0, (-20:ℚ))],
          fun cid => cid == 1, [0, 1]⟩ [0, 1]) [0, 1] (100:ℚ) := by
  refine ⟨by norm_num, ?_⟩
  exact C7_amended _ [0, 1] (by norm_num) (by decide)
    (by
      intro cid hc
      rcases List.mem_cons.mp hc with rfl | hc
      · norm_num [SignOK]
      · rcases List.mem_cons.mp hc with rfl | hc
        · norm_num [SignOK]
        · simp at hc)
    (by
      intro cid hc
      rcases List.mem_cons.mp hc with rfl | hc
      · norm_num [KeysOK]
      · rcases List.mem_cons.mp hc with rfl | hc
        · norm_num [KeysOK]
        · simp at hc)
    (by
      intro cid hc
      rcases List.mem_cons.mp hc with rfl | hc
      · norm_num
      · rcases List.mem_cons.mp hc with rfl | hc
        · norm_num
        · simp at hc)

/-! ## C2: the inventory invariant -/

lemma pickupWeight_eq_neg (dv : List (Good × ℚ)) :
    pickupWeight dv = -deliveryWeight dv := by
  induction dv with
  | nil => simp [pickupWeight, deliveryWeight]
  | cons p rest ih =>
    simp only [pickupWeight, deliveryWeight, List.map_cons, List.sum_cons] at *
    rw [ih]
    ring

lemma totalInventory_zerosInv (gts : List Good) :
    totalInventory (zerosInv gts) = 0 := by
  induction gts with
  | nil => rfl
  | cons g rest ih => simpa [zerosInv, totalInventory] using ih

lemma reloadGo_keys : ∀ {dels : List (ℕ × List (Good × ℚ))}
    {acc r : List (Good × ℚ)} {capLeft : ℚ},
    reloadGo capLeft acc dels = Except.ok r → r.map Prod.fst = acc.map Prod.fst
  | [], acc, r, capLeft, h => by simp only [reloadGo] at h; cases h; rfl
  | (c, dv) :: rest, acc, r, capLeft, h => by
    simp only [reloadGo] at h
    by_cases hw : deliveryWeight dv ≤ capLeft
    · rw [if_pos hw] at h
      cases hacc' : addAllG acc dv with
      | error e => rw [hacc'] at h; cases h
      | ok acc' =>
        rw [hacc'] at h
        rw [reloadGo_keys h, addAllG_keys hacc']
    · rw [if_neg hw] at h
      exact reloadGo_keys h

lemma initTotals_keys {ctx : BuildCtx} : ∀ {cids : List ℕ}
    {base tds : List (Good × ℚ)},
    initTotals ctx cids base = Except.ok tds → tds.map Prod.fst = base.map Prod.fst
  | [], base, tds, h => by simp only [initTotals] at h; cases h; rfl
  | cid :: rest, base, tds, h => by
    by_cases hpk : ctx.pk cid
    · simp only [initTotals, if_pos hpk] at h
      exact initTotals_keys h
    · simp only [initTotals, if_neg hpk] at h
      cases hb : addAllG base (ctx.dvec cid) with
      | error e => rw [hb] at h; cases h
      | ok base' =>
        rw [hb] at h
        rw [initTotals_keys h, addAllG_keys hb]

/-- The inventory invariant from the spec: the dict is keyed exactly by the
good types, every entry is nonnegative, and the entries sum to at most the
vehicle capacity. -/
def InvOK (ctx : BuildCtx) (s : BState) : Prop :=
  s.inventory.map Prod.fst = ctx.goodTypes ∧
  (∀ p ∈ s.inventory, 0 ≤ p.2) ∧ totalInventory s.inventory ≤ ctx.capacity

/-- One step preserves the inventory invariant, given flag/sign-consistent
unserved clients. -/
lemma stepB_invOK {ctx : BuildCtx} {s s' : BState}
    (hst : stepB ctx s = Except.ok s')
    (hu : s.unserved ≠ [])
    (hwhs : ctx.whs ≠ [])
    (hndg : ctx.goodTypes.Nodup)
    (hcap : 0 ≤ ctx.capacity)
    (hcl : ∀ cid ∈ s.unserved, KeysOK ctx cid ∧ SignOK ctx cid ∧
      ((ctx.dvec cid).map Prod.fst).Nodup)
    (h : InvOK ctx s) : InvOK ctx s' := by
  obtain ⟨hkeys, hpos, htot⟩ := h
  rcases stepB_shape ctx s hu hkeys (fun cid hc => (hcl cid hc).1) hwhs with
    ⟨c, hc, hfeas, inv2, happly, hstep⟩ | ⟨q, hq, inv2, hreload, hstep⟩
  · rw [hst] at hstep
    cases hstep
    have hinv2keys : inv2.map Prod.fst = ctx.goodTypes := by
      rw [applyDelivery_eq_addAllG] at happly
      rw [addAllG_keys happly, hkeys]
    have hnddv := (hcl c hc).2.2
    have hndinv : (s.inventory.map Prod.fst).Nodup := by rw [hkeys]; exact hndg
    have hndinv2 : (inv2.map Prod.fst).Nodup := by rw [hinv2keys]; exact hndg
    have hlookup := applyDelivery_lookup happly hnddv
    refine ⟨hinv2keys, ?_, ?_⟩
    · apply entries_nonneg_of_lookup hndinv2
      intro g v hv
      have hg : g ∈ s.inventory.map Prod.fst := by
        rw [hkeys, ← hinv2keys]
        exact List.mem_map.mpr ⟨(g, v), lookupG_mem hv, rfl⟩
      obtain ⟨v₀, hv₀⟩ := lookupG_isSome hg
      have hv₀pos : 0 ≤ v₀ := by simpa using hpos _ (lookupG_mem hv₀)
      have := hlookup g v₀ hv₀
      rw [hv] at this
      simp only [Option.some.injEq] at this
      subst this
      by_cases hpk : ctx.pk c
      · have hneg : ∀ p ∈ ctx.dvec c, p.2 ≤ 0 := by
          have := (hcl c hc).2.1
          simpa [SignOK, hpk] using this
        have := amtAt_nonpos hneg g
        linarith
      · have hps : ∀ p ∈ ctx.dvec c, 0 ≤ p.2 := by
          have := (hcl c hc).2.1
          simpa [SignOK, hpk] using this
        by_cases hgdv : g ∈ (ctx.dvec c).map Prod.fst
        · have hge : invGe s.inventory (ctx.dvec c) := by
            have := hfeas
            simpa [feasPred, hpk] using this
          obtain ⟨p, hp, rfl⟩ := List.mem_map.mp hgdv
          have hent := hge p hp
          have hamt : amtAt (ctx.dvec c) p.1 = p.2 := by
            simp [amtAt, lookupG_of_mem hnddv hp]
          have hv₀amt : amtAt s.inventory p.1 = v₀ := by
            simp [amtAt, hv₀]
          rw [hamt]
          rw [hv₀amt] at hent
          linarith [hent.2]
        · have : amtAt (ctx.dvec c) g = 0 := by
            simp [amtAt, lookupG_eq_none.mpr hgdv]
          rw [this]
          linarith
    · have htot2 := applyDelivery_total happly hndinv
      unfold serveState
      simp only
      by_cases hpk : ctx.pk c
      · have hf : totalInventory s.inventory + pickupWeight (ctx.dvec c) ≤ ctx.capacity := by
          have := hfeas
          simpa [feasPred, hpk] using this
        rw [pickupWeight_eq_neg] at hf
        linarith
      · have hps : ∀ p ∈ ctx.dvec c, 0 ≤ p.2 := by
          have := (hcl c hc).2.1
          simpa [SignOK, hpk] using this
        have hw : 0 ≤ deliveryWeight (ctx.dvec c) := by
          apply List.sum_nonneg
          intro x hx
          obtain ⟨p, hp, rfl⟩ := List.mem_map.mp hx
          exact hps p hp
        linarith
  · rw [hst] at hstep
    cases hstep
    have hkeys2 : inv2.map Prod.fst = ctx.goodTypes := by
      rw [reloadGo_keys hreload, zerosInv_keys]
    have hdelsok : ∀ d ∈ sortByQ (fun item => deliveryWeight item.2) (delsOf ctx s),
        (d.2.map Prod.fst).Nodup ∧ ∀ p ∈ d.2, 0 ≤ p.2 := by
      intro d hd
      have hd' : d ∈ delsOf ctx s :=
        (sortByQ_perm (fun item => deliveryWeight item.2) (delsOf ctx s)).mem_iff.mp hd
      obtain ⟨hmem, hdv, hpk⟩ := delsOf_mem hd'
      refine ⟨by rw [hdv]; exact (hcl d.1 hmem).2.2, ?_⟩
      intro p hp
      have hps : ∀ q ∈ ctx.dvec d.1, 0 ≤ q.2 := by
        have := (hcl d.1 hmem).2.1
        simpa [SignOK, hpk] using this
      exact hps p (by rw [← hdv]; exact hp)
    refine ⟨hkeys2, ?_, ?_⟩
    · have hndinv2 : (inv2.map Prod.fst).Nodup := by rw [hkeys2]; exact hndg
      apply entries_nonneg_of_lookup hndinv2
      intro g v hv
      have hg : g ∈ ctx.goodTypes := by
        rw [← hkeys2]
        exact List.mem_map.mpr ⟨(g, v), lookupG_mem hv, rfl⟩
      have hzero := lookupG_zerosInv hg
      obtain ⟨v', hv', hle⟩ := reloadGo_mono hreload hdelsok g 0 hzero
      rw [hv] at hv'
      simp only [Option.some.injEq] at hv'
      subst hv'
      exact hle
    · have hndzeros : ((zerosInv ctx.goodTypes).map Prod.fst).Nodup := by
        rw [zerosInv_keys]; exact hndg
      have := reloadGo_total hreload hndzeros hcap
      rw [totalInventory_zerosInv] at this
      unfold whState
      simp only
      linarith

lemma stepB_unserved_subset {ctx : BuildCtx} {s s' : BState}
    (h : stepB ctx s = Except.ok s') : ∀ c ∈ s'.unserved, c ∈ s.unserved := by
  rcases stepB_cases h with rfl | ⟨c, hc, inv2, rfl⟩ | ⟨q, inv2, rfl⟩
  · exact fun c hc => hc
  · exact fun c' hc' => (s.unserved.erase_sublist c).subset hc'
  · exact fun c hc => hc

/-- The loop's state sequence: the state after `n` iterations of the
`while unserved:` body (constant once the loop condition fails). -/
def runStates (ctx : BuildCtx) : ℕ → BState → Except Good BState
  | 0, s => Except.ok s
  | n + 1, s =>
    if s.unserved = [] then Except.ok s
    else
      match stepB ctx s with
      | Except.error e => Except.error e
      | Except.ok s' => runStates ctx n s'

lemma runStates_invOK {ctx : BuildCtx}
    (hwhs : ctx.whs ≠ []) (hndg : ctx.goodTypes.Nodup) (hcap : 0 ≤ ctx.capacity) :
    ∀ {n : ℕ} {s s' : BState},
    runStates ctx n s = Except.ok s' →
    (∀ cid ∈ s.unserved, KeysOK ctx cid ∧ SignOK ctx cid ∧
      ((ctx.dvec cid).map Prod.fst).Nodup) →
    InvOK ctx s → InvOK ctx s'
  | 0, s, s', h, _, hinv => by
    simp only [runStates] at h; cases h; exact hinv
  | n + 1, s, s', h, hcl, hinv => by
    simp only [runStates] at h
    by_cases hu : s.unserved = []
    · rw [if_pos hu] at h; cases h; exact hinv
    · rw [if_neg hu] at h
      cases hst : stepB ctx s with
      | error e => rw [hst] at h; cases h
      | ok s₁ =>
        rw [hst] at h
        exact runStates_invOK hwhs hndg hcap h
          (fun cid hc => hcl cid (stepB_unserved_subset hst cid hc))
          (stepB_invOK hst hu hwhs hndg hcap hcl hinv)

/-- The context refuting C2 as stated: capacity 10, one client flagged
`is_pickup` whose demand entry is `+5` (the flag contradicts the sign). -/
def ctx2 : BuildCtx :=
  ⟨10, ((0:ℚ), 0), [(0, ((0:ℚ), 0))], fun _ => ((1:ℚ), 0),
    fun _ => [(0, (5:ℚ))], fun _ => true, [0]⟩

/-- Counterexample to C2.  The pickup feasibility test checks only the total
(`0 + (-5) ≤ 10` passes), then the application adds the negated entry, so
after the very first client visit the inventory of good 0 is `-5 < 0`: for
this input list the per-good nonnegativity claimed for every input fails. -/
theorem C2_counterexample :
    initTotals ctx2 [0] (zerosInv [0]) = Except.ok [(0, (0:ℚ))] ∧
    runStates ctx2 1 (initState ctx2 [0] (preloadGo [(0, (0:ℚ))] ctx2.capacity)) =
      Except.ok ⟨[], [(0, (-5:ℚ))], [((0:ℚ), 0), ((1:ℚ), 0)], ((1:ℚ), 0)⟩ ∧
    ¬(0 ≤ (-5:ℚ)) := by
  refine ⟨by norm_num [initTotals, ctx2, zerosInv], ?_, by norm_num⟩
  norm_num [runStates, initState, preloadGo, sortIds, sortByQ, insertByQ, ctx2,
    stepB, feasFilter, deliveryFeasible, lookupG, minByQ, euclidSq, whVisit,
    reloadGo, addAllG, addG, setG, deliveryWeight, totalInventory, pickupWeight,
    applyPickup, applyDelivery, serveState, zerosInv]

/-- C2 amended.  For flag/sign-consistent inputs (pickup dicts nonpositive,
delivery dicts nonnegative — the generator's format) the invariant holds at
the initial preload and after every loop iteration: per-good inventory is
nonnegative and the total never exceeds capacity; moves that would violate
either bound are rejected by the feasibility tests, never clamped.  As
stated — over every input list — the claim is false (see the
counterexample). -/
theorem C2_amended (ctx : BuildCtx) (cids : List ℕ) (tds : List (Good × ℚ))
    (hwhs : ctx.whs ≠ []) (hndg : ctx.goodTypes.Nodup) (hcap : 0 ≤ ctx.capacity)
    (hcl : ∀ cid ∈ cids, KeysOK ctx cid ∧ SignOK ctx cid ∧
      ((ctx.dvec cid).map Prod.fst).Nodup)
    (htds : initTotals ctx cids (zerosInv ctx.goodTypes) = Except.ok tds) :
    ∀ (n : ℕ) (s' : BState),
    runStates ctx n (initState ctx cids (preloadGo tds ctx.capacity)) =
      Except.ok s' →
    (∀ p ∈ s'.inventory, 0 ≤ p.2) ∧ totalInventory s'.inventory ≤ ctx.capacity := by
  intro n s' h
  have hkeys0 : (preloadGo tds ctx.capacity).map Prod.fst = ctx.goodTypes := by
    rw [preloadGo_keys, initTotals_keys htds, zerosInv_keys]
  have hinv0 : InvOK ctx (initState ctx cids (preloadGo tds ctx.capacity)) :=
    ⟨hkeys0, preloadGo_nonneg hcap, preloadGo_total hcap⟩
  have hcl' : ∀ cid ∈ (initState ctx cids (preloadGo tds ctx.capacity)).unserved,
      KeysOK ctx cid ∧ SignOK ctx cid ∧ ((ctx.dvec cid).map Prod.fst).Nodup := by
    intro cid hc
    exact hcl cid ((sortIds_perm cids).mem_iff.mp hc)
  have := runStates_invOK hwhs hndg hcap h hcl' hinv0
  exact ⟨this.2.1, this.2.2⟩

/-- Witness for C2 amended: the sign-consistent one-delivery-client instance;
after one step the inventory is empty but well-formed. -/
theorem C2_amended_witness :
    initTotals ⟨10, ((0:ℚ), 0), [(0, ((0:ℚ), 0))], fun _ => ((1:ℚ), 0),
        fun _ => [(0, (5:ℚ))], fun _ => false, [0]⟩ [0] (zerosInv [0]) =
      Except.ok [(0, (5:ℚ))] ∧
    ∀ (s' : BState),
      runStates ⟨10, ((0:ℚ), 0), [(0, ((0:ℚ), 0))], fun _ => ((1:ℚ), 0),
          fun _ => [(0, (5:ℚ))], fun _ => false, [0]⟩ 1
        (initState ⟨10, ((0:ℚ), 0), [(0, ((0:ℚ), 0))], fun _ => ((1:ℚ), 0),
          fun _ => [(0, (5:ℚ))], fun _ => false, [0]⟩ [0]
          (preloadGo [(0, (5:ℚ))] (10:ℚ))) = Except.ok s' →
      (∀ p ∈ s'.inventory, 0 ≤ p.2) ∧ totalInventory s'.inventory ≤ (10:ℚ) := by
  constructor
  · norm_num [initTotals, zerosInv, addAllG, addG, lookupG, setG]
  · intro s' h
    exact C2_amended _ [0] [(0, (5:ℚ))] (by simp) (by decide) (by norm_num)
      (by
        intro cid hc
        rcases List.mem_cons.mp hc with rfl | hc
        · exact ⟨by norm_num [KeysOK], by norm_num [SignOK], by norm_num⟩
        · simp at hc)
      (by norm_num [initTotals, zerosInv, addAllG, addG, lookupG, setG]) 1 s' h

/-! ## C5: the serve branch picks the nearest feasible client -/

lemma feasFilter_sublist {ctx : BuildCtx} {inv : List (Good × ℚ)} :
    ∀ {l fl : List ℕ}, feasFilter ctx inv l = Except.ok fl → fl.Sublist l
  | [], fl, h => by
    simp only [feasFilter] at h; cases h; exact List.Sublist.refl _
  | cid :: rest, fl, h => by
    simp only [feasFilter] at h
    by_cases hpk : ctx.pk cid
    · rw [if_pos hpk] at h
      by_cases hcap : totalInventory inv + pickupWeight (ctx.dvec cid) ≤ ctx.capacity
      · rw [if_pos hcap] at h
        cases hrest : feasFilter ctx inv rest with
        | error e => rw [hrest] at h; cases h
        | ok l' =>
          rw [hrest] at h; cases h
          exact List.Sublist.cons₂ _ (feasFilter_sublist hrest)
      · rw [if_neg hcap] at h
        exact (feasFilter_sublist h).cons _
    · rw [if_neg hpk] at h
      cases hdf : deliveryFeasible inv (ctx.dvec cid) with
      | error e => rw [hdf] at h; cases h
      | ok b =>
        rw [hdf] at h
        cases b
        · exact (feasFilter_sublist h).cons _
        · cases hrest : feasFilter ctx inv rest with
          | error e => rw [hrest] at h; cases h
          | ok l' =>
            rw [hrest] at h; cases h
            exact List.Sublist.cons₂ _ (feasFilter_sublist hrest)

/-- CPython iterates a set by scanning its hash-table slots in index order.
For a freshly built set of at most four distinct nonnegative ints with
pairwise-distinct residues modulo 8 this model is exact: the initial table
has 8 slots, no resize happens below five elements, `hash(n) = n` for
nonnegative ints, and without collisions element `n` sits alone in slot
`n % 8` — so iteration yields the elements in ascending order of `n % 8`. -/
def setOrder8 (cids : List ℕ) : List ℕ :=
  sortByQ (fun n => ((n % 8 : ℕ) : ℚ)) cids

/-- The context refuting C5's tie-break: one good, capacity 100; delivery
clients 3 at `(3, 4)` and 497 at `(0, 5)`, both at squared distance 25 from
the depot `(0, 0)` and both feasible with stock 10. -/
def ctx5c : BuildCtx :=
  ⟨100, ((0 : ℚ), 0), [(0, ((0 : ℚ), 0))],
   (fun cid => if cid = 3 then ((3 : ℚ), 4) else ((0 : ℚ), 5)),
   (fun _ => [(0, (1 : ℚ))]), (fun _ => false), [0]⟩

/-- The loop state right after initialization when the assignment is
`{3, 497}`: CPython's set order puts 497 (slot `497 % 8 = 1`) before 3
(slot 3). -/
def s5c : BState :=
  ⟨setOrder8 [3, 497], [(0, (10 : ℚ))], [((0 : ℚ), 0)], ((0 : ℚ), 0)⟩

/-- Counterexample to C5.  Clients 3 and 497 are both feasible and exactly
tied in Euclidean distance from the current location, yet the step serves
497, not the lowest id 3: `set([3, 497])` iterates as `[497, 3]` (497
occupies hash slot `497 % 8 = 1`, 3 occupies slot 3, and slots are scanned
in index order) and Python's `min` keeps the first minimum, so a distance
tie goes to set-iteration order — which stops being ascending-id order once
an id reaches the table size. -/
theorem C5_counterexample :
    setOrder8 [3, 497] = [497, 3] ∧
    feasPred ctx5c [(0, (10 : ℚ))] 3 ∧
    feasPred ctx5c [(0, (10 : ℚ))] 497 ∧
    euclidSq ((0 : ℚ), 0) (ctx5c.loc 3) = euclidSq ((0 : ℚ), 0) (ctx5c.loc 497) ∧
    stepB ctx5c s5c = Except.ok (serveState ctx5c s5c 497 [(0, (9 : ℚ))]) ∧
    (3 : ℕ) < 497 := by
  have hord : setOrder8 [3, 497] = [497, 3] := by
    norm_num [setOrder8, sortByQ, insertByQ]
  refine ⟨hord, ?_, ?_, ?_, ?_, by norm_num⟩
  · norm_num [feasPred, ctx5c, invGe, amtAt, lookupG]
  · norm_num [feasPred, ctx5c, invGe, amtAt, lookupG]
  · norm_num [euclidSq, ctx5c]
  · have hu : s5c.unserved = [497, 3] := hord
    have hfl : feasFilter ctx5c s5c.inventory s5c.unserved = Except.ok [497, 3] := by
      rw [show s5c.inventory = [(0, (10 : ℚ))] from rfl, hu]
      norm_num [feasFilter, deliveryFeasible, lookupG, ctx5c]
    have hmin : minByQ (fun cid => euclidSq s5c.current (ctx5c.loc cid)) [497, 3]
        = some 497 := by
      norm_num [minByQ, euclidSq, ctx5c, s5c]
    have hinv : applyDelivery s5c.inventory (ctx5c.dvec 497)
        = Except.ok [(0, (9 : ℚ))] := by
      norm_num [applyDelivery, lookupG, setG, ctx5c, s5c]
    exact stepB_eq_serve hfl hmin hinv

/-- C5 (amended).  When the feasible subset is nonempty the step serves the
feasible client of minimal squared Euclidean distance from the current
location; a distance tie goes to the feasible client that comes FIRST in
the unserved set's iteration order (the feasibility filter preserves that
order and Python's `min` keeps the first minimum) — which is NOT the lowest
client id in general, see the counterexample.  The served client's whole
signed demand dict is applied to the inventory in one step (each good's
inventory moves by the negated entry, so negative pickup entries increase
it and positive delivery entries decrease it), the client leaves the
unserved set, and the current location becomes the client's point. -/
theorem C5_amended (ctx : BuildCtx) (s : BState) (fl : List ℕ)
    (hfl : feasFilter ctx s.inventory s.unserved = Except.ok fl)
    (hne : fl ≠ [])
    (hkeys : s.inventory.map Prod.fst = ctx.goodTypes)
    (hGK : ∀ cid ∈ s.unserved, KeysOK ctx cid)
    (hnd : ∀ cid ∈ s.unserved, ((ctx.dvec cid).map Prod.fst).Nodup) :
    ∃ c ∈ fl, ∃ inv2,
      stepB ctx s = Except.ok (serveState ctx s c inv2) ∧
      feasPred ctx s.inventory c ∧
      List.Sublist fl s.unserved ∧
      (∀ b ∈ fl, euclidSq s.current (ctx.loc c) ≤ euclidSq s.current (ctx.loc b)) ∧
      (∃ l₁ l₂, fl = l₁ ++ c :: l₂ ∧
        ∀ b ∈ l₁, euclidSq s.current (ctx.loc c) < euclidSq s.current (ctx.loc b)) ∧
      (∀ g v, lookupG s.inventory g = some v →
        lookupG inv2 g = some (v - amtAt (ctx.dvec c) g)) ∧
      (serveState ctx s c inv2).unserved = s.unserved.erase c ∧
      (serveState ctx s c inv2).current = ctx.loc c ∧
      (serveState ctx s c inv2).route = s.route ++ [ctx.loc c] := by
  cases hmin : minByQ (fun cid => euclidSq s.current (ctx.loc cid)) fl with
  | none => exact absurd (minByQ_eq_none.mp hmin) hne
  | some c =>
    have hcfl : c ∈ fl := minByQ_mem hmin
    have hcu : c ∈ s.unserved := feasFilter_sub hfl c hcfl
    obtain ⟨inv2, hinv2, _⟩ :=
      @applyDelivery_ok (ctx.dvec c) s.inventory (by rw [hkeys]; exact hGK c hcu)
    exact ⟨c, hcfl, inv2, stepB_eq_serve hfl hmin hinv2,
      feasFilter_pred hfl c hcfl, feasFilter_sublist hfl, minByQ_le hmin,
      minByQ_first hmin,
      applyDelivery_lookup hinv2 (hnd c hcu), rfl, rfl, rfl⟩

/-- The witness instance for amended C5: two feasible delivery clients (ids
1 and 2, both below 8, so the set genuinely iterates `[1, 2]`) at squared
distance 25 from the depot. -/
def ctx5w : BuildCtx :=
  ⟨100, ((0 : ℚ), 0), [(0, ((0 : ℚ), 0))],
   (fun cid => if cid = 1 then ((3 : ℚ), 4) else ((0 : ℚ), 5)),
   (fun _ => [(0, (1 : ℚ))]), (fun _ => false), [0]⟩

/-- The witness state: both clients unserved, stock 10, at the depot. -/
def s5w : BState := ⟨[1, 2], [(0, (10 : ℚ))], [((0 : ℚ), 0)], ((0 : ℚ), 0)⟩

theorem C5_amended_witness :
    ∃ c ∈ [1, 2], ∃ inv2,
      stepB ctx5w s5w = Except.ok (serveState ctx5w s5w c inv2) ∧
      feasPred ctx5w s5w.inventory c ∧
      List.Sublist [1, 2] s5w.unserved ∧
      (∀ b ∈ [1, 2],
        euclidSq s5w.current (ctx5w.loc c) ≤ euclidSq s5w.current (ctx5w.loc b)) ∧
      (∃ l₁ l₂, [1, 2] = l₁ ++ c :: l₂ ∧
        ∀ b ∈ l₁, euclidSq s5w.current (ctx5w.loc c) <
          euclidSq s5w.current (ctx5w.loc b)) ∧
      (∀ g v, lookupG s5w.inventory g = some v →
        lookupG inv2 g = some (v - amtAt (ctx5w.dvec c) g)) ∧
      (serveState ctx5w s5w c inv2).unserved = s5w.unserved.erase c ∧
      (serveState ctx5w s5w c inv2).current = ctx5w.loc c ∧
      (serveState ctx5w s5w c inv2).route = s5w.route ++ [ctx5w.loc c] := by
  apply C5_amended
  · rw [show s5w.inventory = [(0, (10 : ℚ))] from rfl,
      show s5w.unserved = [1, 2] from rfl]
    norm_num [feasFilter, deliveryFeasible, lookupG, ctx5w]
  · decide
  · rfl
  · intro cid hc
    norm_num [KeysOK, ctx5w]
  · intro cid hc
    norm_num [ctx5w]

/-! ## C6: the empty-feasible branch -/

/-- C6.  When the feasible subset is empty: with `nc` the nearest unserved
client and `wh` the nearest warehouse over the whole catalog (ties by
iteration order in both cases), (i) if `nc` is strictly closer than `wh` and
passes the step-1 feasibility test (`feasPred`, the same predicate used by
the serve branch), the step serves `nc` directly; (ii) otherwise — not
strictly closer, or the direct attempt fails — the step appends the nearest
warehouse's point, and the new inventory is rebuilt from scratch (from the
all-zero dict over the good types) by greedily accepting the still-unserved
NON-pickup clients, stably sorted ascending by total weight, each accepted
only if its full weight fits in the remaining capacity; the unserved set is
unchanged.  The delivery list `delsOf` contains exactly the unserved clients
whose `is_pickup` flag is false, so pickup clients are never loaded for. -/
theorem C6_else_branch (ctx : BuildCtx) (s : BState) (nc : ℕ) (wh : ℕ × Point)
    (hfl : feasFilter ctx s.inventory s.unserved = Except.ok [])
    (hnc : minByQ (fun cid => euclidSq s.current (ctx.loc cid)) s.unserved = some nc)
    (hwh : minByQ (fun w => euclidSq s.current w.2) ctx.whs = some wh)
    (hkeys : s.inventory.map Prod.fst = ctx.goodTypes)
    (hGK : ∀ cid ∈ s.unserved, KeysOK ctx cid) :
    ((euclidSq s.current (ctx.loc nc) < euclidSq s.current wh.2 ∧
        feasPred ctx s.inventory nc) →
      ∃ inv2, applyDelivery s.inventory (ctx.dvec nc) = Except.ok inv2 ∧
        stepB ctx s = Except.ok (serveState ctx s nc inv2)) ∧
    ((¬euclidSq s.current (ctx.loc nc) < euclidSq s.current wh.2 ∨
        ¬feasPred ctx s.inventory nc) →
      ∃ inv2, reloadGo ctx.capacity (zerosInv ctx.goodTypes)
          (sortByQ (fun item => deliveryWeight item.2) (delsOf ctx s)) =
          Except.ok inv2 ∧
        stepB ctx s = Except.ok (whState s wh.2 inv2)) ∧
    (∀ d, d ∈ delsOf ctx s ↔
      d.1 ∈ s.unserved ∧ ctx.pk d.1 = false ∧ d.2 = ctx.dvec d.1) ∧
    (sortByQ (fun item => deliveryWeight item.2) (delsOf ctx s)).Perm (delsOf ctx s) ∧
    List.Sorted (fun a b => deliveryWeight a.2 ≤ deliveryWeight b.2)
      (sortByQ (fun item => deliveryWeight item.2) (delsOf ctx s)) := by
  have hncu : nc ∈ s.unserved := minByQ_mem hnc
  have hkeysnc : ∀ g ∈ (ctx.dvec nc).map Prod.fst, g ∈ s.inventory.map Prod.fst := by
    rw [hkeys]; exact hGK nc hncu
  refine ⟨?_, ?_, ?_, sortByQ_perm _ _, sortByQ_sorted _ _⟩
  · rintro ⟨hdc, hfeas⟩
    obtain ⟨inv2, hinv2, _⟩ := @applyDelivery_ok (ctx.dvec nc) s.inventory hkeysnc
    refine ⟨inv2, hinv2, ?_⟩
    unfold stepB
    rw [hfl]
    dsimp only [minByQ]
    rw [hnc, hwh]
    dsimp only
    rw [if_pos hdc]
    cases hpk : ctx.pk nc with
    | true =>
      rw [if_pos rfl]
      have hcap : totalInventory s.inventory + pickupWeight (ctx.dvec nc) ≤
          ctx.capacity := by simpa [feasPred, hpk] using hfeas
      rw [if_pos hcap, applyPickup_eq_applyDelivery, hinv2]
      rfl
    | false =>
      rw [if_neg (by simp)]
      have hge : invGe s.inventory (ctx.dvec nc) := by
        simpa [feasPred, hpk] using hfeas
      rw [(deliveryFeasible_true_iff hkeysnc).mpr hge]
      dsimp only
      rw [hinv2]
      rfl
  · intro hfail
    obtain ⟨inv2, hreload, _⟩ := reload_ok_of_keys hGK
    refine ⟨inv2, hreload, ?_⟩
    have hwhv := whVisit_eq (s := s) (q := wh.2) hreload
    unfold stepB
    rw [hfl]
    dsimp only [minByQ]
    rw [hnc, hwh]
    dsimp only
    rcases hfail with hfail | hfail
    · rw [if_neg hfail]
      exact hwhv
    · by_cases hdc : euclidSq s.current (ctx.loc nc) < euclidSq s.current wh.2
      · rw [if_pos hdc]
        cases hpk : ctx.pk nc with
        | true =>
          rw [if_pos rfl]
          have hcap : ¬(totalInventory s.inventory + pickupWeight (ctx.dvec nc) ≤
              ctx.capacity) := by
            intro hc
            exact hfail (by simpa [feasPred, hpk] using hc)
          rw [if_neg hcap]
          exact hwhv
        | false =>
          rw [if_neg (by simp)]
          have hge : ¬invGe s.inventory (ctx.dvec nc) := by
            intro hc
            exact hfail (by simpa [feasPred, hpk] using hc)
          obtain ⟨b, hb⟩ := deliveryFeasible_ok hkeysnc
          cases b
          · rw [hb]
            exact hwhv
          · exact absurd (deliveryFeasible_true_imp hb) hge
      · rw [if_neg hdc]
        exact hwhv
  · intro d
    constructor
    · intro hd
      obtain ⟨hmem, hdv, hpk⟩ := delsOf_mem hd
      exact ⟨hmem, by simpa using hpk, hdv⟩
    · rintro ⟨hmem, hpk, hdv⟩
      unfold delsOf
      apply List.mem_map.mpr
      refine ⟨d.1, List.mem_filter.mpr ⟨hmem, by simp [hpk]⟩, ?_⟩
      rw [← hdv]

/-- The concrete context and state witnessing C6: one unserved delivery
client with demand 60 at distance 5, empty inventory, the vehicle standing
at the sole warehouse. -/
def ctx6 : BuildCtx :=
  ⟨100, ((0:ℚ), 0), [(0, ((0:ℚ), 0))], fun _ => ((5:ℚ), 0),
    fun _ => [(0, (60:ℚ))], fun _ => false, [0]⟩

/-- The state for the C6 witness. -/
def s6 : BState := ⟨[0], [(0, (0:ℚ))], [((0:ℚ), 0)], ((0:ℚ), 0)⟩

/-- Witness for C6: at `s6` the client is not strictly closer than the
warehouse (the vehicle stands on it), so the step is a warehouse visit. -/
theorem C6_else_branch_witness :
    ((euclidSq s6.current (ctx6.loc 0) < euclidSq s6.current ((0:ℚ), 0) ∧
        feasPred ctx6 s6.inventory 0) →
      ∃ inv2, applyDelivery s6.inventory (ctx6.dvec 0) = Except.ok inv2 ∧
        stepB ctx6 s6 = Except.ok (serveState ctx6 s6 0 inv2)) ∧
    ((¬euclidSq s6.current (ctx6.loc 0) < euclidSq s6.current ((0:ℚ), 0) ∨
        ¬feasPred ctx6 s6.inventory 0) →
      ∃ inv2, reloadGo ctx6.capacity (zerosInv ctx6.goodTypes)
          (sortByQ (fun item => deliveryWeight item.2) (delsOf ctx6 s6)) =
          Except.ok inv2 ∧
        stepB ctx6 s6 = Except.ok (whState s6 ((0:ℚ), 0) inv2)) ∧
    (∀ d, d ∈ delsOf ctx6 s6 ↔
      d.1 ∈ s6.unserved ∧ ctx6.pk d.1 = false ∧ d.2 = ctx6.dvec d.1) ∧
    (sortByQ (fun item => deliveryWeight item.2) (delsOf ctx6 s6)).Perm
      (delsOf ctx6 s6) ∧
    List.Sorted (fun a b => deliveryWeight a.2 ≤ deliveryWeight b.2)
      (sortByQ (fun item => deliveryWeight item.2) (delsOf ctx6 s6)) := by
  apply C6_else_branch ctx6 s6 0 (0, ((0:ℚ), 0))
  · norm_num [feasFilter, deliveryFeasible, lookupG, ctx6, s6]
  · rfl
  · rfl
  · rfl
  · intro cid hc
    norm_num [KeysOK, ctx6]

/-! ## Divergence of the loop on capacity-infeasible clients -/

/-- If from some unserved set, inventory and location every step reproduces
the same situation (appending one more point), the loop never terminates:
it returns `outOfFuel` for every fuel value. -/
lemma buildLoop_diverges {ctx : BuildCtx} {u : List ℕ} {inv : List (Good × ℚ)}
    {cur : Point} (hne : u ≠ [])
    (hstep : ∀ rt, stepB ctx ⟨u, inv, rt, cur⟩ =
      Except.ok ⟨u, inv, rt ++ [cur], cur⟩) :
    ∀ (fuel : ℕ) (rt : List Point),
      buildLoop ctx fuel ⟨u, inv, rt, cur⟩ = BuildRes.outOfFuel
  | 0, rt => buildLoop_zero hne
  | n + 1, rt => by
    rw [buildLoop_succ hne (hstep rt)]
    exact buildLoop_diverges hne hstep n (rt ++ [cur])

/-- The C1 failing input: one warehouse at the origin, one vehicle of
capacity 100 based there, one assigned delivery client at `(5, 0)` whose
single-good demand is 200 — twice the capacity. -/
def ctx1 : BuildCtx :=
  ⟨100, ((0:ℚ), 0), [(0, ((0:ℚ), 0))], fun _ => ((5:ℚ), 0),
    fun _ => [(0, (200:ℚ))], fun _ => false, [0]⟩

/-- C1.  The code has no `InfeasibleClientError` and no non-progress
detection: on a client whose single-good demand exceeds the vehicle
capacity, `_build_capacity_route` loops forever alternating warehouse
unload/reload without ever serving, so the loop returns `outOfFuel` for
EVERY fuel value — it neither terminates nor reports anything. -/
theorem C1_no_nonprogress_detection :
    ∀ fuel : ℕ, buildCapacityRoute ctx1 [0] fuel = BuildRes.outOfFuel := by
  have hstep1 : ∀ rt, stepB ctx1 ⟨[0], [(0, (0:ℚ))], rt, ((0:ℚ), 0)⟩ =
      Except.ok ⟨[0], [(0, (0:ℚ))], rt ++ [((0:ℚ), 0)], ((0:ℚ), 0)⟩ := by
    intro rt
    norm_num [stepB, feasFilter, deliveryFeasible, lookupG, minByQ, euclidSq,
      whVisit, reloadGo, addAllG, addG, setG, sortByQ, insertByQ, deliveryWeight,
      totalInventory, pickupWeight, delsOf, zerosInv, ctx1, whState]
  have hstep0 : stepB ctx1 ⟨[0], [(0, (100:ℚ))], [((0:ℚ), 0)], ((0:ℚ), 0)⟩ =
      Except.ok ⟨[0], [(0, (0:ℚ))], [((0:ℚ), 0), ((0:ℚ), 0)], ((0:ℚ), 0)⟩ := by
    norm_num [stepB, feasFilter, deliveryFeasible, lookupG, minByQ, euclidSq,
      whVisit, reloadGo, addAllG, addG, setG, sortByQ, insertByQ, deliveryWeight,
      totalInventory, pickupWeight, delsOf, zerosInv, ctx1, whState]
  intro fuel
  have hinit : buildCapacityRoute ctx1 [0] fuel =
      buildLoop ctx1 fuel ⟨[0], [(0, (100:ℚ))], [((0:ℚ), 0)], ((0:ℚ), 0)⟩ := by
    norm_num [buildCapacityRoute, initTotals, addAllG, addG, lookupG, setG,
      zerosInv, preloadGo, initState, sortIds, sortByQ, insertByQ, ctx1, min_def]
  rw [hinit]
  cases fuel with
  | zero => exact buildLoop_zero (by simp)
  | succ n =>
    rw [buildLoop_succ (by simp) hstep0]
    exact buildLoop_diverges (by simp) hstep1 n _

/-! ## C4: client completeness -/

lemma updateCenters_fst (P : Planner) (cs : List (ℕ × Point)) :
    (updateCenters P cs).map Prod.fst = cs.map Prod.fst := by
  simp [updateCenters]

lemma lloydCenters_some {P : Planner} {stop : ℕ → Bool} :
    ∀ (k i : ℕ) (cs : List (ℕ × Point)), k ≠ 0 →
    ∃ cs', lloydCenters P stop i k cs = some cs' ∧
      cs'.map Prod.fst = cs.map Prod.fst
  | 0, i, cs, hk => absurd rfl hk
  | 1, i, cs, _ => ⟨cs, rfl, rfl⟩
  | k + 2, i, cs, _ => by
    by_cases hstop : stop i
    · exact ⟨cs, by simp only [lloydCenters, if_pos hstop], rfl⟩
    · obtain ⟨cs', hcs', hfst⟩ :=
        @lloydCenters_some P stop (k + 1) (i + 1) (updateCenters P cs) (by simp)
      refine ⟨cs', ?_, by rw [hfst, updateCenters_fst]⟩
      simp only [lloydCenters, if_neg hstop, hcs']

/-- The planner instance refuting C4 as stated: one warehouse at the origin,
one vehicle of capacity 100 (the fleet maximum), one delivery client whose
demand dict is `{0: 60, 1: 60}` — each single-good demand is below the
maximum capacity, but the total weight 120 exceeds it. -/
def P4 : Planner :=
  ⟨[(0, ((0:ℚ), 0))],
   [⟨0, ((5:ℚ), 0), [(0, (60:ℚ)), (1, (60:ℚ))], false⟩],
   [⟨0, 100, 0⟩], 10⟩

lemma P4_build_diverges :
    ∀ fuel : ℕ, buildCapacityRoute (ctxOf P4 ⟨0, 100, 0⟩) [0] fuel =
      BuildRes.outOfFuel := by
  have hstep1 : ∀ rt, stepB (ctxOf P4 ⟨0, 100, 0⟩)
      ⟨[0], [(0, (0:ℚ)), (1, (0:ℚ))], rt, ((0:ℚ), 0)⟩ =
      Except.ok ⟨[0], [(0, (0:ℚ)), (1, (0:ℚ))], rt ++ [((0:ℚ), 0)], ((0:ℚ), 0)⟩ := by
    intro rt
    norm_num [stepB, feasFilter, deliveryFeasible, lookupG, minByQ, euclidSq,
      whVisit, reloadGo, addAllG, addG, setG, sortByQ, insertByQ, deliveryWeight,
      totalInventory, pickupWeight, delsOf, zerosInv, whState, ctxOf, P4,
      clientOf, whLocOf, goodTypesOf, List.find?]
  have hstep0 : stepB (ctxOf P4 ⟨0, 100, 0⟩)
      ⟨[0], [(0, (60:ℚ)), (1, (40:ℚ))], [((0:ℚ), 0)], ((0:ℚ), 0)⟩ =
      Except.ok ⟨[0], [(0, (0:ℚ)), (1, (0:ℚ))], [((0:ℚ), 0), ((0:ℚ), 0)], ((0:ℚ), 0)⟩ := by
    norm_num [stepB, feasFilter, deliveryFeasible, lookupG, minByQ, euclidSq,
      whVisit, reloadGo, addAllG, addG, setG, sortByQ, insertByQ, deliveryWeight,
      totalInventory, pickupWeight, delsOf, zerosInv, whState, ctxOf, P4,
      clientOf, whLocOf, goodTypesOf, List.find?]
  intro fuel
  have hinit : buildCapacityRoute (ctxOf P4 ⟨0, 100, 0⟩) [0] fuel =
      buildLoop (ctxOf P4 ⟨0, 100, 0⟩) fuel
        ⟨[0], [(0, (60:ℚ)), (1, (40:ℚ))], [((0:ℚ), 0)], ((0:ℚ), 0)⟩ := by
    norm_num [buildCapacityRoute, initTotals, addAllG, addG, lookupG, setG,
      zerosInv, preloadGo, initState, sortIds, sortByQ, insertByQ, min_def,
      ctxOf, P4, clientOf, whLocOf, goodTypesOf, List.find?]
  rw [hinit]
  cases fuel with
  | zero => exact buildLoop_zero (by simp)
  | succ n =>
    rw [buildLoop_succ (by simp) hstep0]
    exact buildLoop_diverges (by simp) hstep1 n _

/-- Counterexample to C4.  `P4` satisfies the claim's feasibility condition
(no single-good demand exceeds the maximum vehicle capacity 100), yet
`plan_routes` does not terminate: its single vehicle's route construction
runs out of any amount of fuel (the client's total weight 120 never fits,
so the reload never loads it and no progress is ever made). -/
theorem C4_counterexample :
    (∀ c ∈ P4.clients, ∀ p ∈ c.demand, p.2 ≤ 100) ∧
    (∀ v ∈ P4.vehicles, v.capacity ≤ 100) ∧
    ∀ (stop : ℕ → Bool) (fuel : ℕ),
      planRoutes P4 stop fuel = [(0, BuildRes.outOfFuel)] := by
  refine ⟨?_, ?_, ?_⟩
  · intro c hc p hp
    rcases List.mem_cons.mp hc with rfl | hc
    · rcases List.mem_cons.mp hp with rfl | hp
      · norm_num
      · rcases List.mem_cons.mp hp with rfl | hp
        · norm_num
        · simp at hp
    · simp at hc
  · intro v hv
    rcases List.mem_cons.mp hv with rfl | hv
    · norm_num
    · simp at hv
  · intro stop fuel
    obtain ⟨cs', hcs', hfst⟩ :=
      @lloydCenters_some P4 stop 10 0 (centers0 P4) (by norm_num)
    have hfst0 : cs'.map Prod.fst = [0] := by
      rw [hfst]; simp [centers0, P4]
    obtain ⟨q, rfl⟩ : ∃ q, cs' = [(0, q)] := by
      cases cs' with
      | nil => simp at hfst0
      | cons hd tl =>
        cases tl with
        | nil =>
          obtain ⟨v, q⟩ := hd
          simp only [List.map_cons, List.map_nil, List.cons.injEq, and_true] at hfst0
          exact ⟨q, by rw [hfst0]⟩
        | cons hd' tl' => simp at hfst0
    have hassign : assignedTo [(0, q)] P4.clients 0 = [0] := by
      simp [assignedTo, nearestCenter, minByQ, P4, List.filter]
    have hplan : planRoutes P4 stop fuel =
        [(0, buildCapacityRoute (ctxOf P4 ⟨0, 100, 0⟩)
          (assignedTo [(0, q)] P4.clients 0) fuel)] := by
      unfold planRoutes finalCenters
      rw [show P4.maxIters = 10 from rfl, hcs']
      dsimp only
      rw [show P4.vehicles = [⟨0, 100, 0⟩] from rfl]
      simp only [List.map_cons, List.map_nil]
    rw [hplan, hassign, P4_build_diverges fuel]

/-! ## C10: unknown good types -/

/-- The planner instance refuting C10 as stated: the first client fixes the
good types to `[0]`; the second client is pickup-flagged with the unknown
good `1` and weight 200 over the capacity 100, so it is never applied and
the unknown key is never indexed. -/
def P10 : Planner :=
  ⟨[(0, ((0:ℚ), 0))],
   [⟨0, ((5:ℚ), 0), [(0, (40:ℚ))], false⟩,
    ⟨1, ((9:ℚ), 0), [(1, (-200:ℚ))], true⟩],
   [⟨0, 100, 0⟩], 10⟩

/-- Counterexample to C10.  Client 1's demand holds the good `1`, absent
from the tracked key set `[0]`, yet route building never fails on a missing
key: the pickup feasibility test only sums values and the reload only loads
non-pickup clients, so the unknown key is never indexed — instead the build
loops forever (`outOfFuel` at every fuel), neither completing nor raising. -/
theorem C10_counterexample :
    goodTypesOf P10 = [0] ∧
    ((1:Good), (-200:ℚ)) ∈ (clientOf P10 1).demand ∧
    (1:Good) ∉ goodTypesOf P10 ∧
    ∀ fuel : ℕ, buildCapacityRoute (ctxOf P10 ⟨0, 100, 0⟩) [0, 1] fuel =
      BuildRes.outOfFuel := by
  refine ⟨rfl, by norm_num [clientOf, P10, List.find?], by decide, ?_⟩
  have hstep2 : ∀ rt, stepB (ctxOf P10 ⟨0, 100, 0⟩)
      ⟨[1], [(0, (0:ℚ))], rt, ((0:ℚ), 0)⟩ =
      Except.ok ⟨[1], [(0, (0:ℚ))], rt ++ [((0:ℚ), 0)], ((0:ℚ), 0)⟩ := by
    intro rt
    norm_num [stepB, feasFilter, deliveryFeasible, lookupG, minByQ, euclidSq,
      whVisit, reloadGo, addAllG, addG, setG, sortByQ, insertByQ, deliveryWeight,
      totalInventory, pickupWeight, delsOf, zerosInv, whState, ctxOf, P10,
      clientOf, whLocOf, goodTypesOf, List.find?]
  have hstep1 : stepB (ctxOf P10 ⟨0, 100, 0⟩)
      ⟨[1], [(0, (0:ℚ))], [((0:ℚ), 0), ((5:ℚ), 0)], ((5:ℚ), 0)⟩ =
      Except.ok ⟨[1], [(0, (0:ℚ))], [((0:ℚ), 0), ((5:ℚ), 0), ((0:ℚ), 0)],
        ((0:ℚ), 0)⟩ := by
    norm_num [stepB, feasFilter, deliveryFeasible, lookupG, minByQ, euclidSq,
      whVisit, reloadGo, addAllG, addG, setG, sortByQ, insertByQ, deliveryWeight,
      totalInventory, pickupWeight, delsOf, zerosInv, whState, ctxOf, P10,
      clientOf, whLocOf, goodTypesOf, List.find?]
  have hstep0 : stepB (ctxOf P10 ⟨0, 100, 0⟩)
      ⟨[0, 1], [(0, (40:ℚ))], [((0:ℚ), 0)], ((0:ℚ), 0)⟩ =
      Except.ok ⟨[1], [(0, (0:ℚ))], [((0:ℚ), 0), ((5:ℚ), 0)], ((5:ℚ), 0)⟩ := by
    norm_num [stepB, feasFilter, deliveryFeasible, lookupG, minByQ, euclidSq,
      whVisit, reloadGo, addAllG, addG, setG, sortByQ, insertByQ, deliveryWeight,
      totalInventory, pickupWeight, delsOf, zerosInv, whState, serveState,
      applyDelivery, applyPickup, ctxOf, P10, clientOf, whLocOf, goodTypesOf,
      List.find?, List.erase]
  intro fuel
  have hinit : buildCapacityRoute (ctxOf P10 ⟨0, 100, 0⟩) [0, 1] fuel =
      buildLoop (ctxOf P10 ⟨0, 100, 0⟩) fuel
        ⟨[0, 1], [(0, (40:ℚ))], [((0:ℚ), 0)], ((0:ℚ), 0)⟩ := by
    norm_num [buildCapacityRoute, initTotals, addAllG, addG, lookupG, setG,
      zerosInv, preloadGo, initState, sortIds, sortByQ, insertByQ, min_def,
      ctxOf, P10, clientOf, whLocOf, goodTypesOf, List.find?]
  rw [hinit]
  cases fuel with
  | zero => exact buildLoop_zero (by simp)
  | succ n =>
    rw [buildLoop_succ (by simp) hstep0]
    cases n with
    | zero => exact buildLoop_zero (by simp)
    | succ m =>
      rw [buildLoop_succ (by simp) hstep1]
      exact buildLoop_diverges (by simp) hstep2 m _

/-- C10 amended.  The tracked good types are the first client's demand keys
(`goodTypesOf`), and whenever a NON-pickup (delivery-flagged) client
assigned to a vehicle carries a demand key outside that set, route building
fails deterministically with a missing-key error on such a key — already in
the `total_demands` accumulation, before the loop — for every fuel value.
As stated over every client the claim is false: a pickup-flagged client
with an unknown key whose weight exceeds capacity makes the build loop
forever without ever indexing the unknown key (see the counterexample). -/
theorem C10_amended (P : Planner) (v : Vehicle) (cids : List ℕ) (c : ℕ)
    (hc : c ∈ cids) (hpk : (clientOf P c).pickupFlag = false)
    (hbad : ∃ g ∈ (clientOf P c).demand.map Prod.fst, g ∉ goodTypesOf P) :
    ∃ g, g ∉ goodTypesOf P ∧
      ∀ fuel : ℕ, buildCapacityRoute (ctxOf P v) cids fuel = BuildRes.keyError g := by
  obtain ⟨g₀, hg₀, hout⟩ := hbad
  have herr := @initTotals_err (ctxOf P v) cids
    ((ctxOf P v).goodTypes.map fun g => (g, (0:ℚ)))
    ⟨c, hc, by simpa [ctxOf] using hpk, g₀, by simpa [ctxOf] using hg₀, by
      rw [show (((ctxOf P v).goodTypes.map fun g => (g, (0:ℚ))).map Prod.fst)
          = (ctxOf P v).goodTypes from zerosInv_keys _]
      simpa [ctxOf] using hout⟩
  obtain ⟨g, hg, hgout⟩ := herr
  refine ⟨g, ?_, ?_⟩
  · rw [show (((ctxOf P v).goodTypes.map fun g => (g, (0:ℚ))).map Prod.fst)
        = (ctxOf P v).goodTypes from zerosInv_keys _] at hgout
    simpa [ctxOf] using hgout
  · intro fuel
    unfold buildCapacityRoute
    rw [hg]

/-- Witness for C10 amended: the second client is delivery-flagged with the
unknown good `1`; the build key-errors at once. -/
theorem C10_amended_witness :
    (clientOf ⟨[(0, ((0:ℚ), 0))],
      [⟨0, ((5:ℚ), 0), [(0, (40:ℚ))], false⟩,
       ⟨1, ((9:ℚ), 0), [(1, (20:ℚ))], false⟩],
      [⟨0, 100, 0⟩], 10⟩ 1).pickupFlag = false ∧
    ∃ g, g ∉ goodTypesOf ⟨[(0, ((0:ℚ), 0))],
      [⟨0, ((5:ℚ), 0), [(0, (40:ℚ))], false⟩,
       ⟨1, ((9:ℚ), 0), [(1, (20:ℚ))], false⟩],
      [⟨0, 100, 0⟩], 10⟩ ∧
      ∀ fuel : ℕ, buildCapacityRoute
        (ctxOf ⟨[(0, ((0:ℚ), 0))],
          [⟨0, ((5:ℚ), 0), [(0, (40:ℚ))], false⟩,
           ⟨1, ((9:ℚ), 0), [(1, (20:ℚ))], false⟩],
          [⟨0, 100, 0⟩], 10⟩ ⟨0, 100, 0⟩) [0, 1] fuel = BuildRes.keyError g := by
  constructor
  · norm_num [clientOf, List.find?]
  · exact C10_amended _ ⟨0, 100, 0⟩ [0, 1] 1 (by decide)
      (by norm_num [clientOf, List.find?])
      ⟨1, by norm_num [clientOf, List.find?], by decide⟩

/-- The carried weight of a client: its pickup weight if flagged pickup,
its delivery weight otherwise (under sign consistency both are the sum of
the absolute entries). -/
def clientWeight (ctx : BuildCtx) (cid : ℕ) : ℚ :=
  if ctx.pk cid then pickupWeight (ctx.dvec cid) else deliveryWeight (ctx.dvec cid)

/-- The loop invariant for client completeness: the unserved ids live in the
assignment and are distinct, the inventory is keyed by the good types, each
assigned client's location occurs in the route exactly once if already
served and never if still unserved, and every route point is the depot, a
warehouse point, or an assigned client's location. -/
def C4Inv (ctx : BuildCtx) (cids : List ℕ) (s : BState) : Prop :=
  (∀ cid ∈ s.unserved, cid ∈ cids) ∧
  s.unserved.Nodup ∧
  s.inventory.map Prod.fst = ctx.goodTypes ∧
  (∀ c ∈ cids, s.route.count (ctx.loc c) = if c ∈ s.unserved then 0 else 1) ∧
  (∀ q ∈ s.route, q = ctx.depot ∨ q ∈ ctx.whs.map Prod.snd ∨
    ∃ c ∈ cids, q = ctx.loc c)

/-- Pairwise-distinct client locations, also distinct from the depot and
every warehouse point. -/
def DistinctLocs (ctx : BuildCtx) (cids : List ℕ) : Prop :=
  (∀ c1 ∈ cids, ∀ c2 ∈ cids, c1 ≠ c2 → ctx.loc c1 ≠ ctx.loc c2) ∧
  (∀ c ∈ cids, ∀ q ∈ ctx.whs.map Prod.snd, ctx.loc c ≠ q) ∧
  (∀ c ∈ cids, ctx.loc c ≠ ctx.depot)

lemma count_concat {α : Type} [DecidableEq α] [BEq α] [LawfulBEq α] (l : List α) (x q : α) :
    (l ++ [x]).count q = l.count q + if q = x then 1 else 0 := by
  rw [List.count_append]
  by_cases h : q = x
  · subst h; simp [List.count_cons, List.count_nil]
  · simp [List.count_cons, List.count_nil, h]

lemma stepB_c4inv {ctx : BuildCtx} {cids : List ℕ} {s s' : BState}
    (hst : stepB ctx s = Except.ok s')
    (hu : s.unserved ≠ [])
    (hwhs : ctx.whs ≠ [])
    (hGK : ∀ cid ∈ cids, KeysOK ctx cid)
    (hdl : DistinctLocs ctx cids)
    (h : C4Inv ctx cids s) : C4Inv ctx cids s' := by
  obtain ⟨hsub, hndu, hkeys, hcount, hpts⟩ := h
  rcases stepB_shape ctx s hu hkeys (fun cid hc => hGK cid (hsub cid hc)) hwhs with
    ⟨c, hc, hfeas, inv2, happly, hstep⟩ | ⟨q, hq, inv2, hreload, hstep⟩
  · rw [hst] at hstep
    cases hstep
    have hccids : c ∈ cids := hsub c hc
    refine ⟨?_, ?_, ?_, ?_, ?_⟩
    · intro cid hcid
      exact hsub cid ((s.unserved.erase_sublist c).subset hcid)
    · exact hndu.erase c
    · rw [show (serveState ctx s c inv2).inventory = inv2 from rfl]
      rw [applyDelivery_eq_addAllG] at happly
      rw [addAllG_keys happly, hkeys]
    · intro c' hc'
      rw [show (serveState ctx s c inv2).route = s.route ++ [ctx.loc c] from rfl,
        count_concat,
        show (serveState ctx s c inv2).unserved = s.unserved.erase c from rfl]
      by_cases hcc : c' = c
      · subst hcc
        rw [if_pos rfl, hcount c' hc', if_pos hc,
          if_neg (hndu.not_mem_erase)]
      · have hne : ctx.loc c' ≠ ctx.loc c := hdl.1 c' hc' c hccids hcc
        rw [if_neg hne, hcount c' hc']
        simp [List.mem_erase_of_ne hcc]
    · intro q hq
      rw [show (serveState ctx s c inv2).route = s.route ++ [ctx.loc c] from rfl] at hq
      rcases List.mem_append.mp hq with hq | hq
      · exact hpts q hq
      · rcases List.mem_singleton.mp hq with rfl
        exact Or.inr (Or.inr ⟨c, hccids, rfl⟩)
  · rw [hst] at hstep
    cases hstep
    refine ⟨hsub, hndu, ?_, ?_, ?_⟩
    · rw [show (whState s q inv2).inventory = inv2 from rfl,
        reloadGo_keys hreload, zerosInv_keys]
    · intro c' hc'
      rw [show (whState s q inv2).route = s.route ++ [q] from rfl, count_concat,
        show (whState s q inv2).unserved = s.unserved from rfl]
      rw [if_neg (hdl.2.1 c' hc' q hq), hcount c' hc']
      simp
    · intro p hp
      rw [show (whState s q inv2).route = s.route ++ [q] from rfl] at hp
      rcases List.mem_append.mp hp with hp | hp
      · exact hpts p hp
      · rcases List.mem_singleton.mp hp with rfl
        exact Or.inr (Or.inl hq)

lemma zerosInv_nonneg (gts : List Good) : ∀ p ∈ zerosInv gts, 0 ≤ p.2 := by
  intro p hp
  obtain ⟨g, _, rfl⟩ := List.mem_map.mp hp
  simp

/-- After a forced warehouse visit the very next feasibility filter is
nonempty: if any unserved delivery client remains, the lightest one was
loaded in full by the reload and is now servable; if only pickups remain,
the inventory is empty and any pickup whose weight fits the capacity is
servable. -/
lemma reload_feas_nonempty {ctx : BuildCtx} {s : BState} {inv2 : List (Good × ℚ)}
    (hreload : reloadGo ctx.capacity (zerosInv ctx.goodTypes)
      (sortByQ (fun item => deliveryWeight item.2) (delsOf ctx s)) = Except.ok inv2)
    (hu : s.unserved ≠ [])
    (hcl : ∀ cid ∈ s.unserved, KeysOK ctx cid ∧ SignOK ctx cid ∧
      ((ctx.dvec cid).map Prod.fst).Nodup)
    (hwt : ∀ cid ∈ s.unserved, clientWeight ctx cid ≤ ctx.capacity) :
    ∃ fl, feasFilter ctx inv2 s.unserved = Except.ok fl ∧ fl ≠ [] := by
  have hkeys2 : inv2.map Prod.fst = ctx.goodTypes := by
    rw [reloadGo_keys hreload, zerosInv_keys]
  obtain ⟨fl, hfl, hsubl, hiff⟩ := @feasFilter_ok ctx inv2 s.unserved
    (fun cid hc => by rw [hkeys2]; exact (hcl cid hc).1)
  refine ⟨fl, hfl, ?_⟩
  cases hd : sortByQ (fun item => deliveryWeight item.2) (delsOf ctx s) with
  | nil =>
    have hdels : delsOf ctx s = [] := by
      have := sortByQ_perm (fun item => deliveryWeight item.2) (delsOf ctx s)
      rw [hd] at this
      exact this.symm.eq_nil
    have hinv0 : inv2 = zerosInv ctx.goodTypes := by
      rw [hd] at hreload
      simpa [reloadGo] using hreload.symm
    have hallpk : ∀ cid ∈ s.unserved, ctx.pk cid = true := by
      intro cid hc
      by_contra hpk
      have : (cid, ctx.dvec cid) ∈ delsOf ctx s := by
        unfold delsOf
        exact List.mem_map.mpr ⟨cid, List.mem_filter.mpr ⟨hc, by simpa using hpk⟩, rfl⟩
      rw [hdels] at this
      simp at this
    cases hus : s.unserved with
    | nil => exact absurd hus hu
    | cons u₁ rest =>
      have hu₁ : u₁ ∈ s.unserved := by rw [hus]; exact List.mem_cons_self _ _
      have hpk₁ := hallpk u₁ hu₁
      have hfeas₁ : feasPred ctx inv2 u₁ := by
        simp only [feasPred, hpk₁, if_true]
        rw [hinv0, totalInventory_zerosInv]
        have := hwt u₁ hu₁
        simp only [clientWeight, hpk₁, if_true] at this
        linarith
      have : u₁ ∈ fl := (hiff u₁).mpr ⟨hu₁, hfeas₁⟩
      intro hc
      rw [hc] at this
      simp at this
  | cons d rest' =>
    obtain ⟨c₁, dv₁⟩ := d
    have hdmem : ((c₁, dv₁) : ℕ × List (Good × ℚ)) ∈ delsOf ctx s := by
      have := sortByQ_perm (fun item => deliveryWeight item.2) (delsOf ctx s)
      rw [hd] at this
      exact this.subset (List.mem_cons_self _ _)
    obtain ⟨hc₁u, hdv₁, hpk₁⟩ := delsOf_mem hdmem
    simp only at hdv₁ hpk₁ hc₁u
    have hwt₁ : deliveryWeight dv₁ ≤ ctx.capacity := by
      have := hwt c₁ hc₁u
      simp only [clientWeight] at this
      rw [if_neg (by simpa using hpk₁)] at this
      rw [hdv₁]
      exact this
    rw [hd] at hreload
    have hrest' : ∀ d' ∈ rest', ((d'.2.map Prod.fst).Nodup ∧ ∀ p ∈ d'.2, 0 ≤ p.2) := by
      intro d' hd'
      have hdm : d' ∈ delsOf ctx s := by
        have := sortByQ_perm (fun item => deliveryWeight item.2) (delsOf ctx s)
        rw [hd] at this
        exact this.subset (List.mem_cons_of_mem _ hd')
      obtain ⟨hmem', hdv', hpk'⟩ := delsOf_mem hdm
      constructor
      · rw [hdv']; exact (hcl d'.1 hmem').2.2
      · intro p hp
        have hps : ∀ q ∈ ctx.dvec d'.1, 0 ≤ q.2 := by
          have := (hcl d'.1 hmem').2.1
          simpa [SignOK, hpk'] using this
        exact hps p (by rw [← hdv']; exact hp)
    have hcov : invGe inv2 dv₁ := by
      apply reloadGo_covers_head hreload hwt₁ (zerosInv_nonneg _)
      · rw [zerosInv_keys, hdv₁]
        exact (hcl c₁ hc₁u).1
      · rw [hdv₁]
        exact (hcl c₁ hc₁u).2.2
      · exact hrest'
    have hfeas₁ : feasPred ctx inv2 c₁ := by
      simp only [feasPred]
      rw [if_neg (by simpa using hpk₁), ← hdv₁]
      exact hcov
    have : c₁ ∈ fl := (hiff c₁).mpr ⟨hc₁u, hfeas₁⟩
    intro hc
    rw [hc] at this
    simp at this

/-- Main loop completeness: with fuel at least `2·|unserved| + 1` the loop
terminates with a route in which every assigned client's location appears
exactly once, and every route point is the depot, a warehouse point or an
assigned client's location. -/
lemma buildLoop_completes {ctx : BuildCtx} {cids : List ℕ}
    (hwhs : ctx.whs ≠ [])
    (hcl : ∀ cid ∈ cids, KeysOK ctx cid ∧ SignOK ctx cid ∧
      ((ctx.dvec cid).map Prod.fst).Nodup)
    (hwt : ∀ cid ∈ cids, clientWeight ctx cid ≤ ctx.capacity)
    (hdl : DistinctLocs ctx cids) :
    ∀ (fuel : ℕ) (s : BState), C4Inv ctx cids s →
      2 * s.unserved.length + 1 ≤ fuel →
      ∃ r, buildLoop ctx fuel s = BuildRes.ok r ∧
        (∀ c ∈ cids, r.count (ctx.loc c) = if c ∈ s.unserved then 1
          else s.route.count (ctx.loc c)) ∧
        (∀ q ∈ r, q = ctx.depot ∨ q ∈ ctx.whs.map Prod.snd ∨
          ∃ c ∈ cids, q = ctx.loc c) := by
  intro fuel
  induction fuel using Nat.strong_induction_on with
  | _ fuel ih =>
    intro s hinv hfuel
    obtain ⟨hsub, hndu, hkeys, hcount, hpts⟩ := hinv
    by_cases hu : s.unserved = []
    · refine ⟨closeRoute ctx s, buildLoop_done fuel hu, ?_, ?_⟩
      · intro c hc
        rw [if_neg (by rw [hu]; simp)]
        unfold closeRoute
        by_cases hcur : s.current = ctx.depot
        · rw [if_pos hcur]
        · rw [if_neg hcur, count_concat, if_neg (hdl.2.2 c hc)]
          omega
      · intro q hq
        unfold closeRoute at hq
        by_cases hcur : s.current = ctx.depot
        · rw [if_pos hcur] at hq
          exact hpts q hq
        · rw [if_neg hcur] at hq
          rcases List.mem_append.mp hq with hq | hq
          · exact hpts q hq
          · rcases List.mem_singleton.mp hq with rfl
            exact Or.inl rfl
    · have hlen : 1 ≤ s.unserved.length := by
        cases hus : s.unserved with
        | nil => exact absurd hus hu
        | cons a l => simp
      cases fuel with
      | zero => omega
      | succ n =>
        rcases stepB_shape ctx s hu hkeys (fun cid hc => (hcl cid (hsub cid hc)).1)
            hwhs with
          ⟨c, hc, hfeas, inv2, happly, hstep⟩ | ⟨q, hq, inv2, hreload, hstep⟩
        · -- a client is served: one step of progress
          have hinv' : C4Inv ctx cids (serveState ctx s c inv2) :=
            stepB_c4inv hstep hu hwhs (fun cid hcid => (hcl cid hcid).1) hdl
              ⟨hsub, hndu, hkeys, hcount, hpts⟩
          have hlen' : (serveState ctx s c inv2).unserved.length =
              s.unserved.length - 1 := by
            exact List.length_erase_of_mem hc
          obtain ⟨r, hr, hrcount, hrpts⟩ := ih n (by omega)
            (serveState ctx s c inv2) hinv' (by rw [hlen']; omega)
          refine ⟨r, ?_, ?_, hrpts⟩
          · rw [buildLoop_succ hu hstep]
            exact hr
          · intro c' hc'
            have := hrcount c' hc'
            simp only [serveState] at this
            by_cases hcc : c' = c
            · subst hcc
              rw [if_pos hc]
              rw [if_neg hndu.not_mem_erase] at this
              rw [this, count_concat, if_pos rfl, hcount c' hc', if_pos hc]
            · by_cases hcu : c' ∈ s.unserved
              · rw [if_pos hcu]
                rw [if_pos ((List.mem_erase_of_ne hcc).mpr hcu)] at this
                exact this
              · rw [if_neg hcu]
                rw [if_neg (fun hmem => hcu ((List.mem_erase_of_ne hcc).mp hmem))] at this
                rw [this, count_concat, if_neg (hdl.1 c' hc' c (hsub c hc) hcc)]
                omega
        · -- warehouse visit, then necessarily a serve
          have hinv' : C4Inv ctx cids (whState s q inv2) :=
            stepB_c4inv hstep hu hwhs (fun cid hcid => (hcl cid hcid).1) hdl
              ⟨hsub, hndu, hkeys, hcount, hpts⟩
          obtain ⟨hsub', hndu', hkeys', hcount', hpts'⟩ := hinv'
          have hu' : (whState s q inv2).unserved ≠ [] := hu
          obtain ⟨fl', hfl', hflne⟩ := reload_feas_nonempty (s := s) hreload hu
            (fun cid hcid => hcl cid (hsub cid hcid))
            (fun cid hcid => hwt cid (hsub cid hcid))
          obtain ⟨c', hc', hfeas', inv3, happly', hstep'⟩ :=
            stepB_serve_of_feas (s := whState s q inv2) hfl' hflne hkeys'
              (fun cid hcid => (hcl cid (hsub' cid hcid)).1)
          have hinv'' : C4Inv ctx cids
              (serveState ctx (whState s q inv2) c' inv3) :=
            stepB_c4inv hstep' hu' hwhs (fun cid hcid => (hcl cid hcid).1) hdl
              ⟨hsub', hndu', hkeys', hcount', hpts'⟩
          have hlen'' :
              (serveState ctx (whState s q inv2) c' inv3).unserved.length =
              s.unserved.length - 1 :=
            List.length_erase_of_mem hc'
          cases n with
          | zero => omega
          | succ m =>
            obtain ⟨r, hr, hrcount, hrpts⟩ := ih m (by omega)
              (serveState ctx (whState s q inv2) c' inv3) hinv''
              (by rw [hlen'']; omega)
            refine ⟨r, ?_, ?_, hrpts⟩
            · rw [buildLoop_succ hu hstep, buildLoop_succ hu' hstep']
              exact hr
            · intro c'' hc''
              have := hrcount c'' hc''
              simp only [serveState, whState] at this
              by_cases hcc : c'' = c'
              · subst hcc
                rw [if_pos (show c'' ∈ s.unserved from hc')]
                rw [if_neg hndu.not_mem_erase] at this
                rw [this, count_concat, if_pos rfl, count_concat,
                  if_neg (hdl.2.1 c'' hc'' q hq), hcount c'' hc'',
                  if_pos (show c'' ∈ s.unserved from hc')]
              · by_cases hcu : c'' ∈ s.unserved
                · rw [if_pos hcu]
                  rw [if_pos ((List.mem_erase_of_ne hcc).mpr hcu)] at this
                  exact this
                · rw [if_neg hcu]
                  rw [if_neg (fun hmem => hcu ((List.mem_erase_of_ne hcc).mp hmem))] at this
                  rw [this, count_concat,
                    if_neg (hdl.1 c'' hc'' c' (hsub c' (show c' ∈ s.unserved from hc')) hcc),
                    count_concat, if_neg (hdl.2.1 c'' hc'' q hq)]
                  omega

/-- Full completeness of one vehicle's route construction. -/
lemma build_completes {ctx : BuildCtx} {cids : List ℕ}
    (hwhs : ctx.whs ≠ [])
    (hcl : ∀ cid ∈ cids, KeysOK ctx cid ∧ SignOK ctx cid ∧
      ((ctx.dvec cid).map Prod.fst).Nodup)
    (hwt : ∀ cid ∈ cids, clientWeight ctx cid ≤ ctx.capacity)
    (hdl : DistinctLocs ctx cids) (hndc : cids.Nodup) :
    ∀ fuel : ℕ, 2 * cids.length + 1 ≤ fuel →
    ∃ r, buildCapacityRoute ctx cids fuel = BuildRes.ok r ∧
      r.head? = some ctx.depot ∧ r.getLast? = some ctx.depot ∧
      (∀ c ∈ cids, r.count (ctx.loc c) = 1) ∧
      (∀ q ∈ r, q = ctx.depot ∨ q ∈ ctx.whs.map Prod.snd ∨
        ∃ c ∈ cids, q = ctx.loc c) := by
  intro fuel hfuel
  obtain ⟨tds, htds, hkeys'⟩ := @initTotals_ok ctx cids
    (ctx.goodTypes.map fun g => (g, (0:ℚ)))
    (fun cid hc _ g hg => by
      rw [show ((ctx.goodTypes.map fun g => (g, (0:ℚ))).map Prod.fst) = ctx.goodTypes
        from zerosInv_keys _]
      exact (hcl cid hc).1 g hg)
  have hkeys0 : (preloadGo tds ctx.capacity).map Prod.fst = ctx.goodTypes := by
    rw [preloadGo_keys, hkeys',
      show ((ctx.goodTypes.map fun g => (g, (0:ℚ))).map Prod.fst) = ctx.goodTypes
        from zerosInv_keys _]
  have hmemiff : ∀ c, c ∈ sortIds cids ↔ c ∈ cids := fun c => (sortIds_perm cids).mem_iff
  have hinv0 : C4Inv ctx cids (initState ctx cids (preloadGo tds ctx.capacity)) := by
    refine ⟨?_, ?_, hkeys0, ?_, ?_⟩
    · intro cid hc
      exact (hmemiff cid).mp hc
    · exact (sortIds_perm cids).nodup_iff.mpr hndc
    · intro c hc
      simp only [initState]
      rw [if_pos ((hmemiff c).mpr hc)]
      rw [List.count_eq_zero]
      intro hmem
      rcases List.mem_singleton.mp hmem with h
      exact hdl.2.2 c hc h
    · intro q hq
      rcases List.mem_singleton.mp hq with rfl
      exact Or.inl rfl
  have hlen : (initState ctx cids (preloadGo tds ctx.capacity)).unserved.length
      = cids.length := (sortIds_perm cids).length_eq
  obtain ⟨r, hr, hrcount, hrpts⟩ := buildLoop_completes hwhs hcl hwt hdl fuel
    (initState ctx cids (preloadGo tds ctx.capacity)) hinv0 (by rw [hlen]; omega)
  have hroute : buildCapacityRoute ctx cids fuel = BuildRes.ok r := by
    unfold buildCapacityRoute
    rw [htds]
    exact hr
  have hrOK := buildLoop_routeOK (s := initState ctx cids (preloadGo tds ctx.capacity))
    hr ⟨by simp [initState], rfl, rfl⟩
  refine ⟨r, hroute, hrOK.1, hrOK.2, ?_, hrpts⟩
  intro c hc
  simp only [initState] at hrcount
  rw [hrcount c hc, if_pos ((hmemiff c).mpr hc)]

lemma inj_of_nodup_map {α β : Type} {f : α → β} : ∀ {l : List α}, (l.map f).Nodup →
    ∀ a ∈ l, ∀ b ∈ l, f a = f b → a = b
  | [], _, a, ha, _, _, _ => absurd ha (List.not_mem_nil a)
  | x :: xs, hnd, a, ha, b, hb, hfab => by
    rw [List.map_cons, List.nodup_cons] at hnd
    rcases List.mem_cons.mp ha with rfl | ha'
    · rcases List.mem_cons.mp hb with rfl | hb'
      · rfl
      · exact absurd (by rw [hfab]; exact List.mem_map_of_mem f hb') hnd.1
    · rcases List.mem_cons.mp hb with rfl | hb'
      · exact absurd (by rw [← hfab]; exact List.mem_map_of_mem f ha') hnd.1
      · exact inj_of_nodup_map hnd.2 a ha' b hb' hfab

lemma clientOf_eq {P : Planner} (hnd : (P.clients.map Client.cid).Nodup)
    {c : Client} (hc : c ∈ P.clients) : clientOf P c.cid = c := by
  unfold clientOf
  cases hf : P.clients.find? (fun c' => c'.cid = c.cid) with
  | none =>
    exfalso
    have := List.find?_eq_none.mp hf c hc
    simp at this
  | some c' =>
    have hc' : c' ∈ P.clients := List.mem_of_find?_eq_some hf
    have heq : c'.cid = c.cid := by simpa using List.find?_some hf
    exact inj_of_nodup_map hnd c' hc' c hc heq

lemma mem_assignedTo {centers : List (ℕ × Point)} {clients : List Client}
    {vid cid : ℕ} :
    cid ∈ assignedTo centers clients vid ↔
      ∃ c, c ∈ clients ∧ c.cid = cid ∧ nearestCenter centers c.cloc = some vid := by
  unfold assignedTo
  constructor
  · intro h
    obtain ⟨c, hc, hcid⟩ := List.mem_map.mp h
    obtain ⟨hcm, hp⟩ := List.mem_filter.mp hc
    exact ⟨c, hcm, hcid, by simpa using hp⟩
  · rintro ⟨c, hcm, hcid, hn⟩
    exact List.mem_map.mpr ⟨c, List.mem_filter.mpr ⟨hcm, by simpa using hn⟩, hcid⟩

lemma assignedTo_nodup {centers : List (ℕ × Point)} {clients : List Client}
    {vid : ℕ} (hnd : (clients.map Client.cid).Nodup) :
    (assignedTo centers clients vid).Nodup :=
  ((List.filter_sublist _).map Client.cid).nodup hnd

lemma assignedTo_length_le (centers : List (ℕ × Point)) (clients : List Client)
    (vid : ℕ) : (assignedTo centers clients vid).length ≤ clients.length := by
  unfold assignedTo
  rw [List.length_map]
  exact List.length_filter_le _ _

lemma whLocOf_mem {P : Planner} {wid : ℕ} (h : ∃ w ∈ P.warehouses, w.1 = wid) :
    whLocOf P wid ∈ P.warehouses.map Prod.snd := by
  obtain ⟨w, hwm, hwid⟩ := h
  unfold whLocOf
  cases hf : P.warehouses.find? (fun w' => w'.1 = wid) with
  | none =>
    exfalso
    have := List.find?_eq_none.mp hf w hwm
    simp [hwid] at this
  | some w' =>
    exact List.mem_map_of_mem Prod.snd (List.mem_of_find?_eq_some hf)

lemma nearestCenter_mem (cs : List (ℕ × Point)) (p : Point) (h : cs ≠ []) :
    ∃ vid, nearestCenter cs p = some vid ∧ vid ∈ cs.map Prod.fst := by
  unfold nearestCenter
  cases hm : minByQ (fun c => euclidSq p c.2) cs with
  | none => exact absurd (minByQ_eq_none.mp hm) h
  | some m => exact ⟨m.1, rfl, List.mem_map_of_mem Prod.fst (minByQ_mem hm)⟩

/-- The intermediate stops of a route: everything strictly between the first
and the last point. -/
def interiorPts (r : List Point) : List Point := (r.drop 1).dropLast

lemma count_interior {r : List Point} {d q : Point}
    (hhead : r.head? = some d) (hlast : r.getLast? = some d) (hq : q ≠ d) :
    (interiorPts r).count q = r.count q := by
  cases r with
  | nil => simp at hhead
  | cons x xs =>
    have hx : x = d := by simpa using hhead
    subst hx
    cases xs with
    | nil => simp [interiorPts, hq]
    | cons y ys =>
      have hne : y :: ys ≠ ([] : List Point) := by simp
      have hlast' : (y :: ys).getLast? = some x := by
        rw [← hlast]
        exact List.getLast?_cons_cons.symm
      have hgl : (y :: ys).getLast hne = x := by
        have h2 := List.getLast?_eq_getLast (y :: ys) hne
        rw [h2] at hlast'
        exact Option.some.inj hlast'
      have hsplit : (y :: ys).dropLast ++ [(y :: ys).getLast hne] = y :: ys :=
        List.dropLast_append_getLast hne
      have hint : interiorPts (x :: y :: ys) = (y :: ys).dropLast := rfl
      rw [hint]
      conv_rhs =>
        rw [show x :: y :: ys
          = x :: ((y :: ys).dropLast ++ [(y :: ys).getLast hne]) from by rw [hsplit]]
      rw [hgl, List.count_cons, List.count_append]
      have hq' : ¬ x = q := fun h => hq h.symm
      simp [hq, hq']

lemma ctxOf_loc (P : Planner) (v : Vehicle) (cid : ℕ) :
    (ctxOf P v).loc cid = (clientOf P cid).cloc := rfl

lemma ctxOf_dvec (P : Planner) (v : Vehicle) (cid : ℕ) :
    (ctxOf P v).dvec cid = (clientOf P cid).demand := rfl

lemma ctxOf_pk (P : Planner) (v : Vehicle) (cid : ℕ) :
    (ctxOf P v).pk cid = (clientOf P cid).pickupFlag := rfl

lemma ctxOf_goodTypes (P : Planner) (v : Vehicle) :
    (ctxOf P v).goodTypes = goodTypesOf P := rfl

lemma ctxOf_whs (P : Planner) (v : Vehicle) : (ctxOf P v).whs = P.warehouses := rfl

lemma ctxOf_depot (P : Planner) (v : Vehicle) :
    (ctxOf P v).depot = whLocOf P v.whid := rfl

lemma ctxOf_capacity (P : Planner) (v : Vehicle) :
    (ctxOf P v).capacity = v.capacity := rfl

/-- C4 (amended): single-good feasibility is not enough for termination (see
the counterexample); under the stronger hypothesis that every client's WHOLE
demand weight fits within every vehicle's capacity — plus flag/sign-consistent
demands with keys among the planner's good types and duplicate-free key lists,
duplicate-free vehicle and client ids, every vehicle's home warehouse present
in the catalog, clients at pairwise-distinct locations distinct from all
warehouse points, and `max_iters ≥ 1` — `plan_routes` terminates for every
stopping oracle once the fuel reaches `2·(number of clients) + 1`, every
client is assigned to exactly one vehicle by the final clustering, and each
client's location appears exactly once as an intermediate (non-endpoint)
stop of its assigned vehicle's route and never in any other vehicle's
route. -/
theorem C4_amended (P : Planner) (stop : ℕ → Bool)
    (hvne : P.vehicles ≠ [])
    (hvid : (P.vehicles.map Vehicle.vid).Nodup)
    (hcid : (P.clients.map Client.cid).Nodup)
    (hm : P.maxIters ≠ 0)
    (hwhid : ∀ v ∈ P.vehicles, ∃ w ∈ P.warehouses, w.1 = v.whid)
    (hsk : ∀ c ∈ P.clients,
      (∀ g ∈ c.demand.map Prod.fst, g ∈ goodTypesOf P) ∧
      (if c.pickupFlag then ∀ p ∈ c.demand, p.2 ≤ 0
       else ∀ p ∈ c.demand, 0 ≤ p.2) ∧
      (c.demand.map Prod.fst).Nodup)
    (hwt : ∀ c ∈ P.clients, ∀ v ∈ P.vehicles,
      (if c.pickupFlag then pickupWeight c.demand else deliveryWeight c.demand)
        ≤ v.capacity)
    (hlocs : ∀ c1 ∈ P.clients, ∀ c2 ∈ P.clients, c1.cid ≠ c2.cid → c1.cloc ≠ c2.cloc)
    (hlocw : ∀ c ∈ P.clients, ∀ w ∈ P.warehouses, c.cloc ≠ w.2) :
    ∀ fuel : ℕ, 2 * P.clients.length + 1 ≤ fuel →
    ∃ cs, finalCenters P stop = some cs ∧
      planRoutes P stop fuel = P.vehicles.map (fun v =>
        (v.vid, buildCapacityRoute (ctxOf P v) (assignedTo cs P.clients v.vid) fuel)) ∧
      (∀ c ∈ P.clients, ∃! v, v ∈ P.vehicles ∧
        c.cid ∈ assignedTo cs P.clients v.vid) ∧
      ∀ v ∈ P.vehicles, ∃ r,
        buildCapacityRoute (ctxOf P v) (assignedTo cs P.clients v.vid) fuel
          = BuildRes.ok r ∧
        r.head? = some (whLocOf P v.whid) ∧
        r.getLast? = some (whLocOf P v.whid) ∧
        ∀ c ∈ P.clients,
          (interiorPts r).count c.cloc =
            if c.cid ∈ assignedTo cs P.clients v.vid then 1 else 0 := by
  intro fuel hfuel
  have hkeys0 : (centers0 P).map Prod.fst = P.vehicles.map Vehicle.vid := by
    simp [centers0]
  obtain ⟨cs, hcs, hfst⟩ := lloydCenters_some P.maxIters 0 (centers0 P) hm
  rw [hkeys0] at hfst
  have hcsf : finalCenters P stop = some cs := hcs
  have hcsne : cs ≠ [] := by
    intro h
    rw [h] at hfst
    exact hvne (List.map_eq_nil_iff.mp hfst.symm)
  have hplan : planRoutes P stop fuel = P.vehicles.map (fun v =>
      (v.vid, buildCapacityRoute (ctxOf P v) (assignedTo cs P.clients v.vid) fuel)) := by
    unfold planRoutes
    rw [hcsf]
  have hassign : ∀ c ∈ P.clients, ∃! v, v ∈ P.vehicles ∧
      c.cid ∈ assignedTo cs P.clients v.vid := by
    intro c hc
    obtain ⟨vid0, hn0, hv0mem⟩ := nearestCenter_mem cs c.cloc hcsne
    rw [hfst] at hv0mem
    obtain ⟨v0, hv0, hv0id⟩ := List.mem_map.mp hv0mem
    refine ⟨v0, ⟨hv0, mem_assignedTo.mpr ⟨c, hc, rfl, by rw [hv0id]; exact hn0⟩⟩, ?_⟩
    rintro v' ⟨hv', hmem'⟩
    obtain ⟨c', hc'm, hc'id, hn'⟩ := mem_assignedTo.mp hmem'
    have hcc : c' = c := inj_of_nodup_map hcid c' hc'm c hc hc'id
    subst hcc
    have hvv : v'.vid = v0.vid := by
      have := hn'.symm.trans hn0
      rw [hv0id]
      exact Option.some.inj this
    exact inj_of_nodup_map hvid v' hv' v0 hv0 hvv
  refine ⟨cs, hcsf, hplan, hassign, ?_⟩
  intro v hv
  have hmemc : ∀ cid ∈ assignedTo cs P.clients v.vid,
      ∃ c ∈ P.clients, c.cid = cid ∧ clientOf P cid = c := by
    intro cid hcmem
    obtain ⟨c, hcm, hcidq, _⟩ := mem_assignedTo.mp hcmem
    exact ⟨c, hcm, hcidq, by rw [← hcidq]; exact clientOf_eq hcid hcm⟩
  have hdepotw : whLocOf P v.whid ∈ P.warehouses.map Prod.snd := whLocOf_mem (hwhid v hv)
  have hwhs : (ctxOf P v).whs ≠ [] := by
    obtain ⟨w, hw, _⟩ := hwhid v hv
    rw [ctxOf_whs]
    exact List.ne_nil_of_mem hw
  have hcl : ∀ cid ∈ assignedTo cs P.clients v.vid,
      KeysOK (ctxOf P v) cid ∧ SignOK (ctxOf P v) cid ∧
      (((ctxOf P v).dvec cid).map Prod.fst).Nodup := by
    intro cid hcmem
    obtain ⟨c, hcm, hcidq, hcof⟩ := hmemc cid hcmem
    obtain ⟨hk, hs, hnd⟩ := hsk c hcm
    refine ⟨?_, ?_, ?_⟩
    · unfold KeysOK
      intro g hg
      rw [ctxOf_dvec, hcof] at hg
      rw [ctxOf_goodTypes]
      exact hk g hg
    · unfold SignOK
      rw [ctxOf_pk, ctxOf_dvec, hcof]
      exact hs
    · rw [ctxOf_dvec, hcof]
      exact hnd
  have hwt' : ∀ cid ∈ assignedTo cs P.clients v.vid,
      clientWeight (ctxOf P v) cid ≤ (ctxOf P v).capacity := by
    intro cid hcmem
    obtain ⟨c, hcm, hcidq, hcof⟩ := hmemc cid hcmem
    unfold clientWeight
    rw [ctxOf_pk, ctxOf_dvec, ctxOf_capacity, hcof]
    exact hwt c hcm v hv
  have hdl : DistinctLocs (ctxOf P v) (assignedTo cs P.clients v.vid) := by
    refine ⟨?_, ?_, ?_⟩
    · intro c1 h1 c2 h2 hne
      obtain ⟨a, ham, haid, hacof⟩ := hmemc c1 h1
      obtain ⟨b, hbm, hbid, hbcof⟩ := hmemc c2 h2
      rw [ctxOf_loc, ctxOf_loc, hacof, hbcof]
      exact hlocs a ham b hbm (by rw [haid, hbid]; exact hne)
    · intro cid hcm q hqm
      obtain ⟨a, ham, haid, hacof⟩ := hmemc cid hcm
      rw [ctxOf_whs] at hqm
      obtain ⟨w, hwm, hwq⟩ := List.mem_map.mp hqm
      rw [ctxOf_loc, hacof, ← hwq]
      exact hlocw a ham w hwm
    · intro cid hcm
      obtain ⟨a, ham, haid, hacof⟩ := hmemc cid hcm
      obtain ⟨w, hwm, hwq⟩ := List.mem_map.mp hdepotw
      rw [ctxOf_loc, hacof, ctxOf_depot, ← hwq]
      exact hlocw a ham w hwm
  have hndc : (assignedTo cs P.clients v.vid).Nodup := assignedTo_nodup hcid
  have hflen : 2 * (assignedTo cs P.clients v.vid).length + 1 ≤ fuel := by
    have := assignedTo_length_le cs P.clients v.vid
    omega
  obtain ⟨r, hr, hhead, hlast, hcount, hpts⟩ :=
    build_completes hwhs hcl hwt' hdl hndc fuel hflen
  rw [ctxOf_depot] at hhead hlast
  refine ⟨r, hr, hhead, hlast, ?_⟩
  intro c hc
  have hcne : c.cloc ≠ whLocOf P v.whid := by
    obtain ⟨w, hwm, hwq⟩ := List.mem_map.mp hdepotw
    rw [← hwq]
    exact hlocw c hc w hwm
  rw [count_interior hhead hlast hcne]
  by_cases hmem : c.cid ∈ assignedTo cs P.clients v.vid
  · rw [if_pos hmem]
    have hcof : clientOf P c.cid = c := clientOf_eq hcid hc
    have hloc : (ctxOf P v).loc c.cid = c.cloc := by rw [ctxOf_loc, hcof]
    rw [← hloc]
    exact hcount c.cid hmem
  · rw [if_neg hmem, List.count_eq_zero]
    intro habs
    rcases hpts c.cloc habs with hd | hw | ⟨c', hc'm, hceq⟩
    · rw [ctxOf_depot] at hd
      exact hcne hd
    · rw [ctxOf_whs] at hw
      obtain ⟨w, hwm, hwq⟩ := List.mem_map.mp hw
      exact hlocw c hc w hwm hwq.symm
    · obtain ⟨b, hbm, hbid, hbcof⟩ := hmemc c' hc'm
      rw [ctxOf_loc, hbcof] at hceq
      by_cases hcb : c.cid = b.cid
      · exact hmem (by rw [hcb, hbid]; exact hc'm)
      · exact hlocs c hc b hbm hcb hceq

/-- A concrete feasible planner instance for the C4 witness: one warehouse at
the origin, one vehicle of capacity 100 based there, one delivery client at
(5, 0) demanding 40 units of good 0, one clustering iteration. -/
def P4w : Planner :=
  ⟨[(0, ((0 : ℚ), (0 : ℚ)))],
   [⟨0, ((5 : ℚ), (0 : ℚ)), [(0, (40 : ℚ))], false⟩],
   [⟨0, 100, 0⟩], 1⟩

theorem C4_amended_witness :
    ∃ cs, finalCenters P4w (fun _ => true) = some cs ∧
      planRoutes P4w (fun _ => true) 3 = P4w.vehicles.map (fun v =>
        (v.vid, buildCapacityRoute (ctxOf P4w v) (assignedTo cs P4w.clients v.vid) 3)) ∧
      (∀ c ∈ P4w.clients, ∃! v, v ∈ P4w.vehicles ∧
        c.cid ∈ assignedTo cs P4w.clients v.vid) ∧
      ∀ v ∈ P4w.vehicles, ∃ r,
        buildCapacityRoute (ctxOf P4w v) (assignedTo cs P4w.clients v.vid) 3
          = BuildRes.ok r ∧
        r.head? = some (whLocOf P4w v.whid) ∧
        r.getLast? = some (whLocOf P4w v.whid) ∧
        ∀ c ∈ P4w.clients,
          (interiorPts r).count c.cloc =
            if c.cid ∈ assignedTo cs P4w.clients v.vid then 1 else 0 := by
  apply C4_amended P4w (fun _ => true)
  · simp [P4w]
  · simp [P4w]
  · simp [P4w]
  · simp [P4w]
  · intro v hv
    refine ⟨(0, ((0 : ℚ), (0 : ℚ))), by simp [P4w], ?_⟩
    have : v = ⟨0, 100, 0⟩ := by simpa [P4w] using hv
    rw [this]
  · intro c hc
    have : c = ⟨0, ((5 : ℚ), (0 : ℚ)), [(0, (40 : ℚ))], false⟩ := by
      simpa [P4w] using hc
    subst this
    refine ⟨?_, ?_, ?_⟩
    · intro g hg
      simp [goodTypesOf, P4w]
      simpa using hg
    · norm_num
    · simp
  · intro c hc v hv
    have hc' : c = ⟨0, ((5 : ℚ), (0 : ℚ)), [(0, (40 : ℚ))], false⟩ := by
      simpa [P4w] using hc
    have hv' : v = ⟨0, 100, 0⟩ := by simpa [P4w] using hv
    subst hc'
    subst hv'
    norm_num [deliveryWeight]
  · intro c1 h1 c2 h2 hne
    have h1' : c1 = ⟨0, ((5 : ℚ), (0 : ℚ)), [(0, (40 : ℚ))], false⟩ := by
      simpa [P4w] using h1
    have h2' : c2 = ⟨0, ((5 : ℚ), (0 : ℚ)), [(0, (40 : ℚ))], false⟩ := by
      simpa [P4w] using h2
    rw [h1', h2'] at hne
    exact absurd rfl hne
  · intro c hc w hw
    have hc' : c = ⟨0, ((5 : ℚ), (0 : ℚ)), [(0, (40 : ℚ))], false⟩ := by
      simpa [P4w] using hc
    have hw' : w = (0, ((0 : ℚ), (0 : ℚ))) := by simpa [P4w] using hw
    subst hc'
    subst hw'
    norm_num [Prod.ext_iff]
  · norm_num [P4w]
